import Mathlib

/-!
# md-links: the markdown cross-reference graph builder

A shallow embedding of `src/md-links/main.go` and theorems about it.

* Go strings are byte strings (`GoString`); all offsets are byte offsets.
* Pointers (`*Node`, `*Link`) are indices into the object stores carried by `Graph`.
* The directory walk is the list of callback invocations `filepath.WalkDir` makes.
* The Go standard library functions the program calls (`regexp`, `net/url`,
  `path/filepath`, `strings`, `math`) are modelled on Unix from their documented behaviour.
-/

namespace MdLinks

/-! ## Strings -/

/-- A Go `string`: an immutable sequence of bytes. -/
abbrev GoString := List UInt8

/-- The bytes (UTF-8) of a string literal. -/
def str (s : String) : GoString := s.toUTF8.data.toList

/-- The byte of an ASCII character literal. -/
def byte (c : Char) : UInt8 := c.toNat.toUInt8

/-- Go `strings.HasSuffix`. -/
def HasSuffix (s suffix : GoString) : Bool := suffix.isSuffixOf s

/-- Go `strings.Split(s, "\n")`: the pieces between newlines (one piece for the empty string). -/
def splitLines (s : GoString) : List GoString := s.splitOn (byte '\n')

/-- Go slice expression `xs[lo:hi]` on a slice or string whose capacity is its length:
`none` is the run-time panic for bounds that are out of range. -/
def slice {α : Type} (xs : List α) (lo hi : Int) : Option (List α) :=
  if 0 ≤ lo ∧ lo ≤ hi ∧ hi ≤ (xs.length : Int) then
    some ((xs.drop lo.toNat).take (hi.toNat - lo.toNat))
  else none

/-- Go `fmt` verb `%d` for an `int`. -/
def itoa (n : Int) : GoString := str (toString n)

/-! ## Errors -/

/-- The `error` values that can reach `BuildGraph`. -/
inductive Err where
  /-- An error of the operating system, reported by `WalkDir` or `os.ReadFile`. -/
  | os (code : Nat)
  /-- Go `url.EscapeError`: the malformed escape. -/
  | escape (s : GoString)
  /-- Go `errors.New("Rel: can't make " + targpath + " relative to " + basepath)`. -/
  | rel (targpath basepath : GoString)
  deriving DecidableEq, Repr

deriving instance DecidableEq for Except

/-! ## `regexp`: the pattern `\[([^\[]*)\]\(([^\(]*\.md)\)`

Go's `regexp` returns the leftmost match and, among the matches starting there, the one a
backtracking search finds first (greedy `*` tries the longer repetition first).  The three
functions below follow the pattern from right to left. -/

/-- `[^\(]*\.md\)` at the start of `s`: the length of what capture group 2 matches. -/
def matchTarget : GoString → Option Nat
  | [] => none
  | c :: cs =>
    let stop : Option Nat := if (str ".md)").isPrefixOf (c :: cs) then some 3 else none
    if c ≠ byte '(' then
      match matchTarget cs with
      | some n => some (n + 1)
      | none => stop
    else stop

/-- `\]\(([^\(]*\.md)\)` at the start of `s`: the length of what capture group 2 matches. -/
def matchClose : GoString → Option Nat
  | a :: b :: rest => if a = byte ']' ∧ b = byte '(' then matchTarget rest else none
  | _ => none

/-- `([^\[]*)\]\(([^\(]*\.md)\)` at the start of `s`: the lengths of capture groups 1 and 2. -/
def matchDisplay : GoString → Option (Nat × Nat)
  | [] => none
  | c :: cs =>
    let stop : Option (Nat × Nat) := (matchClose (c :: cs)).map (fun n2 => (0, n2))
    if c ≠ byte '[' then
      match matchDisplay cs with
      | some (n1, n2) => some (n1 + 1, n2)
      | none => stop
    else stop

/-- The whole pattern at the start of `s`: the lengths of capture groups 1 and 2. -/
def matchHere : GoString → Option (Nat × Nat)
  | [] => none
  | c :: cs => if c = byte '[' then matchDisplay cs else none

/-- The index sextuple `[m0, m1, g1a, g1b, g2a, g2b]` of a match at offset `pos` whose capture
groups have lengths `n1` and `n2`. -/
def locsAt (pos n1 n2 : Nat) : List Int :=
  [(pos : Int), ((pos + n1 + n2 + 4 : Nat) : Int), ((pos + 1 : Nat) : Int),
   ((pos + 1 + n1 : Nat) : Int), ((pos + n1 + 3 : Nat) : Int), ((pos + n1 + 3 + n2 : Nat) : Int)]

/-- The successive non-overlapping matches in the rest `s` of a line that starts at offset
`pos`; the first `skip` bytes belong to the previous match. -/
def findAllFrom : Nat → Nat → GoString → List (List Int)
  | _, _, [] => []
  | pos, skip + 1, _ :: cs => findAllFrom (pos + 1) skip cs
  | pos, 0, c :: cs =>
    match matchHere (c :: cs) with
    | some (n1, n2) => locsAt pos n1 n2 :: findAllFrom (pos + 1) (n1 + n2 + 3) cs
    | none => findAllFrom (pos + 1) 0 cs

/-- Go `pattern.FindAllStringSubmatchIndex(line, -1)`. -/
def FindAllStringSubmatchIndex (line : GoString) : List (List Int) := findAllFrom 0 0 line

/-! ## `net/url`: `QueryUnescape` -/

/-- Go `ishex`. -/
def ishex (c : UInt8) : Bool :=
  (byte '0' ≤ c ∧ c ≤ byte '9') ∨ (byte 'a' ≤ c ∧ c ≤ byte 'f') ∨ (byte 'A' ≤ c ∧ c ≤ byte 'F')

/-- Go `unhex`. -/
def unhex (c : UInt8) : UInt8 :=
  if byte '0' ≤ c ∧ c ≤ byte '9' then c - byte '0'
  else if byte 'a' ≤ c ∧ c ≤ byte 'f' then c - byte 'a' + 10
  else if byte 'A' ≤ c ∧ c ≤ byte 'F' then c - byte 'A' + 10
  else 0

/-- First loop of Go `unescape`: the first `%` not followed by two hex digits, cut to at most
three bytes, if there is one. -/
def badEscape : GoString → Option GoString
  | [] => none
  | c :: cs =>
    if c = byte '%' then
      match cs with
      | h1 :: h2 :: rest => if ishex h1 ∧ ishex h2 then badEscape rest else some ((c :: cs).take 3)
      | _ => some ((c :: cs).take 3)
    else badEscape cs

/-- Second loop of Go `unescape` in query-component mode: `%XX` becomes the byte `XX`, `+`
becomes a space, every other byte is copied. -/
def decodeEscapes : GoString → GoString
  | [] => []
  | c :: cs =>
    if c = byte '%' then
      match cs with
      | h1 :: h2 :: rest => (unhex h1 <<< 4 ||| unhex h2) :: decodeEscapes rest
      | _ => []
    else if c = byte '+' then byte ' ' :: decodeEscapes cs
    else c :: decodeEscapes cs

/-- Go `url.QueryUnescape`. -/
def QueryUnescape (s : GoString) : Except Err GoString :=
  match badEscape s with
  | some bad => .error (.escape bad)
  | none =>
    if byte '%' ∉ s ∧ byte '+' ∉ s then .ok s
    else .ok (decodeEscapes s)

/-! ## `path/filepath` on Unix -/

/-- The path separator. -/
def sep : UInt8 := byte '/'

/-- One path element in `filepath.Clean`; `out` holds the elements written so far, the last
one first.  An empty element and `.` are dropped; `..` removes the last element when that
is not itself `..`, is dropped at the top of a rooted path and is kept otherwise. -/
def cleanStep (rooted : Bool) (out : List GoString) (e : GoString) : List GoString :=
  if e = [] ∨ e = str "." then out
  else if e = str ".." then
    match out with
    | l :: rest => if l ≠ str ".." then rest else if rooted then out else e :: out
    | [] => if rooted then out else e :: out
  else e :: out

/-- Go `filepath.Clean`. -/
def Clean (path : GoString) : GoString :=
  if path = [] then str "."
  else
    let rooted : Bool := path.head? = some sep
    let out := (path.splitOn sep).foldl (cleanStep rooted) []
    let body := [sep].intercalate out.reverse
    if rooted then sep :: body
    else if out = [] then str "."
    else body

/-- Go `filepath.Dir`: all but the last element of `path`, cleaned. -/
def Dir (path : GoString) : GoString :=
  Clean (path.reverse.dropWhile (fun c => c ≠ sep)).reverse

/-- Go `filepath.Join`: the elements from the first non-empty one on, joined by separators
and cleaned. -/
def Join (elem : List GoString) : GoString :=
  match elem.dropWhile (fun e => e = []) with
  | [] => []
  | es => Clean ([sep].intercalate es)

/-- The element-matching loop of `filepath.Rel` on the unread parts of `base` and `targ`:
returns `(base[b0:], targ[t0:], base[b0:bi])` at loop exit, where `base[b0:bi]` is the
element of the base at which the loop stops: the first one that differs from the element of
the target, which is also the next one when the target is used up before the base; it is
empty when the base is used up. -/
def relLoop : Nat → GoString → GoString → GoString × GoString × GoString
  | 0, base, targ => (base, targ, [])
  | fuel + 1, base, targ =>
    if base = [] then (base, targ, [])
    else
      let b := base.takeWhile (fun c => c ≠ sep)
      let t := targ.takeWhile (fun c => c ≠ sep)
      if targ = [] ∨ t ≠ b then (base, targ, b)
      else relLoop fuel ((base.dropWhile (fun c => c ≠ sep)).drop 1)
        ((targ.dropWhile (fun c => c ≠ sep)).drop 1)

/-- Go `filepath.Rel`. -/
def Rel (basepath targpath : GoString) : Except Err GoString :=
  let base := Clean basepath
  let targ := Clean targpath
  if targ = base then .ok (str ".")
  else
    let base := if base = str "." then [] else base
    let baseSlashed : Bool := base.head? = some sep
    let targSlashed : Bool := targ.head? = some sep
    if baseSlashed ≠ targSlashed then .error (.rel targpath basepath)
    else
      match relLoop (base.length + 1) base targ with
      | (baseRest, targRest, bElem) =>
        if bElem = str ".." then .error (.rel targpath basepath)
        else if baseRest ≠ [] then
          let seps := baseRest.count sep
          let ups := str ".." ++ (List.replicate seps (str "/..")).flatten
          if targRest ≠ [] then .ok (ups ++ sep :: targRest)
          else .ok ups
        else .ok targRest

/-! ## `math`: the context window -/

/-- The value of Go `float64(n)` for an `int` `n`: the nearest double (ties to even), which is
an integer; it is `n` itself up to magnitude `2^53`. -/
def float64 (n : Int) : Int :=
  if n.natAbs ≤ 2 ^ 53 then n
  else
    let a := n.natAbs
    let k := Nat.log2 a - 52
    let q := a / 2 ^ k
    let r := a % 2 ^ k
    let up : Bool := 2 ^ (k - 1) < r ∨ (r = 2 ^ (k - 1) ∧ q % 2 = 1)
    let m : Nat := (if up then q + 1 else q) * 2 ^ k
    if n < 0 then -(m : Int) else (m : Int)

/-- A bound on the number of elements of a Go slice of strings: the Go runtime on 64-bit
platforms allocates at most `2^48` bytes (`maxAlloc`). -/
def maxLines : Nat := 2 ^ 48

/-- `int(math.Max(0, float64(row-1)))` of `BuildGraph`. -/
def contextStart (row : Int) : Int := max 0 (float64 (row - 1))

/-- `int(math.Min(float64(nLines), float64(row+3)))` of `BuildGraph`. -/
def contextEnd (nLines row : Int) : Int := min (float64 nLines) (float64 (row + 3))

/-! ## The graph -/

/-- Go `Link`; `from` and `to` are `*Node`. -/
structure Link where
  row : Int
  col : Int
  «from» : Nat
  «to» : Nat
  context : List GoString
  deriving DecidableEq, Repr

/-- Go `Node`; `inLinks` and `outLinks` are `[]*Link`. -/
structure Node where
  path : GoString
  inLinks : List Nat
  outLinks : List Nat
  deriving DecidableEq, Repr

/-- Go `Graph` with the objects its pointers refer to: `nodes` is the `map[string]*Node` (a
list of key/pointer pairs with distinct keys, in insertion order), `nodeObjs` and `linkObjs`
are the allocated `Node` and `Link` objects, a pointer being the index of its object. -/
structure Graph where
  nodes : List (GoString × Nat)
  nodeObjs : List Node
  linkObjs : List Link
  deriving DecidableEq, Repr

/-- The graph `&Graph{nodes: map[string]*Node{}}` and no object allocated. -/
def Graph.empty : Graph := ⟨[], [], []⟩

/-- The `Node` a `*Node` points to; a pointer that was never allocated, which no reachable
graph holds, reads as a node without path and links. -/
def Graph.node (g : Graph) (p : Nat) : Node := g.nodeObjs.getD p ⟨[], [], []⟩

/-- The `Link` a `*Link` points to; a pointer that was never allocated, which no reachable
graph holds, reads as a link without context. -/
def Graph.link (g : Graph) (p : Nat) : Link := g.linkObjs.getD p ⟨0, 0, 0, 0, []⟩

/-- Go map read `g.nodes[path]` with the `ok` flag. -/
def Graph.lookup (g : Graph) (path : GoString) : Option Nat := g.nodes.lookup path

/-- Go map write `m[key] = p`: replaces the value of an existing key, adds a new key. -/
def mapSet (m : List (GoString × Nat)) (key : GoString) (p : Nat) : List (GoString × Nat) :=
  if (m.lookup key).isSome then m.map (fun kv => if kv.1 = key then (key, p) else kv)
  else m ++ [(key, p)]

/-- Go `NewNode`: allocates a node with the given path and no links; returns its pointer. -/
def NewNode (g : Graph) (path : GoString) : Graph × Nat :=
  ({ g with nodeObjs := g.nodeObjs ++ [⟨path, [], []⟩] }, g.nodeObjs.length)

/-- Go `(*Graph).GetNode`. -/
def GetNode (g : Graph) (path : GoString) : Graph × Nat :=
  match g.lookup path with
  | some node => (g, node)
  | none =>
    let (g1, node) := NewNode g path
    ({ g1 with nodes := mapSet g1.nodes path node }, node)

/-- Go `(*Node).LinkTo` with receiver `n`: allocates the link, then appends its pointer to
`n.outLinks` and then to `another.inLinks`. -/
def LinkTo (g : Graph) (n another : Nat) (row col : Int) (context : List GoString) : Graph :=
  let link := g.linkObjs.length
  let links := g.linkObjs ++ [⟨row, col, n, another, context⟩]
  let objs1 := List.modify (fun nd => { nd with outLinks := nd.outLinks ++ [link] }) n g.nodeObjs
  let objs2 := List.modify (fun nd => { nd with inLinks := nd.inLinks ++ [link] }) another objs1
  { g with nodeObjs := objs2, linkObjs := links }

/-- What `fmt.Printf("    %d: %s\n", inLink.row+i, ctxLine)` writes. -/
def contextLine (n : Int) (ctxLine : GoString) : GoString :=
  str "    " ++ itoa n ++ str ": " ++ ctxLine ++ str "\n"

/-- What the body of the outer loop of `DescribeInbounds` writes for one inbound link. -/
def describeLink (g : Graph) (inLink : Link) : GoString :=
  str "  " ++ (g.node inLink.«from»).path ++ str "\n" ++
    (inLink.context.enum.map (fun ic => contextLine (inLink.row + (ic.1 : Int)) ic.2)).flatten

/-- Go `(*Node).DescribeInbounds` with receiver `n`: the bytes written to standard output. -/
def DescribeInbounds (g : Graph) (n : Nat) : GoString :=
  (g.node n).path ++ str " is mentioned in\n" ++
    ((g.node n).inLinks.map (fun l => describeLink g (g.link l))).flatten

/-- Go `(*Graph).DescribeAllNodes`, the map being ranged over in the order `order`: the bytes
written to standard output and whether the function panicked. -/
def DescribeAllNodes (g : Graph) : List (GoString × Nat) → GoString × Bool
  | [] => ([], false)
  | (path, node) :: rest =>
    if path ≠ (g.node node).path then ([], true)
    else
      let out := if (g.node node).inLinks.length > 0 then DescribeInbounds g node else []
      let r := DescribeAllNodes g rest
      (out ++ r.1, r.2)

/-! ## Building the graph -/

/-- How a loop body or a callback ends: it completes and the loop goes on (`next`), it
returns a non-nil error (`stop`), or it panics. -/
inductive Res (σ : Type) where
  | next : σ → Res σ
  | stop : σ → Err → Res σ
  | panic : Res σ
  deriving DecidableEq, Repr

/-- A `for ... range` loop over `xs` whose body may return an error or panic. -/
def forEach {σ α : Type} (body : σ → α → Res σ) : List α → σ → Res σ
  | [], s => .next s
  | a :: as, s =>
    match body s a with
    | .next s1 => forEach body as s1
    | .stop s1 e => .stop s1 e
    | .panic => .panic

/-- The body of the inner loop of `BuildGraph`: one match `locs` on line `row` of the file
`curPath`, whose node is `node` and whose lines are `lines`. -/
def linkBody (rootDir curPath : GoString) (lines : List GoString) (node : Nat) (row : Nat)
    (line : GoString) (g : Graph) (locs : List Int) : Res Graph :=
  if locs.length ≠ 6 then .panic
  else
    let mentionAt := locs.getD 2 0
    match slice line (locs.getD 4 0) (locs.getD 5 0) with
    | none => .panic
    | some target =>
      match QueryUnescape target with
      | .error err => .stop g err
      | .ok pathOfLink =>
        let pathOfLink := Join [Dir curPath, str "./", pathOfLink]
        match Rel rootDir pathOfLink with
        | .error err => .stop g err
        | .ok pathOfLinkRel =>
          let (g1, nodeOfLink) := GetNode g pathOfLinkRel
          match slice lines (contextStart row) (contextEnd lines.length row) with
          | none => .panic
          | some context => .next (LinkTo g1 node nodeOfLink row mentionAt context)

/-- The body of the loop over the lines of a file in `BuildGraph`. -/
def lineBody (rootDir curPath : GoString) (lines : List GoString) (node : Nat)
    (g : Graph) (rl : Nat × GoString) : Res Graph :=
  forEach (linkBody rootDir curPath lines node rl.1 rl.2) (FindAllStringSubmatchIndex rl.2) g

/-- One invocation of the callback by `filepath.WalkDir`: the path and error it is called
with, whether the entry is a directory, and what `os.ReadFile` returns for that path. -/
structure WalkEntry where
  curPath : GoString
  err : Option Err
  isDir : Bool
  content : Except Err GoString
  deriving DecidableEq

/-- The variables of `BuildGraph` that its callback updates. -/
structure Build where
  graph : Graph
  nMDs : Int
  deriving DecidableEq, Repr

/-- The callback that `BuildGraph` passes to `filepath.WalkDir`. -/
def walkFn (rootDir : GoString) (s : Build) (d : WalkEntry) : Res Build :=
  match d.err with
  | some err => .stop s err
  | none =>
    if d.isDir then .next s
    else if !HasSuffix d.curPath (str ".md") then .next s
    else
      let s : Build := { s with nMDs := s.nMDs + 1 }
      match d.content with
      | .error err => .stop s err
      | .ok content =>
        match Rel rootDir d.curPath with
        | .error err => .stop s err
        | .ok curPathRel =>
          let (g, node) := GetNode s.graph curPathRel
          let lines := splitLines content
          match forEach (lineBody rootDir d.curPath lines node) lines.enum g with
          | .next g1 => .next { s with graph := g1 }
          | .stop g1 err => .stop { s with graph := g1 } err
          | .panic => .panic

/-- Go `BuildGraph`, on the invocations `walk` that `filepath.WalkDir(rootDir, ...)` makes
while the callback returns nil: `next s` is the return `(s.graph, s.nMDs, nil)`, `stop s err`
the return `(s.graph, s.nMDs, err)`.  The callback returns no error but the ones it is
given or gets from `os.ReadFile`, `filepath.Rel` and `url.QueryUnescape`, none of which is
`fs.SkipDir` or `fs.SkipAll`, so the walk ends at the first of them and returns it. -/
def BuildGraph (rootDir : GoString) (walk : List WalkEntry) : Res Build :=
  forEach (walkFn rootDir) walk ⟨Graph.empty, 0⟩

/-! ## The program -/

/-- What `main` reads from its environment: the result of `os.Getwd`, the flags, what the
walk from a root reports, the order in which a map is ranged over, and the text of errors. -/
structure Env where
  getwd : Except Err GoString
  root : Option GoString
  linkTo : GoString
  walk : GoString → List WalkEntry
  rangeOrder : List (GoString × Nat) → List (GoString × Nat)
  errorText : Err → GoString

/-- How the process ends: what it wrote to standard output and its exit status (2 after a
panic). -/
structure Exit where
  stdout : GoString
  status : Nat
  deriving DecidableEq, Repr

/-- Go `main` of `md-links`. -/
def main (env : Env) : Exit :=
  match env.getwd with
  | .error _ => ⟨[], 2⟩
  | .ok cwd =>
    let rootDir := env.root.getD cwd
    match BuildGraph rootDir (env.walk rootDir) with
    | .panic => ⟨[], 2⟩
    | .stop _ err => ⟨str "Error while walking, err: " ++ env.errorText err ++ str "\n", 1⟩
    | .next s =>
      if s.nMDs ≠ (s.graph.nodes.length : Int) then
        ⟨str "Visited files mismatch: " ++ itoa s.nMDs ++ str " != " ++
          itoa s.graph.nodes.length ++ str " (# of graph nodes)\n", 1⟩
      else if env.linkTo.length = 0 then
        let r := DescribeAllNodes s.graph (env.rangeOrder s.graph.nodes)
        ⟨r.1, if r.2 then 2 else 0⟩
      else
        match Rel rootDir (Join [cwd, str "./", env.linkTo]) with
        | .error err =>
          ⟨str "Failed to normalize link to: " ++ env.linkTo ++ str ", err: " ++
            env.errorText err ++ str "\n", 1⟩
        | .ok normalizedLinkTo =>
          match s.graph.lookup normalizedLinkTo with
          | none => ⟨str "No file found: " ++ normalizedLinkTo ++ str "\n", 1⟩
          | some node => ⟨DescribeInbounds s.graph node, 0⟩

/-! ## Reachable graphs -/

/-- The graphs obtained from the empty graph by `GetNode` and `LinkTo` calls, `LinkTo` being
called on allocated nodes. -/
inductive Reachable : Graph → Prop
  | empty : Reachable Graph.empty
  | getNode {g : Graph} (path : GoString) : Reachable g → Reachable (GetNode g path).1
  | linkTo {g : Graph} (n another : Nat) (row col : Int) (context : List GoString) :
      Reachable g → n < g.nodeObjs.length → another < g.nodeObjs.length →
      Reachable (LinkTo g n another row col context)

/-- Well-formedness of a graph: registered pointers are allocated and each node carries
its key; keys are distinct and every allocated node is registered; the ends of a link are
allocated; a node's `outLinks` (`inLinks`) are exactly the allocated links that start (end)
at it. -/
structure WF (g : Graph) : Prop where
  registry : ∀ kv ∈ g.nodes, kv.2 < g.nodeObjs.length ∧ (g.node kv.2).path = kv.1
  nodup : (g.nodes.map Prod.fst).Nodup
  registered : ∀ p, p < g.nodeObjs.length → ((g.node p).path, p) ∈ g.nodes
  ends : ∀ l, l < g.linkObjs.length →
    (g.link l).«from» < g.nodeObjs.length ∧ (g.link l).«to» < g.nodeObjs.length
  outs : ∀ n l, l ∈ (g.node n).outLinks ↔ l < g.linkObjs.length ∧ (g.link l).«from» = n
  ins : ∀ n l, l ∈ (g.node n).inLinks ↔ l < g.linkObjs.length ∧ (g.link l).«to» = n

/-- The state a loop or `BuildGraph` ends in, unless it panicked. -/
def Res.state? {σ : Type} : Res σ → Option σ
  | .next s => some s
  | .stop s _ => some s
  | .panic => none

/-- In graph `g`, `l` is the link recorded for the match `locs` on line `row` of the file
that walk entry `d` reports, `target` being the text of capture group 2 and `decoded` its
unescaped form. -/
structure RecordedAt (rootDir : GoString) (d : WalkEntry) (content : GoString) (row : Nat)
    (locs : List Int) (target decoded : GoString) (g : Graph) (l : Link) : Prop where
  noErr : d.err = none
  notDir : d.isDir = false
  isMd : HasSuffix d.curPath (str ".md") = true
  read : d.content = .ok content
  row_lt : row < (splitLines content).length
  found : locs ∈ FindAllStringSubmatchIndex ((splitLines content).getD row [])
  row_eq : l.row = (row : Int)
  col_eq : l.col = locs.getD 2 0
  target_eq : slice ((splitLines content).getD row []) (locs.getD 4 0) (locs.getD 5 0) =
    some target
  decoded_eq : QueryUnescape target = .ok decoded
  context_eq : slice (splitLines content) (contextStart row)
    (contextEnd (splitLines content).length row) = some l.context
  from_path : Rel rootDir d.curPath = .ok (g.node l.«from»).path
  to_path : Rel rootDir (Join [Dir d.curPath, str "./", decoded]) = .ok (g.node l.«to»).path

/-- Every link of `g` was recorded for a match in a file of the walk. -/
def AllRecorded (rootDir : GoString) (walk : List WalkEntry) (g : Graph) : Prop :=
  ∀ i, i < g.linkObjs.length → ∃ d ∈ walk, ∃ content row locs target decoded,
    RecordedAt rootDir d content row locs target decoded g (g.link i)

/-- The invariant of the loops of `BuildGraph` while the file of walk entry `d`, whose node
is `node`, is being scanned. -/
def LoopInv (rootDir : GoString) (walk : List WalkEntry) (d : WalkEntry) (node : Nat)
    (g : Graph) : Prop :=
  Reachable g ∧ AllRecorded rootDir walk g ∧ node < g.nodeObjs.length ∧
    Rel rootDir d.curPath = .ok (g.node node).path

/-! ## Path elements -/

/-- Whether a path starts with the separator. -/
def isRooted (path : GoString) : Bool := path.head? = some sep

/-- The elements `filepath.Clean` has written when it reaches the end of `path`, the last
one first. -/
def stackOf (rooted : Bool) (path : GoString) : List GoString :=
  (path.splitOn sep).foldl (cleanStep rooted) []

/-- The string `filepath.Clean` returns for the written elements `out`. -/
def render (rooted : Bool) (out : List GoString) : GoString :=
  if rooted then sep :: [sep].intercalate out.reverse
  else if out = [] then str "."
  else [sep].intercalate out.reverse

/-- What holds of the elements written by `filepath.Clean`: none is empty, `.` or contains a
separator, and `..` occurs only in a relative path, with only `..` before it. -/
def okStack (rooted : Bool) : List GoString → Prop
  | [] => True
  | e :: rest => e ≠ [] ∧ e ≠ str "." ∧ sep ∉ e ∧
      (e = str ".." → rooted = false ∧ ∀ x ∈ rest, x = str "..") ∧ okStack rooted rest

/-- The last element of a path: what follows its last separator. -/
def lastElem (path : GoString) : GoString := (path.reverse.takeWhile (fun c => c ≠ sep)).reverse

/-- A path up to and including its last separator. -/
def dirPart (path : GoString) : GoString := (path.reverse.dropWhile (fun c => c ≠ sep)).reverse

/-! ## Example trees -/

/-- The walk of a directory `/p` that holds the single file `a.md`, of five lines; the
second line links to `b.md` and to the file itself. -/
def walkOneFile : List WalkEntry :=
  [⟨str "/p", none, true, .error (.os 21)⟩,
   ⟨str "/p/a.md", none, false, .ok (str "x\n[a](b.md) [a](./a.md)\ny\nz\nw")⟩]

/-- The walk of a directory `/p` that holds the single file `a.md`, of two lines; the
second line links to `b.md`. -/
def walkTwoLines : List WalkEntry :=
  [⟨str "/p", none, true, .error (.os 21)⟩,
   ⟨str "/p/a.md", none, false, .ok (str "x\n[a](b.md)")⟩]

/-- The graph that `BuildGraph` returns for `walkTwoLines`. -/
def graphTwoLines : Graph :=
  ⟨[(str "a.md", 0), (str "b.md", 1)],
   [⟨str "a.md", [], [0]⟩, ⟨str "b.md", [0], []⟩],
   [⟨1, 1, 0, 1, [str "x", str "[a](b.md)"]⟩]⟩

/-- An environment of `main`: run in `/p` without flags on the tree `walkTwoLines`. -/
def envTwoLines : Env :=
  ⟨.ok (str "/p"), none, [], fun _ => walkTwoLines, id, fun _ => []⟩

/-- An environment of `main`: run in `/p` without flags on a tree that holds the single
file `a.md`, without links. -/
def envNoLinks : Env :=
  ⟨.ok (str "/p"), none, [],
    fun _ => [⟨str "/p", none, true, .error (.os 21)⟩,
      ⟨str "/p/a.md", none, false, .ok (str "no links here\n")⟩],
    id, fun _ => []⟩

/-- The walk of a directory `/p` that holds the single file `a.md`, of two lines, each
linking to `b.md`. -/
def walkTwoLinks : List WalkEntry :=
  [⟨str "/p", none, true, .error (.os 21)⟩,
   ⟨str "/p/a.md", none, false, .ok (str "[a](b.md)\n[c](b.md)")⟩]

/-- The graph that `BuildGraph` returns for `walkTwoLinks`. -/
def graphTwoLinks : Graph :=
  ⟨[(str "a.md", 0), (str "b.md", 1)],
   [⟨str "a.md", [], [0, 1]⟩, ⟨str "b.md", [0, 1], []⟩],
   [⟨0, 1, 0, 1, [str "[a](b.md)", str "[c](b.md)"]⟩,
    ⟨1, 1, 0, 1, [str "[a](b.md)", str "[c](b.md)"]⟩]⟩

/-- The walk of a directory `/p` that holds the single file `c++.md`, whose one line links
to `c++.md`. -/
def walkPlus : List WalkEntry :=
  [⟨str "/p", none, true, .error (.os 21)⟩,
   ⟨str "/p/c++.md", none, false, .ok (str "[me](c++.md)")⟩]

/-- The walk of the root `/proj` that holds the single file `/proj/a/b/doc.md`, whose one
line links to `../sibling.md`. -/
def walkProj : List WalkEntry :=
  [⟨str "/proj", none, true, .error (.os 21)⟩,
   ⟨str "/proj/a", none, true, .error (.os 21)⟩,
   ⟨str "/proj/a/b", none, true, .error (.os 21)⟩,
   ⟨str "/proj/a/b/doc.md", none, false, .ok (str "[s](../sibling.md)")⟩]

/-- The walk of the root `a` that holds the single file `a/b/doc.md`, whose one line links
to `../sibling.md`. -/
def walkRelative : List WalkEntry :=
  [⟨str "a", none, true, .error (.os 21)⟩,
   ⟨str "a/b", none, true, .error (.os 21)⟩,
   ⟨str "a/b/doc.md", none, false, .ok (str "[s](../sibling.md)")⟩]

/-! ## The reports in the words of the specification -/

/-- The report of one link, in the words of the specification: the lines that show the
context lines `cs`, numbered from `row + i` on. -/
def specContextLines (row : Int) : Nat → List GoString → List GoString
  | _, [] => []
  | i, c :: cs =>
    (str "    " ++ itoa (row + (i : Int)) ++ str ": " ++ c) :: specContextLines row (i + 1) cs

/-- The report of a node, in the words of the specification: the line `<path> is mentioned
in`, then for each inbound link, in stored order, the line of its source path, indented by
two spaces, and the lines of its context. -/
def specInboundLines (g : Graph) (n : Nat) : List GoString :=
  ((g.node n).path ++ str " is mentioned in") ::
    ((g.node n).inLinks.map (fun l =>
      (str "  " ++ (g.node (g.link l).«from»).path) ::
        specContextLines (g.link l).row 0 (g.link l).context)).flatten

/-- The bytes of a sequence of printed lines: each line is followed by a newline. -/
def printedLines (ls : List GoString) : GoString := (ls.map (fun l => l ++ str "\n")).flatten

/-- An environment of `main`: run in `/p` with `-link-to a.md` on a tree that holds the
single file `a.md`, without links. -/
def envQueryNoInbound : Env :=
  ⟨.ok (str "/p"), none, str "a.md",
    fun _ => [⟨str "/p", none, true, .error (.os 21)⟩,
      ⟨str "/p/a.md", none, false, .ok (str "no links here\n")⟩],
    id, fun _ => []⟩

/-- An environment of `main`: run in `/p` with `-link-to zzz.md` on the tree
`walkTwoLines`. -/
def envQueryAbsent : Env :=
  ⟨.ok (str "/p"), none, str "zzz.md", fun _ => walkTwoLines, id, fun _ => []⟩

/-- An environment of `main`: run in `/p` with `-link-to zzz.md` on a tree that holds the
single file `a.md`, without links. -/
def envQueryAbsentNoLinks : Env :=
  ⟨.ok (str "/p"), none, str "zzz.md",
    fun _ => [⟨str "/p", none, true, .error (.os 21)⟩,
      ⟨str "/p/a.md", none, false, .ok (str "no links here\n")⟩],
    id, fun _ => []⟩

/-! ## The edges of a graph and of a file -/

/-- An edge of the graph as the specification sees it: the paths of its two nodes, its row
and column, and its context. -/
structure Edge where
  src : GoString
  dst : GoString
  row : Int
  col : Int
  context : List GoString
  deriving DecidableEq, Repr

/-- The edge that a link of `g` stands for. -/
def Graph.edgeOf (g : Graph) (l : Link) : Edge :=
  ⟨(g.node l.«from»).path, (g.node l.«to»).path, l.row, l.col, l.context⟩

/-- The edges of `g`, in the order in which the links were allocated. -/
def Graph.edges (g : Graph) : List Edge := g.linkObjs.map g.edgeOf

/-- The keys of the registry of `g`. -/
def Graph.keys (g : Graph) : List GoString := g.nodes.map Prod.fst

/-- The text of capture group 2 of the match `locs` on `text` (empty when the indices are
out of range, which they are not for a match of the pattern). -/
def targetText (text : GoString) (locs : List Int) : GoString :=
  (slice text (locs.getD 4 0) (locs.getD 5 0)).getD []

/-- The key that `BuildGraph` computes for the link target `target` found in the file
`curPath`: unescape, join to the directory of the file, make relative to the root. -/
def targetKey (rootDir curPath target : GoString) : Except Err GoString :=
  match QueryUnescape target with
  | .error err => .error err
  | .ok pathOfLink => Rel rootDir (Join [Dir curPath, str "./", pathOfLink])

/-- The context window of line `row` (empty when the bounds are out of range, which they
are not for a row of a file of at most `maxLines` lines). -/
def window (lines : List GoString) (row : Nat) : List GoString :=
  (slice lines (contextStart row) (contextEnd lines.length row)).getD []

/-- The edges, one at most, for the match `locs` on line `row`, with text `text`, of the
file `curPath` whose key is `key` and whose lines are `lines`: none when the key of the
target cannot be computed. -/
def matchEdges (rootDir curPath key : GoString) (lines : List GoString) (row : Nat)
    (text : GoString) (locs : List Int) : List Edge :=
  match targetKey rootDir curPath (targetText text locs) with
  | .error _ => []
  | .ok dst => [⟨key, dst, row, locs.getD 2 0, window lines row⟩]

/-- The edges for the matches on one line, from left to right. -/
def lineEdges (rootDir curPath key : GoString) (lines : List GoString)
    (rl : Nat × GoString) : List Edge :=
  ((FindAllStringSubmatchIndex rl.2).map (matchEdges rootDir curPath key lines rl.1 rl.2)).flatten

/-- The edges for the matches in a file with the given lines, in document order. -/
def linesEdges (rootDir curPath key : GoString) (lines : List GoString) : List Edge :=
  (lines.enum.map (lineEdges rootDir curPath key lines)).flatten

/-- Whether the callback goes on to read the entry: it is called without error, for a path
that is no directory and ends in `.md`. -/
def WalkEntry.scanned (d : WalkEntry) : Bool :=
  d.err.isNone && !d.isDir && HasSuffix d.curPath (str ".md")

/-- The key of the file of a walk entry, when `filepath.Rel` yields one. -/
def fileKey (rootDir : GoString) (d : WalkEntry) : Option GoString :=
  match Rel rootDir d.curPath with
  | .ok key => some key
  | .error _ => none

/-- The edges for the matches in the file of a walk entry, in document order; none when
the entry is not scanned, not read or without key. -/
def fileEdges (rootDir : GoString) (d : WalkEntry) : List Edge :=
  if d.scanned then
    match d.content, Rel rootDir d.curPath with
    | .ok content, .ok key => linesEdges rootDir d.curPath key (splitLines content)
    | _, _ => []
  else []

/-! ## The invariants of the scan -/

/-- Whether the body of the inner loop completes for the match `locs` does not depend on
the graph: the match has six indices, the two slice expressions are in range and the key of
the target can be computed. -/
def matchOk (rootDir curPath : GoString) (lines : List GoString) (row : Nat)
    (text : GoString) (locs : List Int) : Prop :=
  locs.length = 6 ∧ (slice text (locs.getD 4 0) (locs.getD 5 0)).isSome = true ∧
    (slice lines (contextStart row) (contextEnd lines.length row)).isSome = true ∧
    ∃ dst, targetKey rootDir curPath (targetText text locs) = .ok dst

/-- The invariant of the loops over the lines and matches of a file whose key is `key` and
whose node is `node`: the graph has the edges `base` of the start and the edges `acc` of the
file so far, and the keys `baseKeys` of the start and the targets of `acc`. -/
def FileInv (key : GoString) (node : Nat) (base : List Edge) (baseKeys : List GoString)
    (acc : List Edge) (g : Graph) : Prop :=
  Reachable g ∧ g.edges = base ++ acc ∧
    (∀ k, k ∈ g.keys ↔ k ∈ baseKeys ∨ ∃ e ∈ acc, e.dst = k) ∧
    node < g.nodeObjs.length ∧ (g.node node).path = key

/-- What the scan of the file of a walk entry adds to the graph: its key and its edges;
nothing when the entry is not scanned, not read or without key. -/
def fileSummary (rootDir : GoString) (d : WalkEntry) : List (GoString × List Edge) :=
  if d.scanned then
    match d.content, Rel rootDir d.curPath with
    | .ok content, .ok key => [(key, linesEdges rootDir d.curPath key (splitLines content))]
    | _, _ => []
  else []

/-- The invariant of the walk: the graph is reachable, its edges are those of the files
scanned so far, in order, its keys are the keys of these files and the targets of their
edges, and the counter is the number of these files. -/
def WalkInv (fs : List (GoString × List Edge)) (s : Build) : Prop :=
  Reachable s.graph ∧ s.graph.edges = (fs.map Prod.snd).flatten ∧
    (∀ k, k ∈ s.graph.keys ↔ ∃ f ∈ fs, k = f.1 ∨ ∃ e ∈ f.2, e.dst = k) ∧
    s.nMDs = (fs.length : Int)

/-- The walk of a directory `/p` that holds the single file `a.md`, without links. -/
def walkNoLinks : List WalkEntry :=
  [⟨str "/p", none, true, .error (.os 21)⟩,
   ⟨str "/p/a.md", none, false, .ok (str "no links here\n")⟩]

/-! ## When the scan completes -/

/-- Whether the callback completes for a walk entry does not depend on the state of the
scan: the entry is reported without error and is a directory, or has a path that does not
end in `.md`, or is read, has a key, and the body of the inner loop completes for every
match on every line. -/
def entryOk (rootDir : GoString) (d : WalkEntry) : Prop :=
  d.err = none ∧ (d.isDir = true ∨ HasSuffix d.curPath (str ".md") = false ∨
    ∃ content key, d.content = .ok content ∧ Rel rootDir d.curPath = .ok key ∧
      ∀ rl ∈ (splitLines content).enum, ∀ locs ∈ FindAllStringSubmatchIndex rl.2,
        matchOk rootDir d.curPath (splitLines content) rl.1 rl.2 locs)

/-- The edges of the files of a walk, file after file. -/
def walkEdges (rootDir : GoString) (walk : List WalkEntry) : List Edge :=
  (walk.map (fileEdges rootDir)).flatten

/-- The walk of the two files `a.md`, which links to `b.md`, and `b.md`, which links to
`a.md` and to `c.md`, of a directory `/p`. -/
def walkAB : List WalkEntry :=
  [⟨str "/p/a.md", none, false, .ok (str "[b](b.md)")⟩,
   ⟨str "/p/b.md", none, false, .ok (str "[a](a.md)\n[c](c.md)")⟩]

/-! ## The matches of a file -/

/-- The matches of the pattern in a file with the given lines, in document order, each with
the index of its line. -/
def fileMatches (lines : List GoString) : List (Nat × List Int) :=
  (lines.enum.map (fun rl =>
    (FindAllStringSubmatchIndex rl.2).map (fun locs => (rl.1, locs)))).flatten

/-- The graph that `BuildGraph` returns for `walkOneFile`. -/
def graphOneFile : Graph :=
  ⟨[(str "a.md", 0), (str "b.md", 1)],
   [⟨str "a.md", [1], [0, 1]⟩, ⟨str "b.md", [0], []⟩],
   [⟨1, 1, 0, 1, [str "x", str "[a](b.md) [a](./a.md)", str "y", str "z"]⟩,
    ⟨1, 11, 0, 0, [str "x", str "[a](b.md) [a](./a.md)", str "y", str "z"]⟩]⟩

/-! ## Lines made of links -/

/-- The text of an inline link with display text `d` and target `t`. -/
def linkText (d t : GoString) : GoString := byte '[' :: (d ++ (str "](" ++ (t ++ [byte ')'])))

/-- A line made of links `(d, t, a)`: the link `[d](t)` followed by the text `a`. -/
def linksLine : List (GoString × GoString × GoString) → GoString
  | [] => []
  | l :: rest => linkText l.1 l.2.1 ++ (l.2.2 ++ linksLine rest)

/-- The matches expected on `linksLine links` when it starts at offset `off` of its line. -/
def linksMatches : Nat → List (GoString × GoString × GoString) → List (List Int)
  | _, [] => []
  | off, l :: rest =>
    locsAt off l.1.length l.2.1.length ::
      linksMatches (off + (l.1.length + l.2.1.length + 4) + l.2.2.length) rest

/-- Every occurrence of `b` in `y` comes after an occurrence of `a`. -/
def firstOf (a b : UInt8) (y : GoString) : Prop := ∀ n, y[n]? = some b → a ∈ y.take n

/-- The links for which the extractor is complete: no display text contains `[` or `)`, no
target contains `(` or `]`, every target ends in `.md`, and the text after a link contains
none of `[`, `]`, `)`. -/
def simpleLinks (links : List (GoString × GoString × GoString)) : Prop :=
  ∀ l ∈ links, (byte '[' ∉ l.1 ∧ byte ')' ∉ l.1) ∧
    (byte '(' ∉ l.2.1 ∧ byte ']' ∉ l.2.1 ∧ str ".md" <:+ l.2.1) ∧
    (byte '[' ∉ l.2.2 ∧ byte ']' ∉ l.2.2 ∧ byte ')' ∉ l.2.2)

instance simpleLinksDecidable (links : List (GoString × GoString × GoString)) :
    Decidable (simpleLinks links) := by
  unfold simpleLinks
  infer_instance

/-! ## Parent elements -/

/-- The number of `..` among the elements written by `filepath.Clean`. -/
def ups (st : List GoString) : Nat := st.count (str "..")

/-! ## The paths of a walk -/

/-- The paths that `filepath.WalkDir(rootDir, ...)` calls its callback with: the root as it
is given, and `Join(path, name)` for a path it called the callback with and the name of an
entry of that directory. -/
inductive Under (rootDir : GoString) : GoString → Prop
  | root : Under rootDir rootDir
  | child (p n : GoString) : Under rootDir p → sep ∉ n → Under rootDir (Join [p, n])

/-! ## The ways in which the scan fails -/

/-- Whether the callback of `BuildGraph` returns an error for a walk entry, as the
specification has it: the walk reports an error for the entry, or the entry is a file to
scan that cannot be read or that holds a match whose target is not valid percent-encoded
text. -/
def entryFails (d : WalkEntry) : Bool :=
  d.err.isSome ||
    (d.scanned &&
      match d.content with
      | .error _ => true
      | .ok content =>
        (splitLines content).any (fun text =>
          (FindAllStringSubmatchIndex text).any (fun locs =>
            !(QueryUnescape (targetText text locs)).isOk)))

/-- The walk of a directory `/p` with the files `a.md`, whose second line holds the link
`[x](a%zz.md)` between two other links, and `b.md`. -/
def walkBadEscape : List WalkEntry :=
  [⟨str "/p", none, true, .error (.os 21)⟩,
   ⟨str "/p/a.md", none, false,
     .ok (str "[b](b.md)\n[y](y.md) [x](a%zz.md) [c](c.md)\n[d](d.md)")⟩,
   ⟨str "/p/b.md", none, false, .ok (str "[a](a.md)")⟩]

/-- The graph that `BuildGraph` returns, with an error, for `walkBadEscape`. -/
def graphBadEscape : Graph :=
  ⟨[(str "a.md", 0), (str "b.md", 1), (str "y.md", 2)],
   [⟨str "a.md", [], [0, 1]⟩, ⟨str "b.md", [0], []⟩, ⟨str "y.md", [1], []⟩],
   [⟨0, 1, 0, 1, [str "[b](b.md)", str "[y](y.md) [x](a%zz.md) [c](c.md)", str "[d](d.md)"]⟩,
    ⟨1, 1, 0, 2, [str "[b](b.md)", str "[y](y.md) [x](a%zz.md) [c](c.md)", str "[d](d.md)"]⟩]⟩

/-! ## The mentions of a walk -/

/-- A match for which `BuildGraph` records a link: the walk entry of the file, the content
read, the key of the file, the index and the text of the line, the index sextuple of the
match, the decoded target and the key of the target. -/
structure Mention where
  entry : WalkEntry
  content : GoString
  key : GoString
  row : Nat
  text : GoString
  locs : List Int
  decoded : GoString
  dst : GoString
  deriving DecidableEq

/-- The edge that `BuildGraph` records for a mention. -/
def Mention.edge (m : Mention) : Edge :=
  ⟨m.key, m.dst, m.row, m.locs.getD 2 0, window (splitLines m.content) m.row⟩

/-- The mention, one at most, for the match `locs` on line `row`, with text `text`, of the
file of walk entry `d`: none when the target cannot be decoded or has no key. -/
def matchMentions (rootDir : GoString) (d : WalkEntry) (content key : GoString) (row : Nat)
    (text : GoString) (locs : List Int) : List Mention :=
  match QueryUnescape (targetText text locs) with
  | .error _ => []
  | .ok decoded =>
    match Rel rootDir (Join [Dir d.curPath, str "./", decoded]) with
    | .error _ => []
    | .ok dst => [⟨d, content, key, row, text, locs, decoded, dst⟩]

/-- The mentions in a file, line after line, the matches of a line from left to right. -/
def linesMentions (rootDir : GoString) (d : WalkEntry) (content key : GoString) :
    List Mention :=
  ((splitLines content).enum.map (fun rl =>
    ((FindAllStringSubmatchIndex rl.2).map
      (matchMentions rootDir d content key rl.1 rl.2)).flatten)).flatten

/-- The mentions in the file of a walk entry; none when the entry is not scanned, not read
or without key. -/
def fileMentions (rootDir : GoString) (d : WalkEntry) : List Mention :=
  if d.scanned then
    match d.content, Rel rootDir d.curPath with
    | .ok content, .ok key => linesMentions rootDir d content key
    | _, _ => []
  else []

/-- The mentions in the files of a walk, file after file in the order of the walk. -/
def walkMentions (rootDir : GoString) (walk : List WalkEntry) : List Mention :=
  (walk.map (fileMentions rootDir)).flatten

/-! ## Walks that stop with an error -/

/-- The walk of the two files `a.md`, whose second line has a target that cannot be decoded,
and `b.md`, of a directory `/p`. -/
def walkBadFirst : List WalkEntry :=
  [⟨str "/p/a.md", none, false, .ok (str "[b](b.md)\n[x](a%zz.md)")⟩,
   ⟨str "/p/b.md", none, false, .ok (str "[c](c.md)")⟩]

/-- The graph that `BuildGraph` returns for `walkAB`. -/
def graphAB : Graph :=
  ⟨[(str "a.md", 0), (str "b.md", 1), (str "c.md", 2)],
   [⟨str "a.md", [1], [0]⟩, ⟨str "b.md", [0], [1, 2]⟩, ⟨str "c.md", [2], []⟩],
   [⟨0, 1, 0, 1, [str "[b](b.md)"]⟩, ⟨0, 1, 1, 0, [str "[a](a.md)", str "[c](c.md)"]⟩,
    ⟨1, 1, 1, 2, [str "[a](a.md)", str "[c](c.md)"]⟩]⟩

/-- The walk of the file `a.md`, with two links, and then the file `b.md`, whose link has
a target that cannot be decoded, of a directory `/p`. -/
def walkBadLast : List WalkEntry :=
  [⟨str "/p/a.md", none, false, .ok (str "[b](b.md)\n[c](c.md)")⟩,
   ⟨str "/p/b.md", none, false, .ok (str "[x](a%zz.md)")⟩]

/-- The graph that `BuildGraph` returns, with an error, for `walkBadLast`. -/
def graphBadLast : Graph :=
  ⟨[(str "a.md", 0), (str "b.md", 1), (str "c.md", 2)],
   [⟨str "a.md", [], [0, 1]⟩, ⟨str "b.md", [0], []⟩, ⟨str "c.md", [1], []⟩],
   [⟨0, 1, 0, 1, [str "[b](b.md)", str "[c](c.md)"]⟩,
    ⟨1, 1, 0, 2, [str "[b](b.md)", str "[c](c.md)"]⟩]⟩

/-! # Theorems -/

/-! ## Object access -/

theorem node_eq_of_getElem? {g : Graph} {p : Nat} {nd : Node} (h : g.nodeObjs[p]? = some nd) :
    g.node p = nd := by
  simp [Graph.node, List.getD_eq_getElem?_getD, h]

theorem node_default {g : Graph} {p : Nat} (h : g.nodeObjs.length ≤ p) :
    g.node p = ⟨[], [], []⟩ := by
  unfold Graph.node
  exact List.getD_eq_default _ _ h

theorem getElem?_node {g : Graph} {p : Nat} (h : p < g.nodeObjs.length) :
    g.nodeObjs[p]? = some (g.node p) := by
  simp [Graph.node, List.getD_eq_getElem?_getD, List.getElem?_eq_getElem h]

theorem link_eq_of_getElem? {g : Graph} {p : Nat} {l : Link} (h : g.linkObjs[p]? = some l) :
    g.link p = l := by
  simp [Graph.link, List.getD_eq_getElem?_getD, h]

theorem getElem?_link {g : Graph} {p : Nat} (h : p < g.linkObjs.length) :
    g.linkObjs[p]? = some (g.link p) := by
  simp [Graph.link, List.getD_eq_getElem?_getD, List.getElem?_eq_getElem h]

/-! ## `GetNode` -/

theorem GetNode_of_lookup_some {g : Graph} {path : GoString} {p : Nat}
    (h : g.lookup path = some p) : GetNode g path = (g, p) := by
  simp [GetNode, h]

theorem GetNode_of_lookup_none {g : Graph} {path : GoString} (h : g.lookup path = none) :
    GetNode g path =
      (⟨g.nodes ++ [(path, g.nodeObjs.length)], g.nodeObjs ++ [⟨path, [], []⟩], g.linkObjs⟩,
        g.nodeObjs.length) := by
  have h1 : List.lookup path g.nodes = none := h
  simp [GetNode, h, NewNode, mapSet, h1]

theorem GetNode_linkObjs (g : Graph) (path : GoString) :
    (GetNode g path).1.linkObjs = g.linkObjs := by
  cases h : g.lookup path with
  | some p => rw [GetNode_of_lookup_some h]
  | none => rw [GetNode_of_lookup_none h]

theorem GetNode_length_le (g : Graph) (path : GoString) :
    g.nodeObjs.length ≤ (GetNode g path).1.nodeObjs.length := by
  cases h : g.lookup path with
  | some p => rw [GetNode_of_lookup_some h]
  | none => rw [GetNode_of_lookup_none h]; simp

theorem GetNode_getElem? (g : Graph) (path : GoString) {p : Nat} {nd : Node}
    (h : g.nodeObjs[p]? = some nd) : (GetNode g path).1.nodeObjs[p]? = some nd := by
  cases hl : g.lookup path with
  | some q => rw [GetNode_of_lookup_some hl]; exact h
  | none =>
    rw [GetNode_of_lookup_none hl]
    have hp : p < g.nodeObjs.length := by
      by_contra hc
      rw [List.getElem?_eq_none (Nat.le_of_not_lt hc)] at h
      cases h
    simp only []
    rw [List.getElem?_append_left hp]; exact h

theorem GetNode_node (g : Graph) (path : GoString) {p : Nat} (h : p < g.nodeObjs.length) :
    (GetNode g path).1.node p = g.node p :=
  node_eq_of_getElem? (GetNode_getElem? g path (getElem?_node h))

theorem GetNode_link (g : Graph) (path : GoString) (l : Nat) :
    (GetNode g path).1.link l = g.link l := by
  simp [Graph.link, GetNode_linkObjs]

theorem lookup_mem {m : List (GoString × Nat)} {k : GoString} {p : Nat}
    (h : m.lookup k = some p) : (k, p) ∈ m := by
  induction m with
  | nil => simp at h
  | cons kv rest ih =>
    obtain ⟨k1, p1⟩ := kv
    by_cases hk : k = k1
    · subst hk
      simp [List.lookup] at h
      simp [h]
    · have hb : (k == k1) = false := by simpa using hk
      simp [List.lookup, hb] at h
      exact List.mem_cons_of_mem _ (ih h)

/-! ## `LinkTo` -/

theorem LinkTo_nodes (g : Graph) (n another : Nat) (row col : Int) (context : List GoString) :
    (LinkTo g n another row col context).nodes = g.nodes := rfl

theorem LinkTo_linkObjs (g : Graph) (n another : Nat) (row col : Int)
    (context : List GoString) :
    (LinkTo g n another row col context).linkObjs =
      g.linkObjs ++ [⟨row, col, n, another, context⟩] := rfl

theorem LinkTo_length (g : Graph) (n another : Nat) (row col : Int) (context : List GoString) :
    (LinkTo g n another row col context).nodeObjs.length = g.nodeObjs.length := by
  simp [LinkTo]

theorem LinkTo_node (g : Graph) (n another : Nat) (row col : Int) (context : List GoString)
    (m : Nat) :
    (LinkTo g n another row col context).node m =
      ⟨(g.node m).path,
       (g.node m).inLinks ++
         (if m = another ∧ m < g.nodeObjs.length then [g.linkObjs.length] else []),
       (g.node m).outLinks ++
         (if m = n ∧ m < g.nodeObjs.length then [g.linkObjs.length] else [])⟩ := by
  by_cases hm : m < g.nodeObjs.length
  · have h1 := getElem?_node hm
    apply node_eq_of_getElem?
    simp only [LinkTo, List.getElem?_modify, h1, Option.map_eq_map, Option.map_some']
    by_cases ha : another = m <;> by_cases hn : n = m <;>
      simp [ha, hn, hm, eq_comm]
  · have hle : g.nodeObjs.length ≤ m := Nat.le_of_not_lt hm
    rw [node_default hle, node_default (by rw [LinkTo_length]; exact hle)]
    simp [hm]

theorem LinkTo_link_old (g : Graph) (n another : Nat) (row col : Int)
    (context : List GoString) {l : Nat} (h : l < g.linkObjs.length) :
    (LinkTo g n another row col context).link l = g.link l := by
  apply link_eq_of_getElem?
  rw [LinkTo_linkObjs, List.getElem?_append_left h]
  exact getElem?_link h

theorem LinkTo_link_new (g : Graph) (n another : Nat) (row col : Int)
    (context : List GoString) :
    (LinkTo g n another row col context).link g.linkObjs.length =
      ⟨row, col, n, another, context⟩ := by
  apply link_eq_of_getElem?
  rw [LinkTo_linkObjs]
  simp

/-! ## Well-formedness is preserved -/

theorem WF_empty : WF Graph.empty := by
  constructor
  · intro kv h; simp [Graph.empty] at h
  · simp [Graph.empty]
  · intro p h; simp [Graph.empty] at h
  · intro l h; simp [Graph.empty] at h
  · intro n l; simp [Graph.empty, Graph.node]
  · intro n l; simp [Graph.empty, Graph.node]

theorem WF_GetNode {g : Graph} (h : WF g) (path : GoString) : WF (GetNode g path).1 := by
  cases hl : g.lookup path with
  | some p => rw [GetNode_of_lookup_some hl]; exact h
  | none =>
    have key : ∀ m, (GetNode g path).1.node m =
        if m = g.nodeObjs.length then ⟨path, [], []⟩ else g.node m := by
      intro m
      by_cases hm : m = g.nodeObjs.length
      · rw [if_pos hm, hm]
        apply node_eq_of_getElem?
        rw [GetNode_of_lookup_none hl]; simp
      · rw [if_neg hm]
        rcases Nat.lt_or_gt_of_ne hm with h1 | h1
        · exact GetNode_node g path h1
        · rw [node_default (Nat.le_of_lt h1)]
          apply node_default
          rw [GetNode_of_lookup_none hl]; simp; omega
    have hlen : (GetNode g path).1.nodeObjs.length = g.nodeObjs.length + 1 := by
      rw [GetNode_of_lookup_none hl]; simp
    have hnodes : (GetNode g path).1.nodes = g.nodes ++ [(path, g.nodeObjs.length)] := by
      rw [GetNode_of_lookup_none hl]
    constructor
    · intro kv hkv
      rw [hnodes, List.mem_append] at hkv
      rw [hlen, key]
      rcases hkv with hkv | hkv
      · have := h.registry kv hkv
        rw [if_neg (by omega)]
        exact ⟨by omega, this.2⟩
      · simp at hkv
        subst hkv
        simp
    · rw [hnodes, List.map_append, List.nodup_append]
      refine ⟨h.nodup, by simp, ?_⟩
      intro k hk1 hk2
      simp at hk2
      subst hk2
      have hnone : List.lookup k g.nodes = none := hl
      rw [List.lookup_eq_none_iff] at hnone
      rw [List.mem_map] at hk1
      obtain ⟨kv, hkv, rfl⟩ := hk1
      have := hnone kv hkv
      simp at this
    · intro p hp
      rw [hlen] at hp
      rw [key, hnodes, List.mem_append]
      by_cases he : p = g.nodeObjs.length
      · rw [if_pos he, he]; right; simp
      · rw [if_neg he]; left; exact h.registered p (by omega)
    · intro l hl2
      rw [GetNode_linkObjs] at hl2
      rw [GetNode_link, hlen]
      have := h.ends l hl2
      omega
    · intro n l
      rw [key, GetNode_linkObjs, GetNode_link]
      by_cases hn : n = g.nodeObjs.length
      · rw [if_pos hn]
        constructor
        · intro hm; simp at hm
        · rintro ⟨h1, h2⟩
          have := (h.ends l h1).1
          omega
      · rw [if_neg hn]; exact h.outs n l
    · intro n l
      rw [key, GetNode_linkObjs, GetNode_link]
      by_cases hn : n = g.nodeObjs.length
      · rw [if_pos hn]
        constructor
        · intro hm; simp at hm
        · rintro ⟨h1, h2⟩
          have := (h.ends l h1).2
          omega
      · rw [if_neg hn]; exact h.ins n l

theorem WF_LinkTo {g : Graph} (h : WF g) {n another : Nat} (hn : n < g.nodeObjs.length)
    (ha : another < g.nodeObjs.length) (row col : Int) (context : List GoString) :
    WF (LinkTo g n another row col context) := by
  have hlink : ∀ l, l < g.linkObjs.length + 1 →
      (LinkTo g n another row col context).link l =
        if l = g.linkObjs.length then ⟨row, col, n, another, context⟩ else g.link l := by
    intro l hl
    by_cases he : l = g.linkObjs.length
    · rw [if_pos he, he]; exact LinkTo_link_new ..
    · rw [if_neg he]; exact LinkTo_link_old _ _ _ _ _ _ (by omega)
  constructor
  · intro kv hkv
    rw [LinkTo_nodes] at hkv
    rw [LinkTo_length, LinkTo_node]
    exact h.registry kv hkv
  · rw [LinkTo_nodes]; exact h.nodup
  · intro p hp
    rw [LinkTo_length] at hp
    rw [LinkTo_nodes, LinkTo_node]
    exact h.registered p hp
  · intro l hl
    rw [LinkTo_linkObjs] at hl
    simp at hl
    rw [hlink l hl, LinkTo_length]
    by_cases he : l = g.linkObjs.length
    · rw [if_pos he]; exact ⟨hn, ha⟩
    · rw [if_neg he]; exact h.ends l (by omega)
  · intro m l
    rw [LinkTo_node, LinkTo_linkObjs]
    simp only [List.length_append, List.length_singleton, List.mem_append]
    constructor
    · rintro (hm | hm)
      · have := (h.outs m l).1 hm
        rw [hlink l (by omega), if_neg (by omega)]
        exact ⟨by omega, this.2⟩
      · by_cases hc : m = n ∧ m < g.nodeObjs.length
        · rw [if_pos hc] at hm
          simp at hm
          rw [hlink l (by omega), if_pos hm]
          exact ⟨by omega, hc.1.symm⟩
        · rw [if_neg hc] at hm; simp at hm
    · rintro ⟨h1, h2⟩
      rw [hlink l h1] at h2
      by_cases he : l = g.linkObjs.length
      · rw [if_pos he] at h2
        right
        simp at h2
        rw [if_pos ⟨h2.symm, by omega⟩]
        simp [he]
      · rw [if_neg he] at h2
        left
        exact (h.outs m l).2 ⟨by omega, h2⟩
  · intro m l
    rw [LinkTo_node, LinkTo_linkObjs]
    simp only [List.length_append, List.length_singleton, List.mem_append]
    constructor
    · rintro (hm | hm)
      · have := (h.ins m l).1 hm
        rw [hlink l (by omega), if_neg (by omega)]
        exact ⟨by omega, this.2⟩
      · by_cases hc : m = another ∧ m < g.nodeObjs.length
        · rw [if_pos hc] at hm
          simp at hm
          rw [hlink l (by omega), if_pos hm]
          exact ⟨by omega, hc.1.symm⟩
        · rw [if_neg hc] at hm; simp at hm
    · rintro ⟨h1, h2⟩
      rw [hlink l h1] at h2
      by_cases he : l = g.linkObjs.length
      · rw [if_pos he] at h2
        right
        simp at h2
        rw [if_pos ⟨h2.symm, by omega⟩]
        simp [he]
      · rw [if_neg he] at h2
        left
        exact (h.ins m l).2 ⟨by omega, h2⟩

theorem Reachable.wf {g : Graph} (h : Reachable g) : WF g := by
  induction h with
  | empty => exact WF_empty
  | getNode path _ ih => exact WF_GetNode ih path
  | linkTo n another row col context _ hn ha ih => exact WF_LinkTo ih hn ha row col context

/-! ## Loops -/

theorem forEach_inv {σ α : Type} (P : σ → Prop) (body : σ → α → Res σ) (xs : List α)
    (hb : ∀ a ∈ xs, ∀ s s1, P s → (body s a).state? = some s1 → P s1) :
    ∀ s s1, P s → (forEach body xs s).state? = some s1 → P s1 := by
  induction xs with
  | nil =>
    intro s s1 hs h
    simp [forEach, Res.state?] at h
    exact h ▸ hs
  | cons a as ih =>
    intro s s1 hs h
    have ha := hb a (List.mem_cons_self _ _) s
    unfold forEach at h
    cases hr : body s a with
    | next s2 =>
      rw [hr] at h ha
      exact ih (fun b hb2 => hb b (List.mem_cons_of_mem _ hb2)) s2 s1
        (ha s2 hs rfl) h
    | stop s2 e =>
      rw [hr] at h ha
      simp [Res.state?] at h
      exact h ▸ ha s2 hs rfl
    | panic =>
      rw [hr] at h
      simp [Res.state?] at h

/-! ## The registry after `GetNode` -/

theorem GetNode_valid {g : Graph} (h : WF g) (path : GoString) :
    (GetNode g path).2 < (GetNode g path).1.nodeObjs.length ∧
      ((GetNode g path).1.node (GetNode g path).2).path = path := by
  cases hl : g.lookup path with
  | some p =>
    rw [GetNode_of_lookup_some hl]
    exact h.registry (path, p) (lookup_mem hl)
  | none =>
    rw [GetNode_of_lookup_none hl]
    refine ⟨by simp, ?_⟩
    have : (⟨g.nodes ++ [(path, g.nodeObjs.length)], g.nodeObjs ++ [⟨path, [], []⟩],
        g.linkObjs⟩ : Graph).node g.nodeObjs.length = ⟨path, [], []⟩ := by
      apply node_eq_of_getElem?; simp
    simp only [this]

/-! ## Every link of the built graph was recorded for a match -/

theorem RecordedAt.mono {rootDir : GoString} {d : WalkEntry} {content : GoString} {row : Nat}
    {locs : List Int} {target decoded : GoString} {g g1 : Graph} {l : Link}
    (h : RecordedAt rootDir d content row locs target decoded g l)
    (hf : (g1.node l.«from»).path = (g.node l.«from»).path)
    (ht : (g1.node l.«to»).path = (g.node l.«to»).path) :
    RecordedAt rootDir d content row locs target decoded g1 l :=
  { h with from_path := hf ▸ h.from_path, to_path := ht ▸ h.to_path }

theorem AllRecorded_GetNode {rootDir : GoString} {walk : List WalkEntry} {g : Graph}
    (hw : WF g) (h : AllRecorded rootDir walk g) (path : GoString) :
    AllRecorded rootDir walk (GetNode g path).1 := by
  intro i hi
  rw [GetNode_linkObjs] at hi
  obtain ⟨d, hd, content, row, locs, target, decoded, hr⟩ := h i hi
  refine ⟨d, hd, content, row, locs, target, decoded, ?_⟩
  rw [GetNode_link]
  exact hr.mono (by rw [GetNode_node g path (hw.ends i hi).1])
    (by rw [GetNode_node g path (hw.ends i hi).2])

theorem linkBody_inv {rootDir : GoString} {walk : List WalkEntry} {d : WalkEntry}
    {content : GoString} {node row : Nat} {locs : List Int} (hd : d ∈ walk)
    (h1 : d.err = none) (h2 : d.isDir = false) (h3 : HasSuffix d.curPath (str ".md") = true)
    (h4 : d.content = .ok content) (hrow : row < (splitLines content).length)
    (hlocs : locs ∈ FindAllStringSubmatchIndex ((splitLines content).getD row []))
    (g g1 : Graph) (hinv : LoopInv rootDir walk d node g)
    (hres : (linkBody rootDir d.curPath (splitLines content) node row
      ((splitLines content).getD row []) g locs).state? = some g1) :
    LoopInv rootDir walk d node g1 := by
  obtain ⟨hreach, hrec, hnode, hpath⟩ := hinv
  unfold linkBody at hres
  split at hres
  · simp [Res.state?] at hres
  · split at hres
    · simp [Res.state?] at hres
    · rename_i target htarget
      split at hres
      · simp [Res.state?] at hres; subst hres; exact ⟨hreach, hrec, hnode, hpath⟩
      · rename_i decoded hdecoded
        simp only [] at hres
        split at hres
        · simp [Res.state?] at hres; subst hres; exact ⟨hreach, hrec, hnode, hpath⟩
        · rename_i key hkey
          split at hres
          · simp [Res.state?] at hres
          · rename_i context hcontext
            simp [Res.state?] at hres
            subst hres
            have hw := hreach.wf
            have hv := GetNode_valid hw key
            have hr1 : Reachable (GetNode g key).1 := Reachable.getNode key hreach
            have hw1 := hr1.wf
            have hnode1 : node < (GetNode g key).1.nodeObjs.length :=
              Nat.lt_of_lt_of_le hnode (GetNode_length_le g key)
            have hrec1 := AllRecorded_GetNode hw hrec key
            refine ⟨Reachable.linkTo _ _ _ _ _ hr1 hnode1 hv.1, ?_, ?_, ?_⟩
            · intro i hi
              rw [LinkTo_linkObjs] at hi
              simp at hi
              by_cases he : i = (GetNode g key).1.linkObjs.length
              · refine ⟨d, hd, content, row, locs, target, decoded, ?_⟩
                rw [he, LinkTo_link_new]
                refine ⟨h1, h2, h3, h4, hrow, hlocs, rfl, by simp, htarget, hdecoded, hcontext,
                  ?_, ?_⟩
                · simp only [LinkTo_node]
                  rw [GetNode_node g key hnode]; exact hpath
                · simp only [LinkTo_node]
                  rw [hv.2]; exact hkey
              · have hi1 : i < (GetNode g key).1.linkObjs.length := by omega
                obtain ⟨d1, hd1, c1, r1, l1, t1, dc1, hr⟩ := hrec1 i hi1
                refine ⟨d1, hd1, c1, r1, l1, t1, dc1, ?_⟩
                rw [LinkTo_link_old _ _ _ _ _ _ hi1]
                exact hr.mono (by simp only [LinkTo_node]) (by simp only [LinkTo_node])
            · rw [LinkTo_length]; exact hnode1
            · simp only [LinkTo_node]
              rw [GetNode_node g key hnode]; exact hpath

theorem lineBody_inv {rootDir : GoString} {walk : List WalkEntry} {d : WalkEntry}
    {content : GoString} {node : Nat} (hd : d ∈ walk)
    (h1 : d.err = none) (h2 : d.isDir = false) (h3 : HasSuffix d.curPath (str ".md") = true)
    (h4 : d.content = .ok content) (rl : Nat × GoString) (hrl : rl ∈ (splitLines content).enum)
    (g g1 : Graph) (hinv : LoopInv rootDir walk d node g)
    (hres : (lineBody rootDir d.curPath (splitLines content) node g rl).state? = some g1) :
    LoopInv rootDir walk d node g1 := by
  obtain ⟨row, line⟩ := rl
  obtain ⟨hrow, hline⟩ := List.mem_enum hrl
  have hline2 : line = (splitLines content).getD row [] := by
    rw [List.getD_eq_getElem _ _ hrow]; exact hline
  subst hline2
  unfold lineBody at hres
  exact forEach_inv (LoopInv rootDir walk d node) _ _
    (fun locs hlocs s s1 hs hr => linkBody_inv hd h1 h2 h3 h4 hrow hlocs s s1 hs hr)
    g g1 hinv hres

theorem walkFn_inv {rootDir : GoString} {walk : List WalkEntry} {d : WalkEntry} (hd : d ∈ walk)
    (s s1 : Build) (hinv : Reachable s.graph ∧ AllRecorded rootDir walk s.graph)
    (hres : (walkFn rootDir s d).state? = some s1) :
    Reachable s1.graph ∧ AllRecorded rootDir walk s1.graph := by
  unfold walkFn at hres
  split at hres
  · simp only [Res.state?, Option.some.injEq] at hres; subst hres; exact hinv
  · rename_i h1
    split at hres
    · simp only [Res.state?, Option.some.injEq] at hres; subst hres; exact hinv
    · rename_i h2
      split at hres
      · simp only [Res.state?, Option.some.injEq] at hres; subst hres; exact hinv
      · rename_i h3
        simp only [] at hres
        split at hres
        · simp only [Res.state?, Option.some.injEq] at hres; subst hres; exact hinv
        · rename_i content h4
          split at hres
          · simp only [Res.state?, Option.some.injEq] at hres; subst hres; exact hinv
          · rename_i curPathRel hrel
            have hv := GetNode_valid hinv.1.wf curPathRel
            have hloop : LoopInv rootDir walk d (GetNode s.graph curPathRel).2
                (GetNode s.graph curPathRel).1 :=
              ⟨Reachable.getNode curPathRel hinv.1,
                AllRecorded_GetNode hinv.1.wf hinv.2 curPathRel, hv.1, by rw [hv.2]; exact hrel⟩
            have h2b : d.isDir = false := by simpa using h2
            have h3b : HasSuffix d.curPath (str ".md") = true := by simpa using h3
            have step := fun g1 => forEach_inv
              (LoopInv rootDir walk d (GetNode s.graph curPathRel).2) _ _
              (fun rl hrl g2 g3 hg hr => lineBody_inv hd h1 h2b h3b h4 rl hrl g2 g3 hg hr)
              (GetNode s.graph curPathRel).1 g1 hloop
            split at hres
            · rename_i g1 hfe
              simp only [Res.state?, Option.some.injEq] at hres; subst hres
              have := step g1 (by rw [hfe]; rfl)
              exact ⟨this.1, this.2.1⟩
            · rename_i g1 err hfe
              simp only [Res.state?, Option.some.injEq] at hres; subst hres
              have := step g1 (by rw [hfe]; rfl)
              exact ⟨this.1, this.2.1⟩
            · simp [Res.state?] at hres

theorem BuildGraph_inv {rootDir : GoString} {walk : List WalkEntry} {s : Build}
    (h : (BuildGraph rootDir walk).state? = some s) :
    Reachable s.graph ∧ AllRecorded rootDir walk s.graph := by
  unfold BuildGraph at h
  refine forEach_inv (fun s => Reachable s.graph ∧ AllRecorded rootDir walk s.graph) _ _
    (fun d hd s s1 hs hr => walkFn_inv hd s s1 hs hr) _ s ⟨Reachable.empty, ?_⟩ h
  intro i hi
  simp [Graph.empty] at hi

/-! ## The context window -/

theorem float64_exact {n : Int} (h : n.natAbs ≤ 2 ^ 53) : float64 n = n := by
  unfold float64
  rw [if_pos h]

theorem contextStart_eq {row : Nat} (h : row ≤ maxLines) :
    contextStart row = max 0 ((row : Int) - 1) := by
  unfold contextStart
  rw [float64_exact]
  unfold maxLines at h
  omega

theorem contextEnd_eq {nLines row : Nat} (hn : nLines ≤ maxLines) (h : row ≤ maxLines) :
    contextEnd nLines row = min (nLines : Int) ((row : Int) + 3) := by
  unfold contextEnd
  unfold maxLines at h hn
  rw [float64_exact, float64_exact] <;> omega

theorem window_bounds {nLines row : Nat} (hn : nLines ≤ maxLines) (hrow : row < nLines) :
    0 ≤ contextStart row ∧ contextStart row ≤ (row : Int) ∧
      (row : Int) < contextEnd nLines row ∧ contextEnd nLines row ≤ (nLines : Int) ∧
      contextEnd nLines row - contextStart row ≤ 4 := by
  rw [contextStart_eq (by omega), contextEnd_eq hn (by omega)]
  omega

theorem slice_eq_some {α : Type} {xs : List α} {lo hi : Int} (h0 : 0 ≤ lo) (h1 : lo ≤ hi)
    (h2 : hi ≤ (xs.length : Int)) :
    slice xs lo hi = some ((xs.drop lo.toNat).take (hi.toNat - lo.toNat)) := by
  simp [slice, h0, h1, h2]

theorem slice_some_iff {α : Type} {xs ys : List α} {lo hi : Int} :
    slice xs lo hi = some ys ↔
      (0 ≤ lo ∧ lo ≤ hi ∧ hi ≤ (xs.length : Int)) ∧
        ys = (xs.drop lo.toNat).take (hi.toNat - lo.toNat) := by
  unfold slice
  split
  · rename_i h; simp [h, eq_comm]
  · rename_i h; simp [h]

/-! ## Results on the context window -/

/-- C1: every link of the graph that `BuildGraph` returns was recorded for a match on a row
`row` of a scanned file whose key is the path of the link's source node, `0 ≤ row <
totalLines`, and the context stored on the link is exactly the lines of that file with
indices `start .. stop-1`, in order, where `start = max(0, row-1)` and
`stop = min(totalLines, row+3)`. -/
theorem context_is_window (rootDir : GoString) (walk : List WalkEntry) (s : Build)
    (hbuild : (BuildGraph rootDir walk).state? = some s)
    (hsize : ∀ d ∈ walk, ∀ content, d.content = .ok content →
      (splitLines content).length ≤ maxLines)
    (i : Nat) (hi : i < s.graph.linkObjs.length) :
    ∃ d ∈ walk, ∃ content, d.content = .ok content ∧
      Rel rootDir d.curPath = .ok (s.graph.node (s.graph.link i).«from»).path ∧
      ∃ row : Nat, (s.graph.link i).row = (row : Int) ∧ row < (splitLines content).length ∧
        (∃ locs ∈ FindAllStringSubmatchIndex ((splitLines content).getD row []),
          (s.graph.link i).col = locs.getD 2 0) ∧
        ∃ start stop : Nat, (start : Int) = max 0 ((row : Int) - 1) ∧
          (stop : Int) = min ((splitLines content).length : Int) ((row : Int) + 3) ∧
          start ≤ stop ∧ stop ≤ (splitLines content).length ∧
          (s.graph.link i).context.length = stop - start ∧
          ∀ k, k < stop - start →
            (s.graph.link i).context[k]? = (splitLines content)[start + k]? := by
  obtain ⟨d, hd, content, row, locs, target, decoded, hr⟩ := (BuildGraph_inv hbuild).2 i hi
  have hn := hsize d hd content hr.read
  have hb := window_bounds hn hr.row_lt
  have hs := @contextStart_eq row (by have := hr.row_lt; omega)
  have he := @contextEnd_eq _ row hn (by have := hr.row_lt; omega)
  obtain ⟨_, hctx⟩ := slice_some_iff.1 hr.context_eq
  refine ⟨d, hd, content, hr.read, hr.from_path, row, hr.row_eq, hr.row_lt,
    ⟨locs, hr.found, hr.col_eq⟩, (contextStart row).toNat,
    (contextEnd (splitLines content).length row).toNat, ?_, ?_, ?_, ?_, ?_, ?_⟩
  · rw [← hs]; omega
  · rw [← he]; omega
  · omega
  · omega
  · rw [hctx, List.length_take, List.length_drop]; omega
  · intro k hk
    rw [hctx, List.getElem?_take, if_pos hk, List.getElem?_drop]

/-- C1 at the tree `walkOneFile`: the first link, found on row 1 of a file of five lines. -/
theorem context_is_window_witness :
    ∃ d ∈ walkOneFile, ∃ content, d.content = .ok content ∧
      Rel (str "/p") d.curPath = .ok (str "a.md") ∧
      ∃ row : Nat, (1 : Int) = (row : Int) ∧ row < (splitLines content).length ∧
        (∃ locs ∈ FindAllStringSubmatchIndex ((splitLines content).getD row []),
          (1 : Int) = locs.getD 2 0) ∧
        ∃ start stop : Nat, (start : Int) = max 0 ((row : Int) - 1) ∧
          (stop : Int) = min ((splitLines content).length : Int) ((row : Int) + 3) ∧
          start ≤ stop ∧ stop ≤ (splitLines content).length ∧
          [str "x", str "[a](b.md) [a](./a.md)", str "y", str "z"].length = stop - start ∧
          ∀ k, k < stop - start →
            [str "x", str "[a](b.md) [a](./a.md)", str "y", str "z"][k]? =
              (splitLines content)[start + k]? := by
  have hb : (BuildGraph (str "/p") walkOneFile).state? =
      some ⟨⟨[(str "a.md", 0), (str "b.md", 1)],
        [⟨str "a.md", [1], [0, 1]⟩, ⟨str "b.md", [0], []⟩],
        [⟨1, 1, 0, 1, [str "x", str "[a](b.md) [a](./a.md)", str "y", str "z"]⟩,
         ⟨1, 11, 0, 0, [str "x", str "[a](b.md) [a](./a.md)", str "y", str "z"]⟩]⟩, 1⟩ := by
    decide
  have hsize : ∀ d ∈ walkOneFile, ∀ content, d.content = .ok content →
      (splitLines content).length ≤ maxLines := by
    intro d hd content hc
    simp only [walkOneFile, List.mem_cons, List.mem_singleton, List.not_mem_nil, or_false] at hd
    rcases hd with rfl | rfl
    · simp at hc
    · simp only [Except.ok.injEq] at hc
      subst hc
      decide
  exact context_is_window (str "/p") walkOneFile _ hb hsize 0 (by decide)

/-- C2: for `totalLines ≥ 1` and `0 ≤ row < totalLines`, the bounds computed in
`BuildGraph` satisfy `0 ≤ start ≤ stop ≤ totalLines` and `stop - start ≤ 4`, so the slice
expression `lines[start:stop]` does not panic and yields at most 4 lines. -/
theorem context_window_in_bounds (lines : List GoString) (row : Nat)
    (_ : 1 ≤ lines.length) (hrow : row < lines.length) (hsize : lines.length ≤ maxLines) :
    0 ≤ contextStart row ∧ contextStart row ≤ contextEnd lines.length row ∧
      contextEnd lines.length row ≤ (lines.length : Int) ∧
      contextEnd lines.length row - contextStart row ≤ 4 ∧
      ∃ context, slice lines (contextStart row) (contextEnd lines.length row) = some context ∧
        context.length ≤ 4 ∧ ∀ c ∈ context, c ∈ lines := by
  have hb := window_bounds hsize hrow
  refine ⟨hb.1, by omega, hb.2.2.2.1, hb.2.2.2.2, _,
    slice_eq_some hb.1 (by omega) hb.2.2.2.1, ?_, ?_⟩
  · rw [List.length_take, List.length_drop]; omega
  · intro c hc
    exact List.mem_of_mem_drop (List.mem_of_mem_take hc)

/-- C2 on the last row of a file of five lines. -/
theorem context_window_in_bounds_witness :
    0 ≤ contextStart (4 : Nat) ∧ contextStart (4 : Nat) ≤ contextEnd 5 (4 : Nat) ∧
      contextEnd 5 (4 : Nat) ≤ 5 ∧ contextEnd 5 (4 : Nat) - contextStart (4 : Nat) ≤ 4 ∧
      ∃ context, slice [str "x", str "[a](b.md) [a](./a.md)", str "y", str "z", str "w"]
          (contextStart (4 : Nat)) (contextEnd 5 (4 : Nat)) = some context ∧
        context.length ≤ 4 ∧
        ∀ c ∈ context, c ∈ [str "x", str "[a](b.md) [a](./a.md)", str "y", str "z", str "w"] :=
  context_window_in_bounds [str "x", str "[a](b.md) [a](./a.md)", str "y", str "z", str "w"] 4
    (by decide) (by decide) (by decide)

/-! ## The matches of the pattern -/

theorem matchHere_head {s : GoString} {r : Nat × Nat} (h : matchHere s = some r) :
    s.head? = some (byte '[') := by
  cases s with
  | nil => simp [matchHere] at h
  | cons c cs =>
    simp only [matchHere] at h
    split at h
    · rename_i hc; simp [hc]
    · simp at h

theorem findAllFrom_mem {locs : List Int} :
    ∀ (s : GoString) (pos skip : Nat), locs ∈ findAllFrom pos skip s →
      ∃ k n1 n2, locs = locsAt (pos + k) n1 n2 ∧ matchHere (s.drop k) = some (n1, n2) := by
  intro s
  induction s with
  | nil => intro pos skip h; simp [findAllFrom] at h
  | cons c cs ih =>
    intro pos skip h
    have shift : (∃ k n1 n2, locs = locsAt (pos + 1 + k) n1 n2 ∧
        matchHere (cs.drop k) = some (n1, n2)) →
        ∃ k n1 n2, locs = locsAt (pos + k) n1 n2 ∧
          matchHere ((c :: cs).drop k) = some (n1, n2) := by
      rintro ⟨k, n1, n2, h1, h2⟩
      exact ⟨k + 1, n1, n2, by rw [h1]; congr 1; omega, by simpa using h2⟩
    cases skip with
    | succ skip =>
      rw [findAllFrom] at h
      exact shift (ih _ _ h)
    | zero =>
      rw [findAllFrom] at h
      split at h
      · rename_i n1 n2 hm
        rw [List.mem_cons] at h
        rcases h with h | h
        · exact ⟨0, n1, n2, by simpa using h, by simpa using hm⟩
        · exact shift (ih _ _ h)
      · exact shift (ih _ _ h)

theorem FindAll_mem {text : GoString} {locs : List Int}
    (h : locs ∈ FindAllStringSubmatchIndex text) :
    ∃ off n1 n2, locs = locsAt off n1 n2 ∧ text[off]? = some (byte '[') := by
  obtain ⟨k, n1, n2, h1, h2⟩ := findAllFrom_mem text 0 0 h
  refine ⟨k, n1, n2, by simpa using h1, ?_⟩
  have := matchHere_head h2
  rw [List.head?_drop] at this
  exact this

/-! ## Results on the column and the printed line numbers -/

/-- C3 (as stated, refuted): in the tree `walkOneFile` the two matches on row 1 start, with
their opening bracket, at offsets 0 and 10, and the links recorded for them have columns 1
and 11. -/
theorem column_is_bracket_offset_counterexample :
    (splitLines (str "x\n[a](b.md) [a](./a.md)\ny\nz\nw")).getD 1 [] =
        str "[a](b.md) [a](./a.md)" ∧
      (FindAllStringSubmatchIndex (str "[a](b.md) [a](./a.md)")).map
        (fun locs => locs.getD 0 0) = [0, 10] ∧
      (BuildGraph (str "/p") walkOneFile).state?.map
        (fun s => s.graph.linkObjs.map (fun l => (l.row, l.col))) = some [(1, 1), (1, 11)] := by
  decide

/-- C4 (the code at the failing input): for the tree `walkTwoLinks`, whose file `a.md` has
line 0 `[a](b.md)` and line 1 `[c](b.md)`, `BuildGraph` returns `graphTwoLinks`, with a link
on row 0 and a link on row 1 that have the same two context lines, and the report of `b.md`
prints these lines with the numbers 0 and 1 for the first link and with the numbers 1 and 2
for the second: line 0 is printed as line 1, and line 1 as line 2. -/
theorem printed_line_numbers_at_failing_input :
    splitLines (str "[a](b.md)\n[c](b.md)") = [str "[a](b.md)", str "[c](b.md)"] ∧
      BuildGraph (str "/p") walkTwoLinks = .next ⟨graphTwoLinks, 1⟩ ∧
      DescribeInbounds graphTwoLinks 1 =
        str ("b.md is mentioned in\n" ++
          "  a.md\n    0: [a](b.md)\n    1: [c](b.md)\n" ++
          "  a.md\n    1: [a](b.md)\n    2: [c](b.md)\n") := by
  decide

/-! ## Results on the registry and the exit status -/

theorem DescribeAllNodes_no_panic {g : Graph}
    (h : ∀ kv ∈ g.nodes, (g.node kv.2).path = kv.1) :
    ∀ order : List (GoString × Nat), order ⊆ g.nodes → (DescribeAllNodes g order).2 = false := by
  intro order
  induction order with
  | nil => intro _; rfl
  | cons kv rest ih =>
    intro hsub
    obtain ⟨path, node⟩ := kv
    have hkv := h (path, node) (hsub (List.mem_cons_self _ _))
    simp only [] at hkv
    unfold DescribeAllNodes
    rw [if_neg (by rw [hkv]; simp)]
    exact ih (fun x hx => hsub (List.mem_cons_of_mem _ hx))

/-- C5 (as stated, refuted): run on the tree `walkTwoLines`, whose only file links to the
unscanned `b.md`, with an empty link-to option, `BuildGraph` returns no error, with one
file scanned and two nodes, and `main` ends with exit status 1. -/
theorem exit_status_on_orphan_target_counterexample :
    envTwoLines.linkTo = [] ∧
      BuildGraph (str "/p") (envTwoLines.walk (str "/p")) = .next ⟨graphTwoLines, 1⟩ ∧
      graphTwoLines.nodes.length = 2 ∧
      main envTwoLines =
        ⟨str "Visited files mismatch: 1 != 2 (# of graph nodes)\n", 1⟩ := by
  decide

/-- C5 (amended): when `BuildGraph` returns no error and the link-to option is empty,
`main` ends with exit status 0 if the number of scanned files equals the number of nodes
of the graph, and with exit status 1 if the two numbers differ. -/
theorem exit_status_without_link_to (env : Env) (cwd : GoString) (s : Build)
    (hwd : env.getwd = .ok cwd)
    (hbuild : BuildGraph (env.root.getD cwd) (env.walk (env.root.getD cwd)) = .next s)
    (hlink : env.linkTo = [])
    (horder : env.rangeOrder s.graph.nodes ⊆ s.graph.nodes) :
    (main env).status = if s.nMDs = (s.graph.nodes.length : Int) then 0 else 1 := by
  have hreach := (BuildGraph_inv (s := s) (by rw [hbuild]; rfl)).1
  have hnp := DescribeAllNodes_no_panic (fun kv hkv => (hreach.wf.registry kv hkv).2)
    _ horder
  unfold main
  simp only [hwd, hbuild, hlink]
  by_cases hc : s.nMDs = (s.graph.nodes.length : Int)
  · simp [hc, hnp]
  · simp [hc]

/-- C5 (amended) at a tree whose only file has no link, and at `walkTwoLines`. -/
theorem exit_status_without_link_to_witness :
    (main envNoLinks).status = 0 ∧ (main envTwoLines).status = 1 :=
  ⟨exit_status_without_link_to envNoLinks (str "/p")
      ⟨⟨[(str "a.md", 0)], [⟨str "a.md", [], []⟩], []⟩, 1⟩
      rfl (by decide) rfl (by decide),
    exit_status_without_link_to envTwoLines (str "/p") ⟨graphTwoLines, 1⟩
      rfl (by decide) rfl (by decide)⟩

/-- C6: in every graph reachable from the empty graph by `GetNode` and `LinkTo` calls,
every entry `(k, n)` of `Graph.nodes` has `n` allocated and `n.path = k`; the graph that
`BuildGraph` returns is reachable, so it has the property too, and `DescribeAllNodes` does
not panic on it, in whatever order its entries are ranged over. -/
theorem registry_invariant (g : Graph) (hg : Reachable g) (rootDir : GoString)
    (walk : List WalkEntry) (s : Build) (hbuild : (BuildGraph rootDir walk).state? = some s) :
    (∀ kv ∈ g.nodes, kv.2 < g.nodeObjs.length ∧ (g.node kv.2).path = kv.1) ∧
      Reachable s.graph ∧
      (∀ kv ∈ s.graph.nodes, kv.2 < s.graph.nodeObjs.length ∧
        (s.graph.node kv.2).path = kv.1) ∧
      ∀ order : List (GoString × Nat), order ⊆ s.graph.nodes →
        (DescribeAllNodes s.graph order).2 = false := by
  have hreach := (BuildGraph_inv hbuild).1
  exact ⟨hg.wf.registry, hreach, hreach.wf.registry,
    DescribeAllNodes_no_panic (fun kv hkv => (hreach.wf.registry kv hkv).2)⟩

/-- C6 at the graph with the nodes `a.md` and `b.md` and at the tree `walkTwoLines`. -/
theorem registry_invariant_witness :
    (∀ kv ∈ (GetNode (GetNode Graph.empty (str "a.md")).1 (str "b.md")).1.nodes,
        kv.2 < (GetNode (GetNode Graph.empty (str "a.md")).1 (str "b.md")).1.nodeObjs.length ∧
        ((GetNode (GetNode Graph.empty (str "a.md")).1 (str "b.md")).1.node kv.2).path
          = kv.1) ∧
      Reachable graphTwoLines ∧
      (∀ kv ∈ graphTwoLines.nodes, kv.2 < graphTwoLines.nodeObjs.length ∧
        (graphTwoLines.node kv.2).path = kv.1) ∧
      ∀ order : List (GoString × Nat), order ⊆ graphTwoLines.nodes →
        (DescribeAllNodes graphTwoLines order).2 = false :=
  registry_invariant (GetNode (GetNode Graph.empty (str "a.md")).1 (str "b.md")).1
    (Reachable.getNode _ (Reachable.getNode _ Reachable.empty))
    (str "/p") walkTwoLines ⟨graphTwoLines, 1⟩ (by decide)

/-- C7: `GetNode(p)` is get-or-create.  If `p` is a key, it returns the registered node and
the graph is unchanged.  Otherwise it returns a newly allocated node with path `p` and
empty `inLinks` and `outLinks`, the registry is the old one with the entry for `p` added, and
no link changes.  In both cases every entry of the registry and every allocated node is
still there unchanged, and a second `GetNode(p)` returns the same node and graph, so the
node count does not change. -/
theorem GetNode_get_or_create (g : Graph) (p : GoString) :
    (∀ r, g.lookup p = some r → GetNode g p = (g, r)) ∧
      (g.lookup p = none →
        (GetNode g p).2 = g.nodeObjs.length ∧
        (GetNode g p).1.node (GetNode g p).2 = ⟨p, [], []⟩ ∧
        (GetNode g p).1.nodes = g.nodes ++ [(p, (GetNode g p).2)] ∧
        (GetNode g p).1.nodes.map Prod.fst = g.nodes.map Prod.fst ++ [p] ∧
        (GetNode g p).1.linkObjs = g.linkObjs) ∧
      (∀ kv ∈ g.nodes, kv ∈ (GetNode g p).1.nodes) ∧
      (∀ (r : Nat) (nd : Node), g.nodeObjs[r]? = some nd →
        (GetNode g p).1.nodeObjs[r]? = some nd) ∧
      (GetNode g p).1.lookup p = some (GetNode g p).2 ∧
      GetNode (GetNode g p).1 p = GetNode g p ∧
      (GetNode (GetNode g p).1 p).1.nodes.length = (GetNode g p).1.nodes.length := by
  have hlook : (GetNode g p).1.lookup p = some (GetNode g p).2 := by
    cases hl : g.lookup p with
    | some r => rw [GetNode_of_lookup_some hl]; exact hl
    | none =>
      rw [GetNode_of_lookup_none hl]
      have h1 : List.lookup p g.nodes = none := hl
      simp [Graph.lookup, List.lookup_append, h1, List.lookup]
  have hsecond : GetNode (GetNode g p).1 p = GetNode g p := by
    rw [GetNode_of_lookup_some hlook]
  refine ⟨fun r hr => GetNode_of_lookup_some hr, ?_, ?_, ?_, hlook, hsecond, by rw [hsecond]⟩
  · intro hl
    rw [GetNode_of_lookup_none hl]
    refine ⟨rfl, ?_, rfl, by simp, rfl⟩
    apply node_eq_of_getElem?; simp
  · intro kv hkv
    cases hl : g.lookup p with
    | some r => rw [GetNode_of_lookup_some hl]; exact hkv
    | none => rw [GetNode_of_lookup_none hl]; exact List.mem_append_left _ hkv
  · intro r nd h
    exact GetNode_getElem? g p h

/-- C7 on the graph with the single node `a.md`: `GetNode("a.md")` finds it, and
`GetNode("b.md")` allocates the second node. -/
theorem GetNode_get_or_create_witness :
    GetNode (GetNode Graph.empty (str "a.md")).1 (str "a.md") =
        ((GetNode Graph.empty (str "a.md")).1, 0) ∧
      ((GetNode (GetNode Graph.empty (str "a.md")).1 (str "b.md")).2 = 1 ∧
        (GetNode (GetNode Graph.empty (str "a.md")).1 (str "b.md")).1.node 1 =
          ⟨str "b.md", [], []⟩) :=
  ⟨(GetNode_get_or_create (GetNode Graph.empty (str "a.md")).1 (str "a.md")).1 0 (by decide),
    ⟨((GetNode_get_or_create (GetNode Graph.empty (str "a.md")).1 (str "b.md")).2.1
        (by decide)).1,
      ((GetNode_get_or_create (GetNode Graph.empty (str "a.md")).1 (str "b.md")).2.1
        (by decide)).2.1⟩⟩

/-! ## Results on the two sides of a link -/

/-- C8: in every graph reachable by `GetNode` and `LinkTo` calls, and so in the graph that
`BuildGraph` returns, every allocated link `l` is in `l.from.outLinks` and in
`l.to.inLinks` (so it is in the one if and only if it is in the other), every link in a
node's `outLinks` starts at that node and every link in its `inLinks` ends at it.
`LinkTo(from, to, ...)` allocates one link and appends it at the end of `from.outLinks` and
of `to.inLinks`; no other list, no path and no registry entry changes. -/
theorem links_two_sided (g : Graph) (hg : Reachable g) (rootDir : GoString)
    (walk : List WalkEntry) (s : Build) (hbuild : (BuildGraph rootDir walk).state? = some s)
    (n another : Nat) (hn : n < g.nodeObjs.length) (ha : another < g.nodeObjs.length)
    (row col : Int) (context : List GoString) :
    ((∀ l, l < g.linkObjs.length →
        l ∈ (g.node (g.link l).«from»).outLinks ∧ l ∈ (g.node (g.link l).«to»).inLinks) ∧
      (∀ l, l ∈ (g.node (g.link l).«from»).outLinks ↔ l ∈ (g.node (g.link l).«to»).inLinks) ∧
      (∀ m l, l ∈ (g.node m).outLinks → l < g.linkObjs.length ∧ (g.link l).«from» = m) ∧
      (∀ m l, l ∈ (g.node m).inLinks → l < g.linkObjs.length ∧ (g.link l).«to» = m)) ∧
    ((∀ l, l < s.graph.linkObjs.length →
        l ∈ (s.graph.node (s.graph.link l).«from»).outLinks ∧
        l ∈ (s.graph.node (s.graph.link l).«to»).inLinks) ∧
      (∀ m l, l ∈ (s.graph.node m).outLinks →
        l < s.graph.linkObjs.length ∧ (s.graph.link l).«from» = m) ∧
      (∀ m l, l ∈ (s.graph.node m).inLinks →
        l < s.graph.linkObjs.length ∧ (s.graph.link l).«to» = m)) ∧
    ((LinkTo g n another row col context).linkObjs =
        g.linkObjs ++ [⟨row, col, n, another, context⟩] ∧
      ((LinkTo g n another row col context).node n).outLinks =
        (g.node n).outLinks ++ [g.linkObjs.length] ∧
      ((LinkTo g n another row col context).node another).inLinks =
        (g.node another).inLinks ++ [g.linkObjs.length] ∧
      (∀ m, m ≠ n → ((LinkTo g n another row col context).node m).outLinks =
        (g.node m).outLinks) ∧
      (∀ m, m ≠ another → ((LinkTo g n another row col context).node m).inLinks =
        (g.node m).inLinks) ∧
      (∀ m, ((LinkTo g n another row col context).node m).path = (g.node m).path) ∧
      (LinkTo g n another row col context).nodes = g.nodes ∧
      (LinkTo g n another row col context).nodeObjs.length = g.nodeObjs.length) := by
  have sides : ∀ g1 : Graph, WF g1 →
      (∀ l, l < g1.linkObjs.length →
        l ∈ (g1.node (g1.link l).«from»).outLinks ∧ l ∈ (g1.node (g1.link l).«to»).inLinks) ∧
      (∀ m l, l ∈ (g1.node m).outLinks → l < g1.linkObjs.length ∧ (g1.link l).«from» = m) ∧
      (∀ m l, l ∈ (g1.node m).inLinks → l < g1.linkObjs.length ∧ (g1.link l).«to» = m) := by
    intro g1 hw
    exact ⟨fun l hl => ⟨(hw.outs _ l).2 ⟨hl, rfl⟩, (hw.ins _ l).2 ⟨hl, rfl⟩⟩,
      fun m l h => (hw.outs m l).1 h, fun m l h => (hw.ins m l).1 h⟩
  have hw := hg.wf
  obtain ⟨h1, h2, h3⟩ := sides g hw
  refine ⟨⟨h1, ?_, h2, h3⟩, sides s.graph (BuildGraph_inv hbuild).1.wf,
    LinkTo_linkObjs .., ?_, ?_, ?_, ?_, ?_, LinkTo_nodes .., LinkTo_length ..⟩
  · intro l
    constructor
    · intro h; exact (h1 l (h2 _ l h).1).2
    · intro h; exact (h1 l (h3 _ l h).1).1
  · rw [LinkTo_node]; simp [hn]
  · rw [LinkTo_node]; simp [ha]
  · intro m hm; rw [LinkTo_node]; simp [hm]
  · intro m hm; rw [LinkTo_node]; simp [hm]
  · intro m; rw [LinkTo_node]

/-- C8 at the graph with the nodes `a.md` and `b.md`, for a link from the first to the
second, and at the tree `walkTwoLines`. -/
theorem links_two_sided_witness :
    (LinkTo (GetNode (GetNode Graph.empty (str "a.md")).1 (str "b.md")).1 0 1 1 1
        [str "x", str "[a](b.md)"]).linkObjs = [⟨1, 1, 0, 1, [str "x", str "[a](b.md)"]⟩] ∧
      (∀ l, l < graphTwoLines.linkObjs.length →
        l ∈ (graphTwoLines.node (graphTwoLines.link l).«from»).outLinks ∧
        l ∈ (graphTwoLines.node (graphTwoLines.link l).«to»).inLinks) :=
  ⟨(links_two_sided (GetNode (GetNode Graph.empty (str "a.md")).1 (str "b.md")).1
      (Reachable.getNode _ (Reachable.getNode _ Reachable.empty))
      (str "/p") walkTwoLines ⟨graphTwoLines, 1⟩ (by decide) 0 1 (by decide) (by decide) 1 1
      [str "x", str "[a](b.md)"]).2.2.1,
    (links_two_sided (GetNode (GetNode Graph.empty (str "a.md")).1 (str "b.md")).1
      (Reachable.getNode _ (Reachable.getNode _ Reachable.empty))
      (str "/p") walkTwoLines ⟨graphTwoLines, 1⟩ (by decide) 0 1 (by decide) (by decide) 1 1
      [str "x", str "[a](b.md)"]).2.1.1⟩


/-! ## `filepath.Clean`, `Join`, `Dir` and `Rel` -/

theorem splitOn_cons (c : UInt8) (cs : GoString) :
    (c :: cs).splitOn sep =
      if c = sep then [] :: cs.splitOn sep else (cs.splitOn sep).modifyHead (List.cons c) := by
  simp only [List.splitOn]
  rw [List.splitOnP_cons]
  simp

theorem splitOn_ne_nil (s : GoString) : s.splitOn sep ≠ [] := List.splitOnP_ne_nil _ _

theorem splitOn_no_sep (s : GoString) : ∀ e ∈ s.splitOn sep, sep ∉ e := by
  induction s with
  | nil => simp [List.splitOn_nil]
  | cons c cs ih =>
    rw [splitOn_cons]
    split
    · intro e he
      rcases List.mem_cons.1 he with rfl | he
      · simp
      · exact ih e he
    · rename_i hc
      cases hs : cs.splitOn sep with
      | nil => exact absurd hs (splitOn_ne_nil cs)
      | cons h t =>
        rw [hs] at ih
        intro e he
        simp only [List.modifyHead_cons, List.mem_cons] at he
        rcases he with rfl | he
        · intro hm
          rcases List.mem_cons.1 hm with h1 | h1
          · exact hc h1.symm
          · exact ih h (List.mem_cons_self _ _) h1
        · exact ih e (List.mem_cons_of_mem _ he)

theorem splitOn_append_sep (a b : GoString) :
    (a ++ sep :: b).splitOn sep = a.splitOn sep ++ b.splitOn sep := by
  induction a with
  | nil => simp [splitOn_cons, List.splitOn_nil]
  | cons c cs ih =>
    rw [List.cons_append, splitOn_cons, splitOn_cons, ih]
    split
    · simp
    · cases hs : cs.splitOn sep with
      | nil => exact absurd hs (splitOn_ne_nil cs)
      | cons h t => simp

theorem splitOn_single {e : GoString} (h : sep ∉ e) : e.splitOn sep = [e] := by
  apply List.splitOnP_eq_single
  intro x hx
  simp only [beq_iff_eq]
  rintro rfl
  exact h hx

theorem okStack_cleanStep {r : Bool} {st : List GoString} {e : GoString}
    (h : okStack r st) (he : sep ∉ e) : okStack r (cleanStep r st e) := by
  unfold cleanStep
  split
  · exact h
  · rename_i h1
    split
    · rename_i h2
      cases st with
      | nil =>
        cases r with
        | true => simpa using h
        | false =>
          simp only [Bool.false_eq_true, if_false]
          exact ⟨by rw [h2]; decide, by rw [h2]; decide, he, fun _ => ⟨rfl, by simp⟩, h⟩
      | cons l rest =>
        simp only []
        split
        · exact h.2.2.2.2
        · rename_i h3
          have hl : l = str ".." := by simpa using h3
          cases r with
          | true => simpa using h
          | false =>
            simp only [Bool.false_eq_true, if_false]
            refine ⟨by rw [h2]; decide, by rw [h2]; decide, he, fun _ => ⟨rfl, ?_⟩, h⟩
            intro x hx
            rcases List.mem_cons.1 hx with rfl | hx
            · exact hl
            · exact (h.2.2.2.1 hl).2 x hx
    · rename_i h2
      exact ⟨fun h0 => h1 (Or.inl h0), fun h0 => h1 (Or.inr h0), he, fun h0 => absurd h0 h2, h⟩

theorem okStack_foldl {r : Bool} (es : List GoString) :
    ∀ st, okStack r st → (∀ e ∈ es, sep ∉ e) → okStack r (es.foldl (cleanStep r) st) := by
  induction es with
  | nil => intro st h _; exact h
  | cons e es ih =>
    intro st h he
    exact ih _ (okStack_cleanStep h (he e (List.mem_cons_self _ _)))
      (fun x hx => he x (List.mem_cons_of_mem _ hx))

theorem okStack_stackOf (r : Bool) (p : GoString) : okStack r (stackOf r p) :=
  okStack_foldl _ [] trivial (splitOn_no_sep p)

theorem cleanStep_push {r : Bool} {st : List GoString} {e : GoString}
    (h : okStack r (e :: st)) : cleanStep r st e = e :: st := by
  obtain ⟨h1, h2, _, h4, _⟩ := h
  unfold cleanStep
  rw [if_neg (by simp [h1, h2])]
  by_cases he : e = str ".."
  · rw [if_pos he]
    obtain ⟨hr, hall⟩ := h4 he
    cases st with
    | nil => simp [hr]
    | cons l rest =>
      have hl := hall l (List.mem_cons_self _ _)
      simp [hl, hr]
  · rw [if_neg he]

theorem refold {r : Bool} : ∀ st, okStack r st → st.reverse.foldl (cleanStep r) [] = st := by
  intro st
  induction st with
  | nil => intro _; rfl
  | cons e rest ih =>
    intro h
    rw [List.reverse_cons, List.foldl_append, ih h.2.2.2.2]
    exact cleanStep_push h

theorem okStack_no_sep {r : Bool} : ∀ st, okStack r st → ∀ e ∈ st, sep ∉ e ∧ e ≠ [] := by
  intro st
  induction st with
  | nil => intro _ e he; simp at he
  | cons x rest ih =>
    intro h e he
    rcases List.mem_cons.1 he with rfl | he
    · exact ⟨h.2.2.1, h.1⟩
    · exact ih h.2.2.2.2 e he

theorem stackOf_render {r : Bool} {st : List GoString} (h : okStack r st) :
    stackOf r (render r st) = st := by
  have hns : ∀ l ∈ st.reverse, sep ∉ l := fun l hl =>
    (okStack_no_sep st h l (List.mem_reverse.1 hl)).1
  unfold stackOf render
  cases r with
  | true =>
    simp only [if_true]
    rw [splitOn_cons, if_pos rfl]
    by_cases hst : st = []
    · subst hst; simp [List.splitOn_nil, List.intercalate, cleanStep]
    · rw [List.splitOn_intercalate _ _ hns (by simpa using hst)]
      rw [List.foldl_cons]
      have : cleanStep true [] [] = [] := by simp [cleanStep]
      rw [this]
      exact refold st h
  | false =>
    simp only [Bool.false_eq_true, if_false]
    by_cases hst : st = []
    · subst hst
      rw [if_pos rfl]
      decide
    · rw [if_neg hst, List.splitOn_intercalate _ _ hns (by simpa using hst)]
      exact refold st h

theorem Clean_eq (p : GoString) : Clean p = render (isRooted p) (stackOf (isRooted p) p) := by
  unfold Clean
  by_cases hp : p = []
  · subst hp; decide
  · rw [if_neg hp]; rfl

theorem intercalate_cons_head (e : GoString) (es : List GoString) (he : e ≠ []) :
    ([sep].intercalate (e :: es)).head? = e.head? := by
  cases e with
  | nil => exact absurd rfl he
  | cons c cs =>
    cases es with
    | nil => simp [List.intercalate]
    | cons e2 es2 => simp [List.intercalate]

theorem render_ne_nil (r : Bool) (st : List GoString) (h : okStack r st) : render r st ≠ [] := by
  unfold render
  cases r with
  | true => simp
  | false =>
    simp only [Bool.false_eq_true, if_false]
    by_cases hst : st = []
    · rw [if_pos hst]; decide
    · rw [if_neg hst]
      intro hnil
      have hh := congrArg List.head? hnil
      obtain ⟨e, es, hes⟩ := List.exists_cons_of_ne_nil (by simpa using hst : st.reverse ≠ [])
      have he := okStack_no_sep st h e (List.mem_reverse.1 (by rw [hes]; simp))
      rw [hes, intercalate_cons_head e es he.2] at hh
      cases e with
      | nil => exact he.2 rfl
      | cons c cs => simp at hh

theorem isRooted_render (r : Bool) (st : List GoString) (h : okStack r st) :
    isRooted (render r st) = r := by
  unfold render isRooted
  cases r with
  | true => simp
  | false =>
    simp only [Bool.false_eq_true, if_false]
    by_cases hst : st = []
    · rw [if_pos hst]; decide
    · rw [if_neg hst]
      obtain ⟨e, es, hes⟩ := List.exists_cons_of_ne_nil (by simpa using hst : st.reverse ≠ [])
      have he := okStack_no_sep st h e (List.mem_reverse.1 (by rw [hes]; simp))
      rw [hes, intercalate_cons_head e es he.2]
      cases e with
      | nil => exact absurd rfl he.2
      | cons c cs =>
        have : c ≠ sep := fun hc => he.1 (by rw [hc]; simp)
        simp [this]

theorem isRooted_append {a : GoString} (b : GoString) (h : a ≠ []) :
    isRooted (a ++ b) = isRooted a := by
  cases a with
  | nil => exact absurd rfl h
  | cons c cs => rfl

theorem Clean_idem (p : GoString) : Clean (Clean p) = Clean p := by
  have hok := okStack_stackOf (isRooted p) p
  rw [Clean_eq p, Clean_eq (render _ _), isRooted_render _ _ hok, stackOf_render hok]

/-- The cleaned form of `Clean p` followed by a separator and `t`. -/

theorem Clean_append_sep (p t : GoString) :
    Clean (Clean p ++ sep :: t) =
      render (isRooted p) ((t.splitOn sep).foldl (cleanStep (isRooted p)) (stackOf (isRooted p) p)) := by
  have hok := okStack_stackOf (isRooted p) p
  rw [Clean_eq (Clean p ++ sep :: t), Clean_eq p,
    isRooted_append _ (render_ne_nil _ _ hok), isRooted_render _ _ hok]
  congr 1
  have := stackOf_render hok
  unfold stackOf at this ⊢
  rw [splitOn_append_sep, List.foldl_append, this]

theorem Join_two (p t : GoString) : Join [Clean p, t] = Clean (Clean p ++ sep :: t) := by
  have hne : Clean p ≠ [] := by
    rw [Clean_eq]; exact render_ne_nil _ _ (okStack_stackOf _ _)
  unfold Join
  rw [List.dropWhile_cons_of_neg (by simpa using hne)]
  simp [List.intercalate]

theorem Join_three (p t : GoString) :
    Join [Clean p, str "./", t] = Clean (Clean p ++ sep :: (str "./" ++ sep :: t)) := by
  have hne : Clean p ≠ [] := by
    rw [Clean_eq]; exact render_ne_nil _ _ (okStack_stackOf _ _)
  unfold Join
  rw [List.dropWhile_cons_of_neg (by simpa using hne)]
  simp [List.intercalate]

theorem Join_dot_slash (p t : GoString) :
    Join [Clean p, str "./", t] = Join [Clean p, t] := by
  rw [Join_three, Join_two, Clean_append_sep, Clean_append_sep]
  congr 1

theorem Dir_eq (path : GoString) : Dir path = Clean (dirPart path) := rfl

theorem dirPart_append_lastElem (path : GoString) : dirPart path ++ lastElem path = path := by
  unfold dirPart lastElem
  rw [← List.reverse_append, List.takeWhile_append_dropWhile, List.reverse_reverse]

theorem lastElem_no_sep (path : GoString) : sep ∉ lastElem path := by
  unfold lastElem
  intro h
  have := List.mem_takeWhile_imp (List.mem_reverse.1 h)
  simp at this

theorem dirPart_cases (path : GoString) :
    dirPart path = [] ∨ ∃ pre, dirPart path = pre ++ [sep] := by
  unfold dirPart
  cases h : path.reverse.dropWhile (fun c => c ≠ sep) with
  | nil => left; rfl
  | cons c cs =>
    right
    have := List.head_dropWhile_not (fun c => decide (c ≠ sep)) path.reverse
      (by rw [h]; simp)
    simp only [h, List.head_cons] at this
    have hc : c = sep := by simpa using this
    exact ⟨cs.reverse, by rw [hc]; simp⟩

theorem cleanStep_regular (r : Bool) (st : List GoString) {e : GoString} (h1 : e ≠ [])
    (h2 : e ≠ str ".") (h3 : e ≠ str "..") : cleanStep r st e = e :: st := by
  unfold cleanStep
  rw [if_neg (by simp [h1, h2]), if_neg h3]

theorem cleanStep_empty (r : Bool) (st : List GoString) : cleanStep r st [] = st := by
  simp [cleanStep]

theorem cleanStep_dot (r : Bool) (st : List GoString) : cleanStep r st (str ".") = st := by
  simp [cleanStep]

theorem Clean_append_elem (P b : GoString) (hP : P = [] ∨ ∃ pre, P = pre ++ [sep])
    (hns : sep ∉ b) (h1 : b ≠ []) (h2 : b ≠ str ".") (h3 : b ≠ str "..") :
    Clean (P ++ b) = render (isRooted P) (b :: stackOf (isRooted P) P) := by
  rw [Clean_eq]
  rcases hP with hP | ⟨pre, hP⟩
  · subst hP
    have hroot : isRooted b = false := by
      cases b with
      | nil => exact absurd rfl h1
      | cons c cs =>
        have : c ≠ sep := fun hc => hns (by rw [hc]; simp)
        simp [isRooted, this]
    have hr2 : isRooted ([] : GoString) = false := by decide
    rw [List.nil_append, hroot, hr2]
    congr 1
    unfold stackOf
    rw [List.splitOn_nil, splitOn_single hns]
    simp [cleanStep_empty, cleanStep_regular _ _ h1 h2 h3]
  · subst hP
    have hroot : isRooted (pre ++ [sep] ++ b) = isRooted (pre ++ [sep]) :=
      isRooted_append _ (by simp)
    rw [hroot]
    congr 1
    unfold stackOf
    have e1 : pre ++ [sep] ++ b = pre ++ sep :: b := by simp
    have e2 : pre ++ [sep] = pre ++ sep :: [] := rfl
    rw [e1, splitOn_append_sep, splitOn_single hns, List.foldl_append]
    nth_rewrite 2 [e2]
    rw [splitOn_append_sep, List.splitOn_nil, List.foldl_append]
    simp [cleanStep_empty, cleanStep_regular _ _ h1 h2 h3]

theorem Clean_dir_elem (path : GoString) (h1 : lastElem path ≠ [])
    (h2 : lastElem path ≠ str ".") (h3 : lastElem path ≠ str "..") :
    Clean path = render (isRooted (dirPart path))
      (lastElem path :: stackOf (isRooted (dirPart path)) (dirPart path)) := by
  have := Clean_append_elem (dirPart path) (lastElem path) (dirPart_cases path)
    (lastElem_no_sep path) h1 h2 h3
  rw [dirPart_append_lastElem] at this
  exact this

theorem Join_self (path : GoString) (h1 : lastElem path ≠ [])
    (h2 : lastElem path ≠ str ".") (h3 : lastElem path ≠ str "..") :
    Join [Dir path, str "./", lastElem path] = Clean path ∧
      Join [Dir path, str "./", str "./" ++ lastElem path] = Clean path := by
  have hns := lastElem_no_sep path
  rw [Clean_dir_elem path h1 h2 h3, Dir_eq, Join_dot_slash, Join_dot_slash, Join_two, Join_two,
    Clean_append_sep, Clean_append_sep]
  constructor
  · congr 1
    rw [splitOn_single hns]
    simp [cleanStep_regular _ _ h1 h2 h3]
  · congr 1
    have h : str "./" ++ lastElem path = str "." ++ sep :: lastElem path := by
      have : str "./" = str "." ++ [sep] := by decide
      rw [this]; simp
    have hd : (str ".").splitOn sep = [str "."] := by decide
    rw [h, splitOn_append_sep, hd, splitOn_single hns]
    simp [cleanStep_dot, cleanStep_regular _ _ h1 h2 h3]

theorem lastElem_of_md {path : GoString} (h : HasSuffix path (str ".md") = true) :
    lastElem path ≠ [] ∧ lastElem path ≠ str "." ∧ lastElem path ≠ str ".." := by
  unfold HasSuffix at h
  rw [List.isSuffixOf_iff_suffix] at h
  obtain ⟨pre, rfl⟩ := h
  have hlen : 3 ≤ (lastElem (pre ++ str ".md")).length := by
    unfold lastElem
    have hrev : (pre ++ str ".md").reverse = (str ".md").reverse ++ pre.reverse := by simp
    rw [hrev, List.length_reverse]
    have : (str ".md").reverse = [byte 'd', byte 'm', byte '.'] := by decide
    rw [this]
    have hd : (byte 'd' ≠ sep) := by decide
    have hm : (byte 'm' ≠ sep) := by decide
    have hdot : (byte '.' ≠ sep) := by decide
    simp [List.takeWhile_cons, hd, hm, hdot]
  refine ⟨?_, ?_, ?_⟩ <;> intro hc <;> rw [hc] at hlen <;> revert hlen <;> decide

theorem Rel_Clean_targ {base targ key : GoString} (h : Rel base targ = .ok key) :
    Rel base (Clean targ) = .ok key := by
  simp only [Rel, Clean_idem] at h ⊢
  split_ifs at h ⊢ <;> exact h

/-! ## Results on decoding and resolving a link target -/

theorem badEscape_of_no_percent : ∀ t : GoString, byte '%' ∉ t → badEscape t = none := by
  intro t
  induction t with
  | nil => intro _; rfl
  | cons c cs ih =>
    intro h
    have hc : c ≠ byte '%' := fun hc => h (by rw [hc]; simp)
    have hcs : byte '%' ∉ cs := fun hm => h (List.mem_cons_of_mem _ hm)
    unfold badEscape
    rw [if_neg hc]
    exact ih hcs

/-- A target without `%` and without `+` is unescaped to itself. -/
theorem QueryUnescape_literal (t : GoString) (h1 : byte '%' ∉ t) (h2 : byte '+' ∉ t) :
    QueryUnescape t = .ok t := by
  unfold QueryUnescape
  rw [badEscape_of_no_percent t h1]
  simp [h1, h2]

/-- C9 (the code at the failing input): `file%20name.md` is unescaped to `file name.md`,
but `c++.md`, which has no `%`, is unescaped to `c  .md`; for the tree `walkPlus`, whose file
`c++.md` links to `c++.md`, `BuildGraph` registers the file under the key `c++.md` and the
target of its link under the key `c  .md`, a second node. -/
theorem plus_is_unescaped_to_space :
    QueryUnescape (str "file%20name.md") = .ok (str "file name.md") ∧
      QueryUnescape (str "c++.md") = .ok (str "c  .md") ∧
      BuildGraph (str "/p") walkPlus =
        .next ⟨⟨[(str "c++.md", 0), (str "c  .md", 1)],
          [⟨str "c++.md", [], [0]⟩, ⟨str "c  .md", [0], []⟩],
          [⟨0, 1, 0, 1, [str "[me](c++.md)"]⟩]⟩, 1⟩ := by
  decide

/-! ## `BuildGraph` does not panic -/

theorem matchTarget_bound : ∀ (s : GoString) (n : Nat), matchTarget s = some n →
    n + 1 ≤ s.length := by
  intro s
  induction s with
  | nil => intro n h; simp [matchTarget] at h
  | cons c cs ih =>
    intro n h
    have hstop : (if (str ".md)").isPrefixOf (c :: cs) then some 3 else none) = some n →
        n + 1 ≤ (c :: cs).length := by
      intro h1
      split at h1
      · rename_i hp
        rw [List.isPrefixOf_iff_prefix] at hp
        have hl := hp.length_le
        have h4 : (str ".md)").length = 4 := by decide
        simp only [Option.some.injEq] at h1
        omega
      · cases h1
    unfold matchTarget at h
    simp only [] at h
    split at h
    · split at h
      · rename_i m hm
        simp only [Option.some.injEq] at h
        have := ih m hm
        simp only [List.length_cons]
        omega
      · exact hstop h
    · exact hstop h

theorem matchClose_bound {s : GoString} {n : Nat} (h : matchClose s = some n) :
    n + 3 ≤ s.length := by
  unfold matchClose at h
  split at h
  · rename_i a b rest
    split at h
    · have := matchTarget_bound rest n h
      simp only [List.length_cons]; omega
    · cases h
  · cases h

theorem matchDisplay_bound : ∀ (s : GoString) (n1 n2 : Nat), matchDisplay s = some (n1, n2) →
    n1 + n2 + 3 ≤ s.length := by
  intro s
  induction s with
  | nil => intro n1 n2 h; simp [matchDisplay] at h
  | cons c cs ih =>
    intro n1 n2 h
    have hstop : (matchClose (c :: cs)).map (fun n2 => (0, n2)) = some (n1, n2) →
        n1 + n2 + 3 ≤ (c :: cs).length := by
      intro h1
      cases hm : matchClose (c :: cs) with
      | none => rw [hm] at h1; cases h1
      | some m =>
        rw [hm] at h1
        simp only [Option.map_some', Option.some.injEq, Prod.mk.injEq] at h1
        have := matchClose_bound hm
        omega
    unfold matchDisplay at h
    simp only [] at h
    split at h
    · split at h
      · rename_i m1 m2 hm
        simp only [Option.some.injEq, Prod.mk.injEq] at h
        have := ih m1 m2 hm
        simp only [List.length_cons]
        omega
      · exact hstop h
    · exact hstop h

theorem matchHere_bound {s : GoString} {n1 n2 : Nat} (h : matchHere s = some (n1, n2)) :
    n1 + n2 + 4 ≤ s.length := by
  cases s with
  | nil => simp [matchHere] at h
  | cons c cs =>
    simp only [matchHere] at h
    split at h
    · have := matchDisplay_bound cs n1 n2 h
      simp only [List.length_cons]; omega
    · cases h

theorem FindAll_bound {text : GoString} {locs : List Int}
    (h : locs ∈ FindAllStringSubmatchIndex text) :
    ∃ off n1 n2, locs = locsAt off n1 n2 ∧ off + n1 + n2 + 4 ≤ text.length := by
  obtain ⟨k, n1, n2, h1, h2⟩ := findAllFrom_mem text 0 0 h
  refine ⟨k, n1, n2, by simpa using h1, ?_⟩
  have := matchHere_bound h2
  rw [List.length_drop] at this
  omega

theorem forEach_no_panic {σ α : Type} (body : σ → α → Res σ) (xs : List α)
    (hb : ∀ a ∈ xs, ∀ s, body s a ≠ .panic) : ∀ s, forEach body xs s ≠ .panic := by
  induction xs with
  | nil => intro s h; simp [forEach] at h
  | cons a as ih =>
    intro s
    unfold forEach
    have ha := hb a (List.mem_cons_self _ _) s
    cases hr : body s a with
    | next s1 => exact ih (fun b hb2 => hb b (List.mem_cons_of_mem _ hb2)) s1
    | stop s1 e => simp
    | panic => exact absurd hr ha

theorem linkBody_no_panic (rootDir curPath : GoString) (lines : List GoString) (node row : Nat)
    (text : GoString) (hsize : lines.length ≤ maxLines) (hrow : row < lines.length)
    {locs : List Int} (hlocs : locs ∈ FindAllStringSubmatchIndex text) (g : Graph) :
    linkBody rootDir curPath lines node row text g locs ≠ .panic := by
  obtain ⟨off, n1, n2, hl, hb⟩ := FindAll_bound hlocs
  have hwin := window_bounds hsize hrow
  have hctx := @slice_eq_some _ lines _ _ hwin.1 (by omega) hwin.2.2.2.1
  have h4 : locs.getD 4 0 = ((off + n1 + 3 : Nat) : Int) := by rw [hl]; simp [locsAt]
  have h5 : locs.getD 5 0 = ((off + n1 + 3 + n2 : Nat) : Int) := by rw [hl]; simp [locsAt]
  have htgt := @slice_eq_some _ text ((off + n1 + 3 : Nat) : Int)
    ((off + n1 + 3 + n2 : Nat) : Int) (by omega) (by omega) (by omega)
  unfold linkBody
  rw [if_neg (by rw [hl]; simp [locsAt]), h4, h5, htgt]
  simp only []
  cases QueryUnescape _ with
  | error e => simp
  | ok pathOfLink =>
    simp only []
    cases Rel rootDir _ with
    | error e => simp
    | ok key => simp only [hctx]; simp

/-- When every file of the walk has at most `maxLines` lines, `BuildGraph` returns: it does
not panic. -/
theorem BuildGraph_no_panic (rootDir : GoString) (walk : List WalkEntry)
    (hsize : ∀ d ∈ walk, ∀ content, d.content = .ok content →
      (splitLines content).length ≤ maxLines) :
    BuildGraph rootDir walk ≠ .panic := by
  unfold BuildGraph
  apply forEach_no_panic
  intro d hd s
  unfold walkFn
  split
  · simp
  · split
    · simp
    · split
      · simp
      · simp only []
        split
        · simp
        · rename_i content hc
          split
          · simp
          · rename_i curPathRel _
            have hn := hsize d hd content hc
            have hfe := forEach_no_panic
              (lineBody rootDir d.curPath (splitLines content)
                (GetNode s.graph curPathRel).2) (splitLines content).enum
              (fun rl hrl g => by
                obtain ⟨row, text⟩ := rl
                unfold lineBody
                exact forEach_no_panic _ _
                  (fun locs hlocs g1 => linkBody_no_panic rootDir d.curPath _ _ row text hn
                    (List.mem_enum hrl).1 hlocs g1) g)
              (GetNode s.graph curPathRel).1
            split
            · simp
            · simp
            · rename_i hp; exact absurd hp hfe

/-! ## Results on self links and repeated links -/

/-- C15: recording a link from an allocated node `n` to `n` itself allocates exactly one
link, with `from = to = n`, after which `n.outLinks` and `n.inLinks` are one longer and
end with that link; nothing is dropped or merged: recording a second link between the same
two nodes allocates a second link and appends it after the first on both sides.
`BuildGraph` records the link of `a.md` to `./a.md` in this way, and two edges for a line
that links to the same target twice. -/
theorem self_link_is_recorded (g : Graph) (n another : Nat) (hn : n < g.nodeObjs.length)
    (ha : another < g.nodeObjs.length)
    (row col row2 col2 : Int) (context context2 : List GoString) :
    ((LinkTo g n n row col context).linkObjs = g.linkObjs ++ [⟨row, col, n, n, context⟩] ∧
      ((LinkTo g n n row col context).node n).outLinks =
        (g.node n).outLinks ++ [g.linkObjs.length] ∧
      ((LinkTo g n n row col context).node n).inLinks =
        (g.node n).inLinks ++ [g.linkObjs.length] ∧
      ((LinkTo g n n row col context).node n).outLinks.length =
        (g.node n).outLinks.length + 1 ∧
      ((LinkTo g n n row col context).node n).inLinks.length =
        (g.node n).inLinks.length + 1 ∧
      (LinkTo g n n row col context).link g.linkObjs.length = ⟨row, col, n, n, context⟩) ∧
    ((LinkTo (LinkTo g n another row col context) n another row2 col2 context2).linkObjs =
        g.linkObjs ++
          [⟨row, col, n, another, context⟩, ⟨row2, col2, n, another, context2⟩] ∧
      ((LinkTo (LinkTo g n another row col context) n another row2 col2 context2).node
          n).outLinks = (g.node n).outLinks ++ [g.linkObjs.length, g.linkObjs.length + 1] ∧
      ((LinkTo (LinkTo g n another row col context) n another row2 col2 context2).node
          another).inLinks =
        (g.node another).inLinks ++ [g.linkObjs.length, g.linkObjs.length + 1]) ∧
    ((BuildGraph (str "/p") walkOneFile).state?.map (fun b => b.graph.linkObjs.map
        (fun l => (l.«from», l.«to», l.row, l.col))) = some [(0, 1, 1, 1), (0, 0, 1, 11)] ∧
      (BuildGraph (str "/p") [⟨str "/p/a.md", none, false,
          .ok (str "[a](b.md) [a](b.md)")⟩]).state?.map (fun b => b.graph.linkObjs.map
        (fun l => (l.«from», l.«to», l.row, l.col))) = some [(0, 1, 0, 1), (0, 1, 0, 11)]) := by
  refine ⟨⟨LinkTo_linkObjs .., ?_, ?_, ?_, ?_, LinkTo_link_new ..⟩, ⟨?_, ?_, ?_⟩,
    by decide, by decide⟩
  · rw [LinkTo_node]; simp [hn]
  · rw [LinkTo_node]; simp [hn]
  · rw [LinkTo_node]; simp [hn]
  · rw [LinkTo_node]; simp [hn]
  · simp [LinkTo_linkObjs]
  · rw [LinkTo_node, LinkTo_node, LinkTo_length, LinkTo_linkObjs]; simp [hn]
  · rw [LinkTo_node, LinkTo_node, LinkTo_length, LinkTo_linkObjs]; simp [ha]

/-- C15 on the graph with the nodes `a.md` and `b.md`. -/
theorem self_link_is_recorded_witness :
    (LinkTo graphTwoLines 0 0 3 1 [str "z"]).linkObjs =
        graphTwoLines.linkObjs ++ [⟨3, 1, 0, 0, [str "z"]⟩] ∧
      ((LinkTo graphTwoLines 0 0 3 1 [str "z"]).node 0).outLinks = [0, 1] ∧
      ((LinkTo graphTwoLines 0 0 3 1 [str "z"]).node 0).inLinks = [1] :=
  ⟨(self_link_is_recorded graphTwoLines 0 1 (by decide) (by decide) 3 1 4 1
      [str "z"] [str "w"]).1.1,
    (self_link_is_recorded graphTwoLines 0 1 (by decide) (by decide) 3 1 4 1
      [str "z"] [str "w"]).1.2.1,
    (self_link_is_recorded graphTwoLines 0 1 (by decide) (by decide) 3 1 4 1
      [str "z"] [str "w"]).1.2.2.1⟩

/-! ## Results on the reports -/

theorem printedLines_cons (l : GoString) (ls : List GoString) :
    printedLines (l :: ls) = l ++ str "\n" ++ printedLines ls := by
  simp [printedLines]

theorem printedLines_append (xs ys : List GoString) :
    printedLines (xs ++ ys) = printedLines xs ++ printedLines ys := by
  simp [printedLines]

theorem printedLines_flatten (xss : List (List GoString)) :
    printedLines xss.flatten = (xss.map printedLines).flatten := by
  induction xss with
  | nil => rfl
  | cons xs xss ih => simp [printedLines_append, ih]

theorem contextLines_enumFrom (row : Int) (cs : List GoString) : ∀ i : Nat,
    ((cs.enumFrom i).map (fun ic => contextLine (row + (ic.1 : Int)) ic.2)).flatten =
      printedLines (specContextLines row i cs) := by
  induction cs with
  | nil => intro i; rfl
  | cons c cs ih =>
    intro i
    simp only [List.enumFrom_cons, List.map_cons, List.flatten_cons, specContextLines,
      printedLines_cons, ih (i + 1)]
    simp [contextLine]

theorem describeLink_eq (g : Graph) (l : Link) :
    describeLink g l = printedLines ((str "  " ++ (g.node l.«from»).path) ::
      specContextLines l.row 0 l.context) := by
  unfold describeLink
  rw [printedLines_cons, List.enum, contextLines_enumFrom]

/-- C13: `DescribeInbounds` on a node `n` writes exactly the line `<n.path> is mentioned
in`, then for each inbound link, in stored order, the line of two spaces and the path of
the link's source node, followed for the `i`-th context line `c` (`i` from 0) by the line of
four spaces, the number `row+i`, a colon, a space and `c`; nothing else. -/
theorem DescribeInbounds_output (g : Graph) (n : Nat) :
    DescribeInbounds g n = printedLines (specInboundLines g n) ∧
      specInboundLines graphTwoLines 1 =
        [str "b.md is mentioned in", str "  a.md", str "    1: x", str "    2: [a](b.md)"] := by
  refine ⟨?_, by decide⟩
  have hdr : str " is mentioned in\n" = str " is mentioned in" ++ str "\n" := by decide
  unfold DescribeInbounds specInboundLines
  rw [printedLines_cons, printedLines_flatten, List.map_map, hdr]
  simp only [List.append_assoc]
  congr 4
  apply List.map_congr_left
  intro l _
  exact describeLink_eq g (g.link l)

theorem WF.pointers_nodup {g : Graph} (h : WF g) : (g.nodes.map Prod.snd).Nodup := by
  apply List.Nodup.map_on _ (List.Nodup.of_map _ h.nodup)
  intro x hx y hy hxy
  have h1 := (h.registry x hx).2
  have h2 := (h.registry y hy).2
  rw [hxy] at h1
  exact Prod.ext (h1.symm.trans h2) hxy

theorem DescribeAllNodes_eq {g : Graph}
    (h : ∀ kv ∈ g.nodes, (g.node kv.2).path = kv.1) :
    ∀ order : List (GoString × Nat), order ⊆ g.nodes →
      DescribeAllNodes g order =
        (((order.filter (fun kv => decide (0 < (g.node kv.2).inLinks.length))).map
          (fun kv => DescribeInbounds g kv.2)).flatten, false) := by
  intro order
  induction order with
  | nil => intro _; rfl
  | cons kv rest ih =>
    intro hsub
    obtain ⟨path, node⟩ := kv
    have hkv := h (path, node) (hsub (List.mem_cons_self _ _))
    simp only [] at hkv
    unfold DescribeAllNodes
    rw [if_neg (by rw [hkv]; simp), ih (fun x hx => hsub (List.mem_cons_of_mem _ hx))]
    by_cases hin : 0 < (g.node node).inLinks.length
    · simp [List.filter_cons, hin]
    · simp [List.filter_cons, hin]

/-- C14: on a reachable graph, whose map is ranged over in some order of its entries,
`DescribeAllNodes` writes the reports, as written by `DescribeInbounds`, of the nodes that
have at least one inbound link and nothing else, and does not panic; every node with an
inbound link is reported, and is so once; a node without inbound links is not reported;
when no node has an inbound link nothing is written. -/
theorem DescribeAllNodes_output (g : Graph) (hg : Reachable g)
    (order : List (GoString × Nat)) (horder : order.Perm g.nodes) :
    DescribeAllNodes g order =
        (((order.filter (fun kv => decide (0 < (g.node kv.2).inLinks.length))).map
          (fun kv => DescribeInbounds g kv.2)).flatten, false) ∧
      ((order.filter (fun kv => decide (0 < (g.node kv.2).inLinks.length))).map
        Prod.snd).Nodup ∧
      (∀ p, p ∈ (order.filter (fun kv => decide (0 < (g.node kv.2).inLinks.length))).map
          Prod.snd ↔ p < g.nodeObjs.length ∧ 0 < (g.node p).inLinks.length) ∧
      ((∀ p, p < g.nodeObjs.length → (g.node p).inLinks = []) →
        (DescribeAllNodes g order).1 = []) := by
  have hw := hg.wf
  have heq := DescribeAllNodes_eq (fun kv hkv => (hw.registry kv hkv).2) order horder.subset
  have hmem : ∀ p, p ∈ (order.filter
      (fun kv => decide (0 < (g.node kv.2).inLinks.length))).map Prod.snd ↔
      p < g.nodeObjs.length ∧ 0 < (g.node p).inLinks.length := by
    intro p
    simp only [List.mem_map, List.mem_filter, decide_eq_true_eq]
    constructor
    · rintro ⟨kv, ⟨hkv, hin⟩, rfl⟩
      exact ⟨(hw.registry kv (horder.subset hkv)).1, hin⟩
    · rintro ⟨hp, hin⟩
      exact ⟨((g.node p).path, p), ⟨horder.symm.subset (hw.registered p hp), hin⟩, rfl⟩
  refine ⟨heq, ?_, hmem, ?_⟩
  · exact ((horder.map Prod.snd).nodup_iff.2 hw.pointers_nodup).sublist
      (List.Sublist.map _ (List.filter_sublist _))
  · intro hall
    rw [heq]
    have : order.filter (fun kv => decide (0 < (g.node kv.2).inLinks.length)) = [] := by
      rw [List.filter_eq_nil_iff]
      intro kv hkv
      have := hall kv.2 (hw.registry kv (horder.subset hkv)).1
      simp [this]
    rw [this]
    rfl

/-- C14 at the graph of the tree `walkTwoLines`, the map being ranged over backwards. -/
theorem DescribeAllNodes_output_witness :
    DescribeAllNodes graphTwoLines [(str "b.md", 1), (str "a.md", 0)] =
      (str "b.md is mentioned in\n  a.md\n    1: x\n    2: [a](b.md)\n", false) := by
  have hr : Reachable graphTwoLines := by
    have h : graphTwoLines = LinkTo (GetNode (GetNode Graph.empty (str "a.md")).1
        (str "b.md")).1 0 1 1 1 [str "x", str "[a](b.md)"] := by decide
    rw [h]
    exact Reachable.linkTo _ _ _ _ _ (Reachable.getNode _ (Reachable.getNode _ Reachable.empty))
      (by decide) (by decide)
  have h := (DescribeAllNodes_output graphTwoLines hr [(str "b.md", 1), (str "a.md", 0)]
    (by decide)).1
  rw [h]
  decide

/-! ## Results on the link-to option -/

/-- C12 (as stated, refuted): run with `-link-to a.md` on a tree whose only file `a.md` has
no link, so that the node `a.md` exists and has no inbound link, `main` writes the line
`a.md is mentioned in` and exits with status 0: the report is not empty.  Run with
`-link-to zzz.md` on the tree `walkTwoLines`, which has no node `zzz.md`, one scanned file
and two nodes, `main` writes `Visited files mismatch: ...`, not `No file found`. -/
theorem link_to_report_counterexample :
    (BuildGraph (str "/p") (envQueryNoInbound.walk (str "/p")) =
        .next ⟨⟨[(str "a.md", 0)], [⟨str "a.md", [], []⟩], []⟩, 1⟩ ∧
      main envQueryNoInbound = ⟨str "a.md is mentioned in\n", 0⟩) ∧
    (BuildGraph (str "/p") (envQueryAbsent.walk (str "/p")) = .next ⟨graphTwoLines, 1⟩ ∧
      graphTwoLines.lookup (str "zzz.md") = none ∧
      main envQueryAbsent =
        ⟨str "Visited files mismatch: 1 != 2 (# of graph nodes)\n", 1⟩) := by
  decide

/-- C12 (amended): when `BuildGraph` returns no error, the number of scanned files equals
the number of nodes and link-to, resolved against the working directory and made relative
to the root, is `key`: if `key` names a node without inbound links, `main` writes the single
line `<key> is mentioned in` and exits with status 0; if `key` names no node, `main` writes
`No file found: <key>` and exits with status 1. -/
theorem link_to_report (env : Env) (cwd key : GoString) (s : Build)
    (hwd : env.getwd = .ok cwd)
    (hbuild : BuildGraph (env.root.getD cwd) (env.walk (env.root.getD cwd)) = .next s)
    (hcount : s.nMDs = (s.graph.nodes.length : Int))
    (hlink : env.linkTo ≠ [])
    (hkey : Rel (env.root.getD cwd) (Join [cwd, str "./", env.linkTo]) = .ok key) :
    (∀ node, s.graph.lookup key = some node → (s.graph.node node).inLinks = [] →
        main env = ⟨key ++ str " is mentioned in\n", 0⟩) ∧
      (s.graph.lookup key = none →
        main env = ⟨str "No file found: " ++ key ++ str "\n", 1⟩) := by
  have hreach := (BuildGraph_inv (s := s) (by rw [hbuild]; rfl)).1
  have hlen : ¬ env.linkTo.length = 0 := by
    intro h; exact hlink (List.length_eq_zero.1 h)
  constructor
  · intro node hnode hin
    have hpath := (hreach.wf.registry (key, node) (lookup_mem hnode)).2
    simp only [] at hpath
    unfold main
    simp only [hwd, hbuild, hcount, hlen, hkey, hnode]
    simp [DescribeInbounds, hin, hpath]
  · intro hnone
    unfold main
    simp only [hwd, hbuild, hcount, hlen, hkey, hnone]
    simp

/-- C12 (amended) at a tree whose only file `a.md` has no link, with `-link-to a.md` and
with `-link-to zzz.md`. -/
theorem link_to_report_witness :
    main envQueryNoInbound = ⟨str "a.md" ++ str " is mentioned in\n", 0⟩ ∧
      main envQueryAbsentNoLinks = ⟨str "No file found: " ++ str "zzz.md" ++ str "\n", 1⟩ :=
  ⟨(link_to_report envQueryNoInbound (str "/p") (str "a.md")
      ⟨⟨[(str "a.md", 0)], [⟨str "a.md", [], []⟩], []⟩, 1⟩
      rfl (by decide) (by decide) (by decide) (by decide)).1 0 (by decide) (by decide),
    (link_to_report envQueryAbsentNoLinks (str "/p") (str "zzz.md")
      ⟨⟨[(str "a.md", 0)], [⟨str "a.md", [], []⟩], []⟩, 1⟩
      rfl (by decide) (by decide) (by decide) (by decide)).2 (by decide)⟩

/-! ## Loops, continued -/

theorem forEach_append {σ α : Type} (body : σ → α → Res σ) (xs ys : List α) : ∀ s,
    forEach body (xs ++ ys) s =
      match forEach body xs s with
      | .next s1 => forEach body ys s1
      | .stop s1 e => .stop s1 e
      | .panic => .panic := by
  induction xs with
  | nil => intro s; rfl
  | cons a as ih =>
    intro s
    simp only [List.cons_append, forEach]
    cases body s a with
    | next s1 => exact ih s1
    | stop s1 e => rfl
    | panic => rfl

theorem forEach_acc {σ α β : Type} (P : List β → σ → Prop) (h : α → List β)
    (body : σ → α → Res σ) (xs : List α)
    (step : ∀ a ∈ xs, ∀ acc s s1, P acc s → body s a = .next s1 → P (acc ++ h a) s1) :
    ∀ acc s s1, P acc s → forEach body xs s = .next s1 →
      P (acc ++ (xs.map h).flatten) s1 := by
  induction xs with
  | nil =>
    intro acc s s1 hs hr
    simp only [forEach, Res.next.injEq] at hr
    subst hr
    simpa using hs
  | cons a as ih =>
    intro acc s s1 hs hr
    unfold forEach at hr
    cases hb : body s a with
    | next s2 =>
      rw [hb] at hr
      have := ih (fun b hb2 => step b (List.mem_cons_of_mem _ hb2)) (acc ++ h a) s2 s1
        (step a (List.mem_cons_self _ _) acc s s2 hs hb) hr
      simpa using this
    | stop s2 e => rw [hb] at hr; cases hr
    | panic => rw [hb] at hr; cases hr

theorem forEach_stop_split {σ α : Type} (body : σ → α → Res σ) (xs : List α) :
    ∀ s s1 e, forEach body xs s = .stop s1 e →
      ∃ pre a post s0, xs = pre ++ a :: post ∧ forEach body pre s = .next s0 ∧
        body s0 a = .stop s1 e := by
  induction xs with
  | nil => intro s s1 e h; simp [forEach] at h
  | cons a as ih =>
    intro s s1 e h
    unfold forEach at h
    cases hb : body s a with
    | next s2 =>
      rw [hb] at h
      obtain ⟨pre, b, post, s0, hx, hp, hs⟩ := ih s2 s1 e h
      refine ⟨a :: pre, b, post, s0, by rw [hx]; rfl, ?_, hs⟩
      unfold forEach
      rw [hb]
      exact hp
    | stop s2 e2 =>
      rw [hb] at h
      simp only [Res.stop.injEq] at h
      exact ⟨[], a, as, s, rfl, rfl, by rw [hb, h.1, h.2]⟩
    | panic => rw [hb] at h; cases h

theorem forEach_next_iff {σ α : Type} (ok : α → Prop) (body : σ → α → Res σ) (xs : List α)
    (hb : ∀ a ∈ xs, ∀ s, (∃ s1, body s a = .next s1) ↔ ok a) :
    ∀ s, (∃ s1, forEach body xs s = .next s1) ↔ ∀ a ∈ xs, ok a := by
  induction xs with
  | nil => intro s; simp [forEach]
  | cons a as ih =>
    intro s
    have ha := hb a (List.mem_cons_self _ _) s
    have ih2 := ih (fun b hb2 => hb b (List.mem_cons_of_mem _ hb2))
    unfold forEach
    cases hr : body s a with
    | next s2 =>
      rw [hr] at ha
      simp only [List.forall_mem_cons]
      rw [ih2 s2]
      exact ⟨fun h => ⟨ha.1 ⟨s2, rfl⟩, h⟩, fun h => h.2⟩
    | stop s2 e =>
      rw [hr] at ha
      simp only [List.forall_mem_cons]
      constructor
      · rintro ⟨s1, h⟩; cases h
      · rintro ⟨h, _⟩
        obtain ⟨s1, h1⟩ := ha.2 h
        cases h1
    | panic =>
      rw [hr] at ha
      simp only [List.forall_mem_cons]
      constructor
      · rintro ⟨s1, h⟩; cases h
      · rintro ⟨h, _⟩
        obtain ⟨s1, h1⟩ := ha.2 h
        cases h1

/-! ## The edges of the built graph -/

theorem GetNode_keys_mem (g : Graph) (p k : GoString) :
    k ∈ (GetNode g p).1.keys ↔ k ∈ g.keys ∨ k = p := by
  unfold Graph.keys
  cases hl : g.lookup p with
  | some q =>
    rw [GetNode_of_lookup_some hl]
    constructor
    · intro h; exact Or.inl h
    · rintro (h | h)
      · exact h
      · rw [h]; exact List.mem_map.2 ⟨(p, q), lookup_mem hl, rfl⟩
  | none =>
    rw [GetNode_of_lookup_none hl]
    simp

theorem GetNode_nodes_subset (g : Graph) (p : GoString) :
    g.nodes ⊆ (GetNode g p).1.nodes := by
  intro kv hkv
  cases hl : g.lookup p with
  | some r => rw [GetNode_of_lookup_some hl]; exact hkv
  | none => rw [GetNode_of_lookup_none hl]; exact List.mem_append_left _ hkv

theorem edges_GetNode {g : Graph} (hw : WF g) (p : GoString) :
    (GetNode g p).1.edges = g.edges := by
  unfold Graph.edges
  rw [GetNode_linkObjs]
  apply List.map_congr_left
  intro l hl
  obtain ⟨i, hi, rfl⟩ := List.getElem_of_mem hl
  have he := hw.ends i hi
  have hli : g.link i = g.linkObjs[i] := by
    apply link_eq_of_getElem?
    exact List.getElem?_eq_getElem hi
  rw [hli] at he
  unfold Graph.edgeOf
  rw [GetNode_node g p he.1, GetNode_node g p he.2]

theorem edges_LinkTo (g : Graph) (n another : Nat) (row col : Int) (context : List GoString) :
    (LinkTo g n another row col context).edges =
      g.edges ++ [⟨(g.node n).path, (g.node another).path, row, col, context⟩] := by
  unfold Graph.edges
  rw [LinkTo_linkObjs, List.map_append]
  congr 1
  · apply List.map_congr_left
    intro l _
    unfold Graph.edgeOf
    simp only [LinkTo_node]
  · simp only [List.map_cons, List.map_nil, Graph.edgeOf, LinkTo_node]

/-- The graph after a link to the node with key `dst` was recorded at node `node`. -/
theorem record_spec {g : Graph} (hr : Reachable g) {node : Nat} (hnode : node < g.nodeObjs.length)
    (dst : GoString) (row col : Int) (context : List GoString) :
    Reachable (LinkTo (GetNode g dst).1 node (GetNode g dst).2 row col context) ∧
      (LinkTo (GetNode g dst).1 node (GetNode g dst).2 row col context).edges =
        g.edges ++ [⟨(g.node node).path, dst, row, col, context⟩] ∧
      (∀ k, k ∈ (LinkTo (GetNode g dst).1 node (GetNode g dst).2 row col context).keys ↔
        k ∈ g.keys ∨ k = dst) ∧
      node < (LinkTo (GetNode g dst).1 node (GetNode g dst).2
        row col context).nodeObjs.length ∧
      ((LinkTo (GetNode g dst).1 node (GetNode g dst).2 row col context).node node).path =
        (g.node node).path := by
  have hw := hr.wf
  have hv := GetNode_valid hw dst
  have hnode1 : node < (GetNode g dst).1.nodeObjs.length :=
    Nat.lt_of_lt_of_le hnode (GetNode_length_le g dst)
  refine ⟨Reachable.linkTo _ _ _ _ _ (Reachable.getNode dst hr) hnode1 hv.1, ?_, ?_, ?_, ?_⟩
  · rw [edges_LinkTo, edges_GetNode hw, GetNode_node g dst hnode, hv.2]
  · intro k
    have : (LinkTo (GetNode g dst).1 node (GetNode g dst).2 row col context).keys =
        (GetNode g dst).1.keys := rfl
    rw [this, GetNode_keys_mem]
  · rw [LinkTo_length]; exact hnode1
  · rw [LinkTo_node, GetNode_node g dst hnode]

theorem linkBody_next_iff (rootDir curPath : GoString) (lines : List GoString) (node row : Nat)
    (text : GoString) (locs : List Int) (g g1 : Graph) :
    linkBody rootDir curPath lines node row text g locs = .next g1 ↔
      matchOk rootDir curPath lines row text locs ∧
        ∃ dst, targetKey rootDir curPath (targetText text locs) = .ok dst ∧
          g1 = LinkTo (GetNode g dst).1 node (GetNode g dst).2 row (locs.getD 2 0)
            (window lines row) := by
  unfold linkBody matchOk targetKey targetText window
  by_cases h6 : locs.length = 6
  · rw [if_neg (by simp [h6])]
    cases hs : slice text (locs.getD 4 0) (locs.getD 5 0) with
    | none => simp
    | some target =>
      simp only [Option.getD_some, Option.isSome_some, true_and]
      cases QueryUnescape target with
      | error e => simp
      | ok pathOfLink =>
        simp only []
        cases Rel rootDir _ with
        | error e => simp
        | ok key =>
          cases hc : slice lines (contextStart row) (contextEnd lines.length row) with
          | none => simp
          | some context => simp [h6, eq_comm]
  · simp [h6]

theorem linkBody_acc (rootDir curPath key : GoString) (lines : List GoString) (node row : Nat)
    (text : GoString) (base : List Edge) (baseKeys : List GoString) (locs : List Int)
    (acc : List Edge) (g g1 : Graph) (hinv : FileInv key node base baseKeys acc g)
    (hres : linkBody rootDir curPath lines node row text g locs = .next g1) :
    FileInv key node base baseKeys
      (acc ++ matchEdges rootDir curPath key lines row text locs) g1 := by
  obtain ⟨hr, hedges, hkeys, hnode, hpath⟩ := hinv
  obtain ⟨_, dst, hk, hg1⟩ := (linkBody_next_iff ..).1 hres
  subst hg1
  unfold matchEdges
  rw [hk]
  obtain ⟨h1, h2, h3, h4, h5⟩ := record_spec hr hnode dst row (locs.getD 2 0) (window lines row)
  refine ⟨h1, ?_, ?_, h4, by rw [h5, hpath]⟩
  · rw [h2, hedges, hpath, List.append_assoc]
  · intro k
    rw [h3, hkeys]
    simp only [List.mem_append, List.mem_singleton]
    constructor
    · rintro ((h | ⟨e, he, hd⟩) | h)
      · exact Or.inl h
      · exact Or.inr ⟨e, Or.inl he, hd⟩
      · exact Or.inr ⟨_, Or.inr rfl, h.symm⟩
    · rintro (h | ⟨e, he | he, hd⟩)
      · exact Or.inl (Or.inl h)
      · exact Or.inl (Or.inr ⟨e, he, hd⟩)
      · right; rw [← hd, he]

theorem lineBody_acc (rootDir curPath key : GoString) (lines : List GoString) (node : Nat)
    (base : List Edge) (baseKeys : List GoString) (rl : Nat × GoString)
    (acc : List Edge) (g g1 : Graph) (hinv : FileInv key node base baseKeys acc g)
    (hres : lineBody rootDir curPath lines node g rl = .next g1) :
    FileInv key node base baseKeys (acc ++ lineEdges rootDir curPath key lines rl) g1 := by
  unfold lineBody at hres
  exact forEach_acc (FileInv key node base baseKeys)
    (matchEdges rootDir curPath key lines rl.1 rl.2) _ _
    (fun locs _ acc1 s s1 hs hr => linkBody_acc rootDir curPath key lines node rl.1 rl.2
      base baseKeys locs acc1 s s1 hs hr)
    acc g g1 hinv hres

theorem lines_acc (rootDir curPath key : GoString) (lines : List GoString) (node : Nat)
    (base : List Edge) (baseKeys : List GoString)
    (g g1 : Graph) (hinv : FileInv key node base baseKeys [] g)
    (hres : forEach (lineBody rootDir curPath lines node) lines.enum g = .next g1) :
    FileInv key node base baseKeys (linesEdges rootDir curPath key lines) g1 := by
  have := forEach_acc (FileInv key node base baseKeys)
    (lineEdges rootDir curPath key lines) _ _
    (fun rl _ acc1 s s1 hs hr => lineBody_acc rootDir curPath key lines node
      base baseKeys rl acc1 s s1 hs hr)
    [] g g1 hinv hres
  simpa [linesEdges] using this

theorem walkFn_acc (rootDir : GoString) (d : WalkEntry)
    (fs : List (GoString × List Edge)) (s s1 : Build) (hinv : WalkInv fs s)
    (hres : walkFn rootDir s d = .next s1) :
    WalkInv (fs ++ fileSummary rootDir d) s1 := by
  obtain ⟨hr, hedges, hkeys, hcount⟩ := hinv
  unfold walkFn at hres
  unfold fileSummary WalkEntry.scanned
  split at hres
  · cases hres
  · rename_i h1
    rw [h1]
    split at hres
    · rename_i h2
      simp only [Res.next.injEq] at hres; subst hres
      simp only [h2, Option.isNone_none, Bool.not_true, Bool.and_false, Bool.false_and,
        Bool.false_eq_true, if_false, List.append_nil]
      exact ⟨hr, hedges, hkeys, hcount⟩
    · rename_i h2
      split at hres
      · rename_i h3
        simp only [Res.next.injEq] at hres; subst hres
        have h3b : HasSuffix d.curPath (str ".md") = false := by simpa using h3
        simp only [h3b, Bool.and_false, Bool.false_eq_true, if_false, List.append_nil]
        exact ⟨hr, hedges, hkeys, hcount⟩
      · rename_i h3
        have h2b : d.isDir = false := by simpa using h2
        have h3b : HasSuffix d.curPath (str ".md") = true := by simpa using h3
        simp only [] at hres
        split at hres
        · cases hres
        · rename_i content hc
          split at hres
          · cases hres
          · rename_i key hkey
            have hw := hr.wf
            have hv := GetNode_valid hw key
            have hfile : FileInv key (GetNode s.graph key).2 s.graph.edges
                (s.graph.keys ++ [key]) [] (GetNode s.graph key).1 := by
              refine ⟨Reachable.getNode key hr, by rw [edges_GetNode hw]; simp, ?_, hv.1, hv.2⟩
              intro k
              rw [GetNode_keys_mem]
              simp
            split at hres
            · rename_i g1 hfe
              simp only [Res.next.injEq] at hres; subst hres
              obtain ⟨q1, q2, q3, _, _⟩ := lines_acc rootDir d.curPath key (splitLines content)
                _ _ _ _ g1 hfile hfe
              simp only [hc, hkey, h2b, h3b, Option.isNone_none, Bool.not_false, Bool.and_self,
                if_true]
              refine ⟨q1, ?_, ?_, ?_⟩
              · rw [q2, hedges]; simp
              · intro k
                rw [q3]
                simp only [List.mem_append, List.mem_singleton]
                rw [show (k ∈ s.graph.keys ↔ _) from hkeys k]
                constructor
                · rintro ((⟨f, hf, h⟩ | h) | ⟨e, he, hd⟩)
                  · exact ⟨f, Or.inl hf, h⟩
                  · exact ⟨_, Or.inr rfl, Or.inl h⟩
                  · exact ⟨_, Or.inr rfl, Or.inr ⟨e, he, hd⟩⟩
                · rintro ⟨f, hf | hf, h⟩
                  · exact Or.inl (Or.inl ⟨f, hf, h⟩)
                  · subst hf
                    rcases h with h | ⟨e, he, hd⟩
                    · exact Or.inl (Or.inr h)
                    · exact Or.inr ⟨e, he, hd⟩
              · simp only [List.length_append, List.length_singleton]
                rw [hcount]; push_cast; ring
            · cases hres
            · cases hres

theorem BuildGraph_summary (rootDir : GoString) (walk : List WalkEntry)
    (s : Build) (hres : BuildGraph rootDir walk = .next s) :
    WalkInv ((walk.map (fileSummary rootDir)).flatten) s := by
  unfold BuildGraph at hres
  have := forEach_acc WalkInv (fileSummary rootDir) (walkFn rootDir) walk
    (fun d _ fs s0 s1 hs hr => walkFn_acc rootDir d fs s0 s1 hs hr)
    [] ⟨Graph.empty, 0⟩ s
    ⟨Reachable.empty, rfl, by intro k; simp [Graph.keys, Graph.empty], rfl⟩ hres
  simpa using this

/-! ## Results on the number of nodes -/

theorem fileSummary_of_next {rootDir : GoString} {d : WalkEntry} {s s1 : Build}
    (h : walkFn rootDir s d = .next s1) (hd : d.scanned = true) :
    ∃ content key, d.content = .ok content ∧ Rel rootDir d.curPath = .ok key ∧
      fileSummary rootDir d =
        [(key, linesEdges rootDir d.curPath key (splitLines content))] := by
  unfold WalkEntry.scanned at hd
  simp only [Bool.and_eq_true, Option.isNone_iff_eq_none, Bool.not_eq_true'] at hd
  obtain ⟨⟨h1, h2⟩, h3⟩ := hd
  unfold walkFn at h
  simp only [h1, h2, h3, Bool.false_eq_true, if_false, Bool.not_true] at h
  cases hc : d.content with
  | error e => rw [hc] at h; cases h
  | ok content =>
    cases hk : Rel rootDir d.curPath with
    | error e => rw [hc] at h; simp only [hk] at h; cases h
    | ok key =>
      refine ⟨content, key, rfl, rfl, ?_⟩
      unfold fileSummary WalkEntry.scanned
      simp [h1, h2, h3, hc, hk]

theorem forEach_next_all {σ α : Type} (Q : α → Prop) (body : σ → α → Res σ) (xs : List α)
    (hb : ∀ a ∈ xs, ∀ s s1, body s a = .next s1 → Q a) :
    ∀ s s1, forEach body xs s = .next s1 → ∀ a ∈ xs, Q a := by
  induction xs with
  | nil => intro s s1 _ a ha; simp at ha
  | cons x xs ih =>
    intro s s1 h a ha
    unfold forEach at h
    cases hr : body s x with
    | next s2 =>
      rw [hr] at h
      rcases List.mem_cons.1 ha with rfl | ha
      · exact hb _ (List.mem_cons_self _ _) s s2 hr
      · exact ih (fun b hb2 => hb b (List.mem_cons_of_mem _ hb2)) s2 s1 h a ha
    | stop s2 e => rw [hr] at h; cases h
    | panic => rw [hr] at h; cases h

theorem summaries_of_next {rootDir : GoString} {walk : List WalkEntry} {s : Build}
    (h : BuildGraph rootDir walk = .next s) :
    ∀ d ∈ walk, d.scanned = true → ∃ content key, d.content = .ok content ∧
      Rel rootDir d.curPath = .ok key ∧
      fileSummary rootDir d =
        [(key, linesEdges rootDir d.curPath key (splitLines content))] := by
  unfold BuildGraph at h
  exact forEach_next_all
    (fun d => d.scanned = true → ∃ content key, d.content = .ok content ∧
      Rel rootDir d.curPath = .ok key ∧
      fileSummary rootDir d =
        [(key, linesEdges rootDir d.curPath key (splitLines content))])
    _ walk (fun d _ s0 s1 hr hd => fileSummary_of_next hr hd) _ s h

theorem fileSummary_of_not_scanned {rootDir : GoString} {d : WalkEntry}
    (h : d.scanned = false) : fileSummary rootDir d = [] := by
  unfold fileSummary
  simp [h]

/-- The keys of the summaries of a walk on which `BuildGraph` returns no error are the keys
of its scanned entries, in order. -/
theorem summary_keys_of_next {rootDir : GoString} :
    ∀ (walk : List WalkEntry),
      (∀ d ∈ walk, d.scanned = true → ∃ content key, d.content = .ok content ∧
        Rel rootDir d.curPath = .ok key ∧
        fileSummary rootDir d =
          [(key, linesEdges rootDir d.curPath key (splitLines content))]) →
      ((walk.map (fileSummary rootDir)).flatten.map
          (fun f => (Except.ok f.1 : Except Err GoString))) =
        (walk.filter WalkEntry.scanned).map (fun d => Rel rootDir d.curPath) := by
  intro walk
  induction walk with
  | nil => intro _; rfl
  | cons d ds ih =>
    intro h
    have ih2 := ih (fun x hx => h x (List.mem_cons_of_mem _ hx))
    by_cases hd : d.scanned = true
    · obtain ⟨content, key, _, hk, hs⟩ := h d (List.mem_cons_self _ _) hd
      simp only [List.map_cons, List.flatten_cons, List.map_append, hs, List.filter_cons, hd,
        if_true, ih2, hk, List.map_nil, List.singleton_append]
    · have hd2 : d.scanned = false := by simpa using hd
      simp only [List.map_cons, List.flatten_cons, fileSummary_of_not_scanned hd2,
        List.nil_append, List.filter_cons, hd2, Bool.false_eq_true, if_false, ih2]

theorem lookup_of_mem_nodup {m : List (GoString × Nat)} {k : GoString} {p : Nat}
    (h : (k, p) ∈ m) (hnd : (m.map Prod.fst).Nodup) : m.lookup k = some p := by
  induction m with
  | nil => simp at h
  | cons kv rest ih =>
    obtain ⟨k1, p1⟩ := kv
    simp only [List.map_cons, List.nodup_cons] at hnd
    rcases List.mem_cons.1 h with h1 | h2
    · simp only [Prod.mk.injEq] at h1
      obtain ⟨rfl, rfl⟩ := h1
      simp [List.lookup]
    · have hne : k ≠ k1 := by
        intro hk
        exact hnd.1 (List.mem_map.2 ⟨(k, p), h2, hk⟩)
      have hb : (k == k1) = false := by simpa using hne
      simp only [List.lookup, hb]
      exact ih h2 hnd.2

/-- C11: when `BuildGraph` returns no error, the number of scanned files it returns is the
number of entries of the walk that it scanned (called without error, no directory, path
ending in `.md`); each of them, with or without links, has a node in the graph, registered
under and carrying its root-relative path; and when these paths are pairwise distinct,
the number of nodes is at least the number of scanned files. -/
theorem node_count_ge_files_scanned (rootDir : GoString) (walk : List WalkEntry) (s : Build)
    (hbuild : BuildGraph rootDir walk = .next s)
    (hdistinct : ((walk.filter WalkEntry.scanned).map (fun d => Rel rootDir d.curPath)).Nodup) :
    s.nMDs = ((walk.filter WalkEntry.scanned).length : Int) ∧
      (∀ d ∈ walk, d.scanned = true → ∃ key, Rel rootDir d.curPath = .ok key ∧
        ∃ node, s.graph.lookup key = some node ∧ node < s.graph.nodeObjs.length ∧
          (s.graph.node node).path = key) ∧
      s.nMDs ≤ (s.graph.nodes.length : Int) := by
  obtain ⟨hr, _, hkeys, hcount⟩ := BuildGraph_summary rootDir walk s hbuild
  have hsum := summaries_of_next hbuild
  have hmap := summary_keys_of_next walk hsum
  have hlen : ((walk.map (fileSummary rootDir)).flatten).length =
      (walk.filter WalkEntry.scanned).length := by
    have := congrArg List.length hmap
    rw [List.length_map, List.length_map] at this
    exact this
  have hw := hr.wf
  have hkeymem : ∀ d ∈ walk, d.scanned = true → ∃ key, Rel rootDir d.curPath = .ok key ∧
      key ∈ s.graph.keys := by
    intro d hd hsc
    obtain ⟨content, key, _, hk, hs⟩ := hsum d hd hsc
    refine ⟨key, hk, (hkeys key).2
      ⟨(key, linesEdges rootDir d.curPath key (splitLines content)), ?_, Or.inl rfl⟩⟩
    exact List.mem_flatten.2 ⟨_, List.mem_map.2 ⟨d, hd, rfl⟩, by rw [hs]; simp⟩
  refine ⟨by rw [hcount, hlen], ?_, ?_⟩
  · intro d hd hsc
    obtain ⟨key, hk, hmem⟩ := hkeymem d hd hsc
    refine ⟨key, hk, ?_⟩
    obtain ⟨kv, hkv, hfst⟩ := List.mem_map.1 hmem
    obtain ⟨k, node⟩ := kv
    simp only [] at hfst
    subst hfst
    have hreg := hw.registry (k, node) hkv
    exact ⟨node, lookup_of_mem_nodup hkv hw.nodup, hreg.1, hreg.2⟩
  · rw [hcount, hlen]
    have hnd : ((walk.map (fileSummary rootDir)).flatten.map
        (fun f => (Except.ok f.1 : Except Err GoString))).Nodup := by rw [hmap]; exact hdistinct
    have hnd2 : ((walk.map (fileSummary rootDir)).flatten.map Prod.fst).Nodup := by
      have := List.Nodup.of_map (fun k : GoString => (Except.ok k : Except Err GoString))
        (by rw [List.map_map]; exact hnd)
      exact this
    have hsub : (walk.map (fileSummary rootDir)).flatten.map Prod.fst ⊆ s.graph.keys := by
      intro k hk
      obtain ⟨f, hf, rfl⟩ := List.mem_map.1 hk
      exact (hkeys f.1).2 ⟨f, hf, Or.inl rfl⟩
    have := (List.subperm_of_subset hnd2 hsub).length_le
    simp only [List.length_map, Graph.keys] at this
    rw [← hlen]
    exact_mod_cast this

/-- C11 at the tree `walkTwoLines`, with one scanned file and two nodes, and at a tree whose
only file has no link. -/
theorem node_count_ge_files_scanned_witness :
    (1 : Int) ≤ ((graphTwoLines.nodes.length : Nat) : Int) ∧
      ∀ d ∈ walkNoLinks, d.scanned = true → ∃ key, Rel (str "/p") d.curPath = .ok key ∧
        ∃ node, Graph.lookup ⟨[(str "a.md", 0)], [⟨str "a.md", [], []⟩], []⟩ key = some node ∧
          node < 1 ∧
          (Graph.node ⟨[(str "a.md", 0)], [⟨str "a.md", [], []⟩], []⟩ node).path = key :=
  ⟨(node_count_ge_files_scanned (str "/p") walkTwoLines ⟨graphTwoLines, 1⟩
      (by decide) (by decide)).2.2,
    (node_count_ge_files_scanned (str "/p") walkNoLinks
      ⟨⟨[(str "a.md", 0)], [⟨str "a.md", [], []⟩], []⟩, 1⟩ (by decide) (by decide)).2.1⟩

/-! ## Results on the order of the walk -/

theorem lines_next_iff (rootDir curPath : GoString) (lines : List GoString) (node : Nat)
    (g : Graph) :
    (∃ g1, forEach (lineBody rootDir curPath lines node) lines.enum g = .next g1) ↔
      ∀ rl ∈ lines.enum, ∀ locs ∈ FindAllStringSubmatchIndex rl.2,
        matchOk rootDir curPath lines rl.1 rl.2 locs := by
  refine forEach_next_iff
    (fun rl : Nat × GoString => ∀ locs ∈ FindAllStringSubmatchIndex rl.2,
      matchOk rootDir curPath lines rl.1 rl.2 locs) _ _ ?_ g
  intro rl _ g0
  unfold lineBody
  refine forEach_next_iff (fun locs => matchOk rootDir curPath lines rl.1 rl.2 locs) _ _ ?_ g0
  intro locs _ g2
  constructor
  · rintro ⟨g3, h⟩
    exact ((linkBody_next_iff ..).1 h).1
  · intro h
    obtain ⟨dst, hdst⟩ := h.2.2.2
    exact ⟨_, (linkBody_next_iff ..).2 ⟨h, dst, hdst, rfl⟩⟩

theorem walkFn_next_iff (rootDir : GoString) (d : WalkEntry) (s : Build) :
    (∃ s1, walkFn rootDir s d = .next s1) ↔ entryOk rootDir d := by
  unfold walkFn entryOk
  cases h1 : d.err with
  | some e => simp
  | none =>
    simp only [true_and]
    by_cases h2 : d.isDir = true
    · simp [h2]
    · have h2b : d.isDir = false := by simpa using h2
      by_cases h3 : HasSuffix d.curPath (str ".md") = true
      · simp only [h2b, h3, Bool.false_eq_true, if_false, Bool.not_true, false_or]
        cases hc : d.content with
        | error e => simp
        | ok content =>
          cases hk : Rel rootDir d.curPath with
          | error e => simp
          | ok key =>
            have hl := lines_next_iff rootDir d.curPath (splitLines content)
              (GetNode s.graph key).2 (GetNode s.graph key).1
            constructor
            · rintro ⟨s1, h⟩
              right
              refine ⟨content, key, rfl, rfl, hl.1 ?_⟩
              simp only [] at h
              split at h
              · rename_i g1 hg1; exact ⟨g1, hg1⟩
              · cases h
              · cases h
            · rintro (h | ⟨content2, key2, hc2, hk2, h⟩)
              · cases h
              · simp only [Except.ok.injEq] at hc2 hk2
                subst hc2 hk2
                obtain ⟨g1, hg1⟩ := hl.2 h
                simp only []
                rw [hg1]
                exact ⟨_, rfl⟩
      · have h3b : HasSuffix d.curPath (str ".md") = false := by simpa using h3
        simp [h2b, h3b]

theorem BuildGraph_next_iff (rootDir : GoString) (walk : List WalkEntry) :
    (∃ s, BuildGraph rootDir walk = .next s) ↔ ∀ d ∈ walk, entryOk rootDir d := by
  unfold BuildGraph
  exact forEach_next_iff (entryOk rootDir) _ walk
    (fun d _ s => walkFn_next_iff rootDir d s) _

theorem fileSummary_edges (rootDir : GoString) (d : WalkEntry) :
    ((fileSummary rootDir d).map Prod.snd).flatten = fileEdges rootDir d := by
  unfold fileSummary fileEdges
  split
  · split <;> simp
  · rfl

theorem summary_edges (rootDir : GoString) (walk : List WalkEntry) :
    (((walk.map (fileSummary rootDir)).flatten).map Prod.snd).flatten =
      walkEdges rootDir walk := by
  unfold walkEdges
  induction walk with
  | nil => rfl
  | cons d ds ih =>
    simp only [List.map_cons, List.flatten_cons, List.map_append, List.flatten_append, ih,
      fileSummary_edges]

/-- The edges of the graph that `BuildGraph` returns without error are the edges of the
files of the walk, file after file and in document order. -/
theorem BuildGraph_edges {rootDir : GoString} {walk : List WalkEntry} {s : Build}
    (h : BuildGraph rootDir walk = .next s) : s.graph.edges = walkEdges rootDir walk := by
  rw [(BuildGraph_summary rootDir walk s h).2.1, summary_edges]

/-- C18 (amended): when `BuildGraph` returns no error for a walk, it returns no error for
every other order of the same entries, and the two graphs have the same edges (source path,
target path, row, column, and context), up to their order, the same keys, the same number of
nodes, and the same number of scanned files; `BuildGraph` is a function, so that building
twice from the same walk gives the same result. -/
theorem edges_independent_of_order (rootDir : GoString) (walk1 walk2 : List WalkEntry)
    (hperm : walk1.Perm walk2) (s1 : Build) (h1 : BuildGraph rootDir walk1 = .next s1) :
    ∃ s2, BuildGraph rootDir walk2 = .next s2 ∧
      s1.graph.edges.Perm s2.graph.edges ∧
      (∀ src dst row col,
        (∃ e ∈ s1.graph.edges, e.src = src ∧ e.dst = dst ∧ e.row = row ∧ e.col = col) ↔
        (∃ e ∈ s2.graph.edges, e.src = src ∧ e.dst = dst ∧ e.row = row ∧ e.col = col)) ∧
      (∀ k, k ∈ s1.graph.keys ↔ k ∈ s2.graph.keys) ∧
      s1.graph.nodes.length = s2.graph.nodes.length ∧
      s1.nMDs = s2.nMDs ∧
      (∀ s, BuildGraph rootDir walk1 = .next s → s = s1) := by
  have hok := (BuildGraph_next_iff rootDir walk1).1 ⟨s1, h1⟩
  obtain ⟨s2, h2⟩ := (BuildGraph_next_iff rootDir walk2).2
    (fun d hd => hok d (hperm.symm.subset hd))
  obtain ⟨hr1, he1, hk1, hc1⟩ := BuildGraph_summary rootDir walk1 s1 h1
  obtain ⟨hr2, he2, hk2, hc2⟩ := BuildGraph_summary rootDir walk2 s2 h2
  have hfs : ((walk1.map (fileSummary rootDir)).flatten).Perm
      ((walk2.map (fileSummary rootDir)).flatten) := (hperm.map _).flatten
  have hedges : s1.graph.edges.Perm s2.graph.edges := by
    rw [he1, he2]
    exact (hfs.map _).flatten
  have hkeys : ∀ k, k ∈ s1.graph.keys ↔ k ∈ s2.graph.keys := by
    intro k
    rw [hk1, hk2]
    constructor
    · rintro ⟨f, hf, h⟩; exact ⟨f, hfs.subset hf, h⟩
    · rintro ⟨f, hf, h⟩; exact ⟨f, hfs.symm.subset hf, h⟩
  refine ⟨s2, h2, hedges, ?_, hkeys, ?_, ?_, ?_⟩
  · intro src dst row col
    constructor
    · rintro ⟨e, he, h⟩; exact ⟨e, hedges.subset he, h⟩
    · rintro ⟨e, he, h⟩; exact ⟨e, hedges.symm.subset he, h⟩
  · have hp : s1.graph.keys.Perm s2.graph.keys :=
      (List.perm_ext_iff_of_nodup hr1.wf.nodup hr2.wf.nodup).2 hkeys
    have := hp.length_eq
    simpa [Graph.keys] using this
  · rw [hc1, hc2, hfs.length_eq]
  · intro s hs
    rw [h1] at hs
    simp only [Res.next.injEq] at hs
    exact hs.symm

/-! ## Results on the outbound links of a file -/

theorem link_default {g : Graph} {l : Nat} (h : g.linkObjs.length ≤ l) :
    g.link l = ⟨0, 0, 0, 0, []⟩ := by
  unfold Graph.link
  exact List.getD_eq_default _ _ h

/-- In a reachable graph the `outLinks` of a node are the links that start at it, in the
order of their allocation. -/
theorem Reachable.outLinks_eq {g : Graph} (h : Reachable g) : ∀ p,
    (g.node p).outLinks =
      (List.range g.linkObjs.length).filter (fun l => decide ((g.link l).«from» = p)) := by
  induction h with
  | empty => intro p; simp [Graph.empty, Graph.node]
  | @getNode g path hr ih =>
    intro p
    have hw := hr.wf
    rw [GetNode_linkObjs]
    have hfil : (List.range g.linkObjs.length).filter
        (fun l => decide (((GetNode g path).1.link l).«from» = p)) =
        (List.range g.linkObjs.length).filter (fun l => decide ((g.link l).«from» = p)) := by
      apply List.filter_congr
      intro l _
      rw [GetNode_link]
    rw [hfil]
    by_cases hp : p < g.nodeObjs.length
    · rw [GetNode_node g path hp]; exact ih p
    · have hempty : (List.range g.linkObjs.length).filter
          (fun l => decide ((g.link l).«from» = p)) = [] := by
        rw [List.filter_eq_nil_iff]
        intro l hl
        have := (hw.ends l (List.mem_range.1 hl)).1
        simp only [decide_eq_true_eq]
        omega
      rw [hempty]
      cases hl : g.lookup path with
      | some q =>
        rw [GetNode_of_lookup_some hl, node_default (Nat.le_of_not_lt hp)]
      | none =>
        rw [GetNode_of_lookup_none hl]
        by_cases he : p = g.nodeObjs.length
        · have : (⟨g.nodes ++ [(path, g.nodeObjs.length)], g.nodeObjs ++ [⟨path, [], []⟩],
              g.linkObjs⟩ : Graph).node p = ⟨path, [], []⟩ := by
            apply node_eq_of_getElem?; rw [he]; simp
          rw [this]
        · rw [node_default (by simp only [List.length_append, List.length_singleton]; omega)]
  | @linkTo g n another row col context hr hn ha ih =>
    intro p
    rw [LinkTo_node, LinkTo_linkObjs, List.length_append, List.length_singleton,
      List.range_succ, List.filter_append, ih p]
    show _ ++ _ = _ ++ _
    congr 1
    · apply List.filter_congr
      intro l hl
      rw [LinkTo_link_old _ _ _ _ _ _ (List.mem_range.1 hl)]
    · rw [List.filter_singleton, LinkTo_link_new]
      by_cases hpn : p = n
      · subst hpn; simp [hn]
      · have : ¬ n = p := fun h => hpn h.symm
        simp [hpn, this]

theorem range_map_link (g : Graph) :
    (List.range g.linkObjs.length).map g.link = g.linkObjs := by
  apply List.ext_getElem?
  intro i
  by_cases hi : i < g.linkObjs.length
  · rw [List.getElem?_map, List.getElem?_range hi, Option.map_some', getElem?_link hi]
  · rw [List.getElem?_eq_none (by simpa using hi), List.getElem?_eq_none (by simpa using hi)]

theorem WF.pointer_of_path {g : Graph} (hw : WF g) {p q : Nat} (hp : p < g.nodeObjs.length)
    (hq : q < g.nodeObjs.length) (h : (g.node p).path = (g.node q).path) : p = q := by
  have h1 := lookup_of_mem_nodup (hw.registered p hp) hw.nodup
  have h2 := lookup_of_mem_nodup (hw.registered q hq) hw.nodup
  rw [h] at h1
  rw [h1] at h2
  exact Option.some.inj h2

/-- In a reachable graph the edges that the `outLinks` of a node stand for are the edges of
the graph whose source is the path of the node, in the order of the graph. -/
theorem Reachable.outLinks_edges {g : Graph} (hr : Reachable g) {p : Nat}
    (hp : p < g.nodeObjs.length) :
    (g.node p).outLinks.map (fun l => g.edgeOf (g.link l)) =
      g.edges.filter (fun e => decide (e.src = (g.node p).path)) := by
  have hw := hr.wf
  have h1 : g.edges = (List.range g.linkObjs.length).map (fun l => g.edgeOf (g.link l)) := by
    unfold Graph.edges
    conv_lhs => rw [← range_map_link g]
    rw [List.map_map]
    rfl
  rw [hr.outLinks_eq p, h1, List.filter_map]
  congr 1
  apply List.filter_congr
  intro l hl
  have hl2 := List.mem_range.1 hl
  simp only [Function.comp, Graph.edgeOf]
  by_cases h : (g.link l).«from» = p
  · simp [h]
  · have : ¬ (g.node (g.link l).«from»).path = (g.node p).path :=
      fun hc => h (hw.pointer_of_path (hw.ends l hl2).1 hp hc)
    simp [h, this]

theorem findAllFrom_ge {locs : List Int} :
    ∀ (s : GoString) (pos skip : Nat), locs ∈ findAllFrom pos skip s →
      ∃ off n1 n2, locs = locsAt off n1 n2 ∧ pos + skip ≤ off := by
  intro s
  induction s with
  | nil => intro pos skip h; simp [findAllFrom] at h
  | cons c cs ih =>
    intro pos skip h
    cases skip with
    | succ skip =>
      rw [findAllFrom] at h
      obtain ⟨off, n1, n2, h1, h2⟩ := ih _ _ h
      exact ⟨off, n1, n2, h1, by omega⟩
    | zero =>
      rw [findAllFrom] at h
      split at h
      · rename_i n1 n2 hm
        rw [List.mem_cons] at h
        rcases h with h | h
        · exact ⟨pos, n1, n2, h, by omega⟩
        · obtain ⟨off, m1, m2, h1, h2⟩ := ih _ _ h
          exact ⟨off, m1, m2, h1, by omega⟩
      · obtain ⟨off, m1, m2, h1, h2⟩ := ih _ _ h
        exact ⟨off, m1, m2, h1, by omega⟩

/-- The matches on a line do not overlap and are in the order of their offsets: a match ends
where the next one starts, or before. -/
theorem findAllFrom_pairwise :
    ∀ (s : GoString) (pos skip : Nat),
      (findAllFrom pos skip s).Pairwise (fun a b => a.getD 1 0 ≤ b.getD 0 0) := by
  intro s
  induction s with
  | nil => intro pos skip; simp [findAllFrom]
  | cons c cs ih =>
    intro pos skip
    cases skip with
    | succ skip => rw [findAllFrom]; exact ih _ _
    | zero =>
      rw [findAllFrom]
      split
      · rename_i n1 n2 hm
        rw [List.pairwise_cons]
        refine ⟨?_, ih _ _⟩
        intro b hb
        obtain ⟨off, m1, m2, h1, h2⟩ := findAllFrom_ge cs _ _ hb
        rw [h1]
        simp only [locsAt, List.getD_cons_succ, List.getD_cons_zero]
        omega
      · exact ih _ _

theorem enumFrom_pairwise {α : Type} (l : List α) : ∀ n,
    (l.enumFrom n).Pairwise (fun a b => a.1 < b.1) := by
  induction l with
  | nil => intro n; simp
  | cons x xs ih =>
    intro n
    rw [List.enumFrom_cons, List.pairwise_cons]
    refine ⟨?_, ih (n + 1)⟩
    intro b hb
    obtain ⟨i, y⟩ := b
    have := (List.mem_enumFrom hb).1
    simp only []
    omega

/-- Along the matches of a file the rows do not decrease, and within one row the columns
(the offsets of capture group 1) increase. -/
theorem fileMatches_pairwise (lines : List GoString) :
    (fileMatches lines).Pairwise (fun a b =>
      a.1 ≤ b.1 ∧ (a.1 = b.1 → a.2.getD 2 0 < b.2.getD 2 0)) := by
  unfold fileMatches
  rw [List.pairwise_flatten]
  constructor
  · intro l hl
    obtain ⟨rl, _, rfl⟩ := List.mem_map.1 hl
    rw [List.pairwise_map]
    have hp := findAllFrom_pairwise rl.2 0 0
    refine List.Pairwise.imp_of_mem ?_ hp
    intro a b ha hb hab
    refine ⟨le_refl _, fun _ => ?_⟩
    obtain ⟨o1, n1, n2, h1, _⟩ := findAllFrom_ge rl.2 0 0 ha
    obtain ⟨o2, m1, m2, h2, _⟩ := findAllFrom_ge rl.2 0 0 hb
    rw [h1, h2] at hab ⊢
    simp only [locsAt, List.getD_cons_succ, List.getD_cons_zero] at hab ⊢
    omega
  · rw [List.pairwise_map]
    refine List.Pairwise.imp ?_ (enumFrom_pairwise lines 0)
    intro a b hab x hx y hy
    obtain ⟨la, _, rfl⟩ := List.mem_map.1 hx
    obtain ⟨lb, _, rfl⟩ := List.mem_map.1 hy
    simp only []
    exact ⟨by omega, fun h => by omega⟩

theorem fileMatches_length (lines : List GoString) :
    (fileMatches lines).length =
      (lines.map (fun text => (FindAllStringSubmatchIndex text).length)).sum := by
  unfold fileMatches
  rw [List.length_flatten, List.map_map]
  congr 1
  have : ∀ n, List.map (List.length ∘ fun rl : Nat × GoString =>
      (FindAllStringSubmatchIndex rl.2).map (fun locs => (rl.1, locs))) (lines.enumFrom n) =
      lines.map (fun text => (FindAllStringSubmatchIndex text).length) := by
    induction lines with
    | nil => intro n; rfl
    | cons x xs ih => intro n; simp [List.enumFrom_cons, ih (n + 1)]
  exact this 0

theorem map_flatten_singletons {α β γ : Type} (F : α → List β) (f : β → γ) (G : α → γ) :
    ∀ l : List α, (∀ a ∈ l, (F a).map f = [G a]) → ((l.map F).flatten).map f = l.map G := by
  intro l
  induction l with
  | nil => intro _; rfl
  | cons a as ih =>
    intro h
    simp only [List.map_cons, List.flatten_cons, List.map_append,
      h a (List.mem_cons_self _ _), ih (fun b hb => h b (List.mem_cons_of_mem _ hb)),
      List.singleton_append]

theorem map_flatten_lists {α β γ : Type} (F : α → List β) (f : β → γ) (G : α → List γ) :
    ∀ l : List α, (∀ a ∈ l, (F a).map f = G a) →
      ((l.map F).flatten).map f = (l.map G).flatten := by
  intro l
  induction l with
  | nil => intro _; rfl
  | cons a as ih =>
    intro h
    simp only [List.map_cons, List.flatten_cons, List.map_append,
      h a (List.mem_cons_self _ _), ih (fun b hb => h b (List.mem_cons_of_mem _ hb))]

/-- When the key of every link target of a file can be computed, the rows and columns of the
edges of the file are those of its matches, in document order. -/
theorem linesEdges_rows_cols (rootDir curPath key : GoString) (lines : List GoString)
    (hok : ∀ rl ∈ lines.enum, ∀ locs ∈ FindAllStringSubmatchIndex rl.2,
      ∃ dst, targetKey rootDir curPath (targetText rl.2 locs) = .ok dst) :
    (linesEdges rootDir curPath key lines).map (fun e => (e.row, e.col)) =
      (fileMatches lines).map (fun m => ((m.1 : Int), m.2.getD 2 0)) := by
  unfold linesEdges fileMatches
  have hL := map_flatten_lists (lineEdges rootDir curPath key lines)
    (fun e : Edge => (e.row, e.col))
    (fun rl : Nat × GoString => (FindAllStringSubmatchIndex rl.2).map
      (fun locs => ((rl.1 : Int), locs.getD 2 0))) lines.enum (by
      intro rl hrl
      unfold lineEdges
      apply map_flatten_singletons
      intro locs hlocs
      obtain ⟨dst, hdst⟩ := hok rl hrl locs hlocs
      unfold matchEdges
      rw [hdst]
      rfl)
  have hR := map_flatten_lists
    (fun rl : Nat × GoString => (FindAllStringSubmatchIndex rl.2).map (fun locs => (rl.1, locs)))
    (fun m : Nat × List Int => ((m.1 : Int), m.2.getD 2 0))
    (fun rl : Nat × GoString => (FindAllStringSubmatchIndex rl.2).map
      (fun locs => ((rl.1 : Int), locs.getD 2 0))) lines.enum (by
      intro rl _
      rw [List.map_map]
      rfl)
  rw [hL, hR]

theorem linesEdges_src (rootDir curPath key : GoString) (lines : List GoString) :
    ∀ e ∈ linesEdges rootDir curPath key lines, e.src = key := by
  intro e he
  unfold linesEdges at he
  obtain ⟨l, hl, hel⟩ := List.mem_flatten.1 he
  obtain ⟨rl, _, rfl⟩ := List.mem_map.1 hl
  unfold lineEdges at hel
  obtain ⟨l2, hl2, hel2⟩ := List.mem_flatten.1 hel
  obtain ⟨locs, _, rfl⟩ := List.mem_map.1 hl2
  unfold matchEdges at hel2
  split at hel2
  · simp at hel2
  · simp only [List.mem_singleton] at hel2
    rw [hel2]

theorem fileEdges_src {rootDir : GoString} {d : WalkEntry} {e : Edge}
    (he : e ∈ fileEdges rootDir d) :
    d.scanned = true ∧ Rel rootDir d.curPath = .ok e.src := by
  unfold fileEdges at he
  split at he
  · rename_i hs
    split at he
    · rename_i content key hc hk
      rw [linesEdges_src _ _ _ _ e he]
      exact ⟨hs, hk⟩
    · simp at he
  · simp at he

theorem walkEdges_filter_other {rootDir key : GoString} (walk : List WalkEntry)
    (h : ∀ d ∈ walk, d.scanned = true → Rel rootDir d.curPath ≠ .ok key) :
    (walkEdges rootDir walk).filter (fun e => decide (e.src = key)) = [] := by
  rw [List.filter_eq_nil_iff]
  intro e he
  unfold walkEdges at he
  obtain ⟨l, hl, hel⟩ := List.mem_flatten.1 he
  obtain ⟨d, hd, rfl⟩ := List.mem_map.1 hl
  obtain ⟨hs, hk⟩ := fileEdges_src hel
  simp only [decide_eq_true_eq]
  intro hc
  rw [hc] at hk
  exact h d hd hs hk

/-! ## Results on the shape, order and completeness of the matches -/

theorem matchTarget_shape : ∀ (s : GoString) (n : Nat), matchTarget s = some n →
    byte '(' ∉ s.take n ∧ str ".md" <:+ s.take n ∧ s[n]? = some (byte ')') := by
  intro s
  induction s with
  | nil => intro n h; simp [matchTarget] at h
  | cons c cs ih =>
    intro n h
    have hstop : (if (str ".md)").isPrefixOf (c :: cs) then some 3 else none) = some n →
        byte '(' ∉ (c :: cs).take n ∧ str ".md" <:+ (c :: cs).take n ∧
          (c :: cs)[n]? = some (byte ')') := by
      intro h1
      split at h1
      · rename_i hp
        rw [List.isPrefixOf_iff_prefix] at hp
        obtain ⟨rest, hrest⟩ := hp
        simp only [Option.some.injEq] at h1
        subst h1
        rw [← hrest]
        have e : str ".md)" = str ".md" ++ [byte ')'] := by decide
        have l3 : (str ".md").length = 3 := by decide
        rw [e, List.append_assoc]
        refine ⟨?_, ?_, ?_⟩
        · rw [List.take_left' l3]; decide
        · rw [List.take_left' l3]
        · rw [List.getElem?_append_right (by rw [l3]), l3]; simp
      · cases h1
    unfold matchTarget at h
    simp only [] at h
    split at h
    · rename_i hc
      split at h
      · rename_i m hm
        simp only [Option.some.injEq] at h
        subst h
        obtain ⟨h1, h2, h3⟩ := ih m hm
        refine ⟨?_, ?_, ?_⟩
        · simp only [List.take_succ_cons, List.mem_cons, not_or]
          exact ⟨fun hh => hc hh.symm, h1⟩
        · simp only [List.take_succ_cons]
          exact h2.trans (List.suffix_cons _ _)
        · simpa using h3
      · exact hstop h
    · exact hstop h

theorem matchClose_shape {s : GoString} {n : Nat} (h : matchClose s = some n) :
    ∃ rest, s = byte ']' :: byte '(' :: rest ∧ matchTarget rest = some n := by
  unfold matchClose at h
  split at h
  · rename_i a b rest
    split at h
    · rename_i hab
      exact ⟨rest, by rw [hab.1, hab.2], h⟩
    · cases h
  · cases h

theorem matchDisplay_shape : ∀ (s : GoString) (n1 n2 : Nat), matchDisplay s = some (n1, n2) →
    byte '[' ∉ s.take n1 ∧
      ∃ rest, s.drop n1 = byte ']' :: byte '(' :: rest ∧ matchTarget rest = some n2 := by
  intro s
  induction s with
  | nil => intro n1 n2 h; simp [matchDisplay] at h
  | cons c cs ih =>
    intro n1 n2 h
    have hstop : (matchClose (c :: cs)).map (fun n2 => (0, n2)) = some (n1, n2) →
        byte '[' ∉ (c :: cs).take n1 ∧
          ∃ rest, (c :: cs).drop n1 = byte ']' :: byte '(' :: rest ∧
            matchTarget rest = some n2 := by
      intro h1
      cases hm : matchClose (c :: cs) with
      | none => rw [hm] at h1; cases h1
      | some m =>
        rw [hm] at h1
        simp only [Option.map_some', Option.some.injEq, Prod.mk.injEq] at h1
        obtain ⟨rfl, rfl⟩ := h1
        obtain ⟨rest, hr, ht⟩ := matchClose_shape hm
        exact ⟨by simp, rest, by simpa using hr, ht⟩
    unfold matchDisplay at h
    simp only [] at h
    split at h
    · rename_i hc
      split at h
      · rename_i m1 m2 hm
        simp only [Option.some.injEq, Prod.mk.injEq] at h
        obtain ⟨rfl, rfl⟩ := h
        obtain ⟨h1, rest, h2, h3⟩ := ih m1 m2 hm
        refine ⟨?_, rest, by simpa using h2, h3⟩
        simp only [List.take_succ_cons, List.mem_cons, not_or]
        exact ⟨fun hh => hc hh.symm, h1⟩
      · exact hstop h
    · exact hstop h

/-- The shape of a match of the whole pattern at the start of `s`: `[`, a display text
without `[`, `](`, a target without `(` that ends in `.md`, and `)`. -/
theorem matchHere_shape {s : GoString} {n1 n2 : Nat} (h : matchHere s = some (n1, n2)) :
    ∃ d t rest, s = byte '[' :: (d ++ (str "](" ++ (t ++ byte ')' :: rest))) ∧
      d.length = n1 ∧ t.length = n2 ∧ byte '[' ∉ d ∧ byte '(' ∉ t ∧ str ".md" <:+ t := by
  cases s with
  | nil => simp [matchHere] at h
  | cons c cs =>
    simp only [matchHere] at h
    split at h
    · rename_i hc
      obtain ⟨h1, r, h2, h3⟩ := matchDisplay_shape cs n1 n2 h
      obtain ⟨h4, h5, h6⟩ := matchTarget_shape r n2 h3
      have hb1 := matchDisplay_bound cs n1 n2 h
      have hb2 := matchTarget_bound r n2 h3
      have hr : r = r.take n2 ++ byte ')' :: r.drop (n2 + 1) := by
        conv_lhs => rw [← List.take_append_drop n2 r]
        congr 1
        rw [List.drop_eq_getElem_cons (by omega)]
        congr 1
        have := List.getElem?_eq_getElem (l := r) (n := n2) (by omega)
        rw [this] at h6
        exact Option.some.inj h6
      refine ⟨cs.take n1, r.take n2, r.drop (n2 + 1), ?_, ?_, ?_, h1, h4, h5⟩
      · rw [hc]
        congr 1
        conv_lhs => rw [← List.take_append_drop n1 cs, h2]
        have e : str "](" = [byte ']', byte '('] := by decide
        rw [e]
        simp only [List.cons_append, List.nil_append]
        rw [← hr]
      · rw [List.length_take]; omega
      · rw [List.length_take]; omega
    · cases h

theorem firstOf_nil (a b : UInt8) : firstOf a b [] := by
  intro n h; simp at h

theorem firstOf_cons_self {a b : UInt8} (hab : a ≠ b) (y : GoString) : firstOf a b (a :: y) := by
  intro n h
  cases n with
  | zero => simp at h; exact absurd h hab
  | succ n => simp

theorem firstOf_append {a b : UInt8} {x y : GoString} (hx : b ∉ x) (hy : firstOf a b y) :
    firstOf a b (x ++ y) := by
  intro n h
  by_cases hn : n < x.length
  · rw [List.getElem?_append_left hn] at h
    exact absurd (List.mem_iff_getElem?.mpr ⟨n, h⟩) hx
  · rw [List.getElem?_append_right (by omega)] at h
    rw [List.take_append_eq_append_take]
    exact List.mem_append_right _ (hy _ h)

theorem matchTarget_none {s : GoString}
    (h : ∀ n, 3 ≤ n → s[n]? = some (byte ')') → byte '(' ∈ s.take n) : matchTarget s = none := by
  cases hm : matchTarget s with
  | none => rfl
  | some n =>
    obtain ⟨h1, h2, h3⟩ := matchTarget_shape s n hm
    have hl := h2.length_le
    have hb := matchTarget_bound s n hm
    rw [List.length_take, show (str ".md").length = 3 by decide] at hl
    exact absurd (h n (by omega) h3) h1

theorem matchTarget_link (y : GoString) (hy : firstOf (byte '(') (byte ')') y) :
    ∀ u : GoString, byte '(' ∉ u →
      matchTarget (u ++ (str ".md" ++ byte ')' :: y)) = some (u.length + 3) := by
  intro u
  induction u with
  | nil =>
    intro _
    have e : [] ++ (str ".md" ++ byte ')' :: y) =
        byte '.' :: (str "md)" ++ y) := by
      rw [show str ".md" = [byte '.', byte 'm', byte 'd'] by decide,
        show str "md)" = [byte 'm', byte 'd', byte ')'] by decide]
      rfl
    have hn : matchTarget (str "md)" ++ y) = none := by
      apply matchTarget_none
      intro n hn h
      have l3 : (str "md)").length = 3 := by decide
      rw [List.getElem?_append_right (by omega), l3] at h
      rw [List.take_append_eq_append_take, l3]
      exact List.mem_append_right _ (hy _ h)
    rw [e]
    unfold matchTarget
    simp only []
    rw [hn]
    have hp : (str ".md)").isPrefixOf (byte '.' :: (str "md)" ++ y)) = true := by
      rw [List.isPrefixOf_iff_prefix]
      refine ⟨y, ?_⟩
      rw [show str ".md)" = [byte '.', byte 'm', byte 'd', byte ')'] by decide,
        show str "md)" = [byte 'm', byte 'd', byte ')'] by decide]
      rfl
    rw [hp, if_pos (by decide)]
    rfl
  | cons c u ih =>
    intro hu
    simp only [List.mem_cons, not_or] at hu
    rw [List.cons_append]
    unfold matchTarget
    simp only []
    rw [ih hu.2, if_pos (fun h => hu.1 h.symm)]
    simp

theorem matchDisplay_none {s : GoString} (h : firstOf (byte '[') (byte ']') s) :
    matchDisplay s = none := by
  cases hm : matchDisplay s with
  | none => rfl
  | some p =>
    obtain ⟨n1, n2⟩ := p
    obtain ⟨h1, rest, h2, _⟩ := matchDisplay_shape s n1 n2 hm
    have h3 : s[n1]? = some (byte ']') := by
      have := congrArg (fun l => l[0]?) h2
      simpa using this
    exact absurd (h n1 h3) h1

theorem matchDisplay_link (t y : GoString) (ht1 : byte '(' ∉ t) (ht2 : byte ']' ∉ t)
    (ht3 : str ".md" <:+ t) (hy1 : firstOf (byte '(') (byte ')') y)
    (hy2 : firstOf (byte '[') (byte ']') y) :
    ∀ d : GoString, byte '[' ∉ d →
      matchDisplay (d ++ (str "](" ++ (t ++ byte ')' :: y))) = some (d.length, t.length) := by
  obtain ⟨u, rfl⟩ := ht3
  have hu : byte '(' ∉ u := fun h => ht1 (List.mem_append_left _ h)
  have hT : matchTarget (u ++ str ".md" ++ byte ')' :: y) = some (u ++ str ".md").length := by
    rw [List.append_assoc, matchTarget_link y hy1 u hu, List.length_append]
    rfl
  intro d
  induction d with
  | nil =>
    intro _
    have e : [] ++ (str "](" ++ (u ++ str ".md" ++ byte ')' :: y)) =
        byte ']' :: byte '(' :: (u ++ str ".md" ++ byte ')' :: y) := by
      rw [show str "](" = [byte ']', byte '('] by decide]
      rfl
    have hn : matchDisplay (byte '(' :: (u ++ str ".md" ++ byte ')' :: y)) = none := by
      apply matchDisplay_none
      have : byte '(' :: (u ++ str ".md" ++ byte ')' :: y) =
          (byte '(' :: (u ++ str ".md" ++ [byte ')'])) ++ y := by simp
      rw [this]
      apply firstOf_append _ hy2
      simp only [List.mem_cons, List.mem_append, List.mem_singleton, not_or]
      refine ⟨by decide, ⟨?_, ?_⟩, by decide⟩
      · exact fun h => ht2 (List.mem_append_left _ h)
      · decide

    rw [e]
    unfold matchDisplay
    simp only []
    rw [hn, if_pos (by decide)]
    simp only [matchClose, and_self, if_true, hT]
    rfl
  | cons c d ih =>
    intro hd
    simp only [List.mem_cons, not_or] at hd
    rw [List.cons_append]
    unfold matchDisplay
    simp only []
    rw [ih hd.2, if_pos (fun h => hd.1 h.symm)]
    simp

theorem findAllFrom_skip_plain : ∀ (x : GoString) (pos : Nat) (s : GoString), byte '[' ∉ x →
    findAllFrom pos 0 (x ++ s) = findAllFrom (pos + x.length) 0 s := by
  intro x
  induction x with
  | nil => intro pos s _; rfl
  | cons c x ih =>
    intro pos s hx
    simp only [List.mem_cons, not_or] at hx
    rw [List.cons_append, findAllFrom]
    have : matchHere (c :: (x ++ s)) = none := by
      simp only [matchHere]
      rw [if_neg (fun h => hx.1 h.symm)]
    rw [this]
    simp only []
    rw [ih (pos + 1) s hx.2, List.length_cons]
    congr 1
    omega

theorem findAllFrom_skip : ∀ (x : GoString) (pos : Nat) (s : GoString),
    findAllFrom pos x.length (x ++ s) = findAllFrom (pos + x.length) 0 s := by
  intro x
  induction x with
  | nil => intro pos s; rfl
  | cons c x ih =>
    intro pos s
    rw [List.cons_append, List.length_cons, findAllFrom, ih (pos + 1) s]
    congr 1
    omega

theorem linksLine_first (links : List (GoString × GoString × GoString))
    (h : simpleLinks links) :
    firstOf (byte '(') (byte ')') (linksLine links) ∧
      firstOf (byte '[') (byte ']') (linksLine links) := by
  cases links with
  | nil => exact ⟨firstOf_nil _ _, firstOf_nil _ _⟩
  | cons l rest =>
    obtain ⟨⟨_, hd⟩, _, _⟩ := h l (List.mem_cons_self _ _)
    constructor
    · have e : linksLine (l :: rest) = (byte '[' :: (l.1 ++ [byte ']'])) ++
          (byte '(' :: (l.2.1 ++ [byte ')'] ++ (l.2.2 ++ linksLine rest))) := by
        rw [linksLine, linkText, show str "](" = [byte ']', byte '('] by decide]
        simp
      rw [e]
      apply firstOf_append _ (firstOf_cons_self (by decide) _)
      simp only [List.mem_cons, List.mem_append, List.mem_singleton, not_or]
      exact ⟨by decide, hd, by decide⟩
    · exact firstOf_cons_self (by decide) _

theorem findAllFrom_linksLine : ∀ (links : List (GoString × GoString × GoString)) (pos : Nat),
    simpleLinks links → findAllFrom pos 0 (linksLine links) = linksMatches pos links := by
  intro links
  induction links with
  | nil => intro pos _; rfl
  | cons l rest ih =>
    intro pos h
    obtain ⟨⟨hd1, _⟩, ⟨ht1, ht2, ht3⟩, ha1, ha2, ha3⟩ := h l (List.mem_cons_self _ _)
    have hrest : simpleLinks rest := fun l1 h1 => h l1 (List.mem_cons_of_mem _ h1)
    obtain ⟨hr1, hr2⟩ := linksLine_first rest hrest
    have hy1 := firstOf_append ha3 hr1
    have hy2 := firstOf_append ha2 hr2
    have hm := matchDisplay_link l.2.1 (l.2.2 ++ linksLine rest) ht1 ht2 ht3 hy1 hy2 l.1 hd1
    have e : linksLine (l :: rest) = byte '[' ::
        (l.1 ++ (str "](" ++ (l.2.1 ++ byte ')' :: (l.2.2 ++ linksLine rest)))) := by
      simp [linksLine, linkText]
    have e2 : l.1 ++ (str "](" ++ (l.2.1 ++ byte ')' :: (l.2.2 ++ linksLine rest))) =
        (l.1 ++ (str "](" ++ (l.2.1 ++ [byte ')']))) ++ (l.2.2 ++ linksLine rest) := by
      simp
    have hlen : (l.1 ++ (str "](" ++ (l.2.1 ++ [byte ')']))).length =
        l.1.length + l.2.1.length + 3 := by
      simp only [List.length_append, List.length_singleton, show (str "](").length = 2 by decide]
      omega
    rw [e, findAllFrom]
    simp only [matchHere, if_true, hm]
    rw [linksMatches, e2, ← hlen, findAllFrom_skip, findAllFrom_skip_plain _ _ _ ha1, ih _ hrest,
      hlen]
    congr 2
    omega

/-- Completeness of the extractor on lines made of simple links. -/
theorem FindAll_linksLine (before : GoString) (links : List (GoString × GoString × GoString))
    (hb : byte '[' ∉ before) (hl : simpleLinks links) :
    FindAllStringSubmatchIndex (before ++ linksLine links) = linksMatches before.length links := by
  unfold FindAllStringSubmatchIndex
  rw [findAllFrom_skip_plain before 0 _ hb, findAllFrom_linksLine links _ hl, Nat.zero_add]

theorem targetText_linksLine : ∀ (links : List (GoString × GoString × GoString))
    (before : GoString),
    (linksMatches before.length links).map (targetText (before ++ linksLine links)) =
      links.map (fun l => l.2.1) := by
  intro links
  induction links with
  | nil => intro before; rfl
  | cons l rest ih =>
    intro before
    simp only [linksMatches, List.map_cons]
    congr 1
    · simp only [targetText, locsAt, List.getD_cons_succ, List.getD_cons_zero]
      rw [slice_eq_some (by omega) (by omega)]
      · simp only [Option.getD_some, Int.toNat_ofNat]
        have e : before ++ linksLine (l :: rest) =
            (before ++ (byte '[' :: (l.1 ++ str "]("))) ++
              (l.2.1 ++ (byte ')' :: (l.2.2 ++ linksLine rest))) := by
          simp [linksLine, linkText]
        have hlen : (before ++ (byte '[' :: (l.1 ++ str "]("))).length =
            before.length + l.1.length + 3 := by
          simp only [List.length_append, List.length_cons, show (str "](").length = 2 by decide]
          omega
        rw [e, ← hlen, List.drop_left, hlen]
        rw [show before.length + l.1.length + 3 + l.2.1.length -
          (before.length + l.1.length + 3) = l.2.1.length by omega]
        rw [List.take_left]
      · simp only [linksLine, linkText, List.length_append, List.length_cons,
          show (str "](").length = 2 by decide, List.length_nil]
        push_cast
        omega
    · have e : before ++ linksLine (l :: rest) =
          (before ++ (linkText l.1 l.2.1 ++ l.2.2)) ++ linksLine rest := by
        simp [linksLine]
      have hlen : (before ++ (linkText l.1 l.2.1 ++ l.2.2)).length =
          before.length + (l.1.length + l.2.1.length + 4) + l.2.2.length := by
        simp only [linkText, List.length_append, List.length_cons,
          show (str "](").length = 2 by decide, List.length_nil]
        omega
      rw [e, ← hlen]
      exact ih _

theorem slice_middle {α : Type} (pre mid rest : List α) :
    slice (pre ++ (mid ++ rest)) (pre.length : Int) ((pre.length + mid.length : Nat) : Int) =
      some mid := by
  rw [slice_eq_some (by omega) (by push_cast; omega)
    (by simp only [List.length_append]; push_cast; omega)]
  simp only [Int.toNat_ofNat, List.drop_left, Nat.add_sub_cancel_left, List.take_left]

theorem FindAll_shape {text : GoString} {locs : List Int}
    (h : locs ∈ FindAllStringSubmatchIndex text) :
    ∃ pre d t rest, locs = locsAt pre.length d.length t.length ∧
      text = pre ++ (linkText d t ++ rest) ∧
      byte '[' ∉ d ∧ byte '(' ∉ t ∧ str ".md" <:+ t := by
  obtain ⟨k, n1, n2, h1, h2⟩ := findAllFrom_mem text 0 0 h
  obtain ⟨d, t, rest, hs, rfl, rfl, hd, ht, hmd⟩ := matchHere_shape h2
  have hk : k ≤ text.length := by
    by_contra hk
    rw [List.drop_eq_nil_of_le (by omega)] at hs
    cases hs
  refine ⟨text.take k, d, t, rest, ?_, ?_, hd, ht, hmd⟩
  · rw [h1, List.length_take, Nat.min_eq_left hk, Nat.zero_add]
  · conv_lhs => rw [← List.take_append_drop k text, hs]
    simp [linkText]

theorem FindAll_pairwise (text : GoString) :
    (FindAllStringSubmatchIndex text).Pairwise
      (fun a b => a.getD 0 0 < b.getD 0 0 ∧ a.getD 1 0 ≤ b.getD 0 0) := by
  refine List.Pairwise.imp_of_mem ?_ (findAllFrom_pairwise text 0 0)
  intro a b ha _ hab
  obtain ⟨off, n1, n2, rfl, _⟩ := FindAll_mem ha
  refine ⟨lt_of_lt_of_le ?_ hab, hab⟩
  simp only [locsAt, List.getD_cons_succ, List.getD_cons_zero]
  omega

/-- Claim C17, as it fails: each of `[a](x.md)` and `[b.md)](z.md)` is matched when alone on a
line, but the line `[a](x.md)[b.md)](z.md)` made of the two yields one match, with target
`x.md)[b.md`; and on `[a](x.md) or y.md) [b](z.md)` the first target is `x.md) or y.md`. -/
theorem extractor_matches_counterexample :
    FindAllStringSubmatchIndex (str "[a](x.md)") = [[0, 9, 1, 2, 4, 8]] ∧
    FindAllStringSubmatchIndex (str "[b.md)](z.md)") = [[0, 13, 1, 6, 8, 12]] ∧
    FindAllStringSubmatchIndex (str "[a](x.md)[b.md)](z.md)") = [[0, 15, 1, 2, 4, 14]] ∧
    (FindAllStringSubmatchIndex (str "[a](x.md)[b.md)](z.md)")).map
      (targetText (str "[a](x.md)[b.md)](z.md)")) = [str "x.md)[b.md"] ∧
    (FindAllStringSubmatchIndex (str "[a](x.md) or y.md) [b](z.md)")).map
      (targetText (str "[a](x.md) or y.md) [b](z.md)")) = [str "x.md) or y.md", str "z.md"] := by
  decide

/-- Claim C17 (amended): every match reported on a line is the text `[d](t)` of a link whose
display text `d` contains no `[` and whose target `t` contains no `(` and ends in `.md`, the
index sextuple giving the spans of the match, of `d` and of `t`; the matches of a line start at
strictly increasing offsets and do not overlap; and a line made of a text without `[` and of
links that are each followed by a text without `[`, `]`, `)`, where no display text contains
`[` or `)` and no target contains `(` or `]`, yields exactly the matches of those links, with
their targets. -/
theorem extractor_matches (before : GoString) (links : List (GoString × GoString × GoString))
    (hb : byte '[' ∉ before) (hl : simpleLinks links) :
    (∀ text, ∀ locs ∈ FindAllStringSubmatchIndex text, ∃ pre d t rest,
      locs = locsAt pre.length d.length t.length ∧ text = pre ++ (linkText d t ++ rest) ∧
      slice text (locs.getD 0 0) (locs.getD 1 0) = some (linkText d t) ∧
      slice text (locs.getD 2 0) (locs.getD 3 0) = some d ∧
      slice text (locs.getD 4 0) (locs.getD 5 0) = some t ∧
      byte '[' ∉ d ∧ byte '(' ∉ t ∧ str ".md" <:+ t) ∧
    (∀ text, (FindAllStringSubmatchIndex text).Pairwise
      (fun a b => a.getD 0 0 < b.getD 0 0 ∧ a.getD 1 0 ≤ b.getD 0 0)) ∧
    FindAllStringSubmatchIndex (before ++ linksLine links) =
      linksMatches before.length links ∧
    (FindAllStringSubmatchIndex (before ++ linksLine links)).map
      (targetText (before ++ linksLine links)) = links.map (fun l => l.2.1) := by
  refine ⟨?_, FindAll_pairwise, FindAll_linksLine before links hb hl, ?_⟩
  · intro text locs h
    obtain ⟨pre, d, t, rest, h1, h2, h3, h4, h5⟩ := FindAll_shape h
    refine ⟨pre, d, t, rest, h1, h2, ?_, ?_, ?_, h3, h4, h5⟩
    · have := slice_middle pre (linkText d t) rest
      rw [h1, h2]
      simp only [locsAt, List.getD_cons_succ, List.getD_cons_zero]
      convert this using 2
      simp only [linkText, List.length_append, List.length_cons, List.length_nil,
        show (str "](").length = 2 by decide]
      push_cast
      omega
    · have := slice_middle (pre ++ [byte '[']) d (str "](" ++ (t ++ [byte ')']) ++ rest)
      rw [h1, h2]
      simp only [locsAt, List.getD_cons_succ, List.getD_cons_zero]
      convert this using 2
      · simp [linkText]
      · simp
      · simp only [List.length_append, List.length_singleton]
    · have := slice_middle (pre ++ (byte '[' :: (d ++ str "]("))) t (byte ')' :: rest)
      rw [h1, h2]
      simp only [locsAt, List.getD_cons_succ, List.getD_cons_zero]
      convert this using 2
      · simp [linkText]
      · simp only [List.length_append, List.length_cons, show (str "](").length = 2 by decide]
        push_cast
        omega
      · simp only [List.length_append, List.length_cons, show (str "](").length = 2 by decide]
        push_cast
        omega
  · rw [FindAll_linksLine before links hb hl]
    exact targetText_linksLine links before

/-- Witness for C17: the line `[a](x.md) and [b](y.md)` yields its two links, with the targets
`x.md` and `y.md`. -/
theorem extractor_matches_witness :
    byte '[' ∉ ([] : GoString) ∧
    simpleLinks [(str "a", str "x.md", str " and "), (str "b", str "y.md", [])] ∧
    FindAllStringSubmatchIndex (str "[a](x.md) and [b](y.md)") =
      [[0, 9, 1, 2, 4, 8], [14, 23, 15, 16, 18, 22]] ∧
    (FindAllStringSubmatchIndex (str "[a](x.md) and [b](y.md)")).map
      (targetText (str "[a](x.md) and [b](y.md)")) = [str "x.md", str "y.md"] :=
  ⟨by decide, by decide,
    (extractor_matches [] [(str "a", str "x.md", str " and "), (str "b", str "y.md", [])]
      (by decide) (by decide)).2.2.1,
    (extractor_matches [] [(str "a", str "x.md", str " and "), (str "b", str "y.md", [])]
      (by decide) (by decide)).2.2.2⟩

/-! ## The element-matching loop of filepath.Rel -/

theorem ups_cleanStep (r : Bool) (st : List GoString) (e : GoString) :
    ups st ≤ ups (cleanStep r st e) := by
  unfold cleanStep ups
  split
  · exact le_refl _
  · split
    · rename_i he
      cases st with
      | nil => simp only []; split <;> simp
      | cons l rest =>
        simp only []
        split
        · rename_i hl
          rw [List.count_cons_of_ne (fun h => hl h.symm)]
        · split
          · exact le_refl _
          · exact List.count_le_count_cons _ _ _
    · exact List.count_le_count_cons _ _ _

theorem ups_foldl (r : Bool) (es : List GoString) : ∀ st,
    ups st ≤ ups (es.foldl (cleanStep r) st) := by
  induction es with
  | nil => intro st; exact le_refl _
  | cons e es ih => intro st; exact le_trans (ups_cleanStep r st e) (ih _)

theorem okStack_reverse_ups {r : Bool} : ∀ st, okStack r st →
    ∀ i, st.reverse[i]? = some (str "..") ↔ i < ups st := by
  intro st
  induction st with
  | nil => intro _ i; simp [ups]
  | cons e rest ih =>
    intro h i
    obtain ⟨_, _, _, h4, h5⟩ := h
    by_cases he : e = str ".."
    · obtain ⟨_, hall⟩ := h4 he
      have hrep : e :: rest = List.replicate (rest.length + 1) (str "..") := by
        rw [List.eq_replicate_iff]
        refine ⟨by simp, ?_⟩
        intro x hx
        rcases List.mem_cons.1 hx with rfl | hx
        · exact he
        · exact hall x hx
      rw [hrep, List.reverse_replicate]
      unfold ups
      rw [List.count_replicate_self, List.getElem?_replicate]
      split <;> simp [*]
    · have hu : ups (e :: rest) = ups rest := by
        unfold ups
        rw [List.count_cons_of_ne (fun h => he h.symm)]
      have hle : ups rest ≤ rest.length := List.count_le_length _ _
      rw [hu, List.reverse_cons]
      by_cases hi : i < rest.length
      · rw [List.getElem?_append_left (by simpa using hi)]
        exact ih h5 i
      · rw [List.getElem?_append_right (by simpa using hi)]
        simp only [List.length_reverse]
        constructor
        · intro hget
          cases hk : i - rest.length with
          | zero =>
            rw [hk] at hget
            simp only [List.getElem?_cons_zero, Option.some.injEq] at hget
            exact absurd hget he
          | succ k => rw [hk] at hget; simp at hget
        · intro hlt; omega

theorem intercalate_cons_cons (x y : GoString) (zs : List GoString) :
    [sep].intercalate (x :: y :: zs) = x ++ sep :: [sep].intercalate (y :: zs) := by
  simp [List.intercalate]

theorem takeWhile_elem (x rest : GoString) (h : sep ∉ x) :
    (x ++ sep :: rest).takeWhile (fun c => c ≠ sep) = x ∧
      (x ++ sep :: rest).dropWhile (fun c => c ≠ sep) = sep :: rest := by
  induction x with
  | nil => simp
  | cons c cs ih =>
    simp only [List.mem_cons, not_or] at h
    have hc : c ≠ sep := fun hh => h.1 hh.symm
    obtain ⟨h1, h2⟩ := ih h.2
    simp only [List.cons_append]
    rw [List.takeWhile_cons_of_pos (by simpa using hc),
      List.dropWhile_cons_of_pos (by simpa using hc), h1, h2]
    exact ⟨rfl, rfl⟩

theorem takeWhile_last (x : GoString) (h : sep ∉ x) :
    x.takeWhile (fun c => c ≠ sep) = x ∧ x.dropWhile (fun c => c ≠ sep) = [] := by
  induction x with
  | nil => simp
  | cons c cs ih =>
    simp only [List.mem_cons, not_or] at h
    have hc : c ≠ sep := fun hh => h.1 hh.symm
    obtain ⟨h1, h2⟩ := ih h.2
    rw [List.takeWhile_cons_of_pos (by simpa using hc),
      List.dropWhile_cons_of_pos (by simpa using hc), h1, h2]
    exact ⟨rfl, rfl⟩

theorem intercalate_head (x : GoString) (xs : List GoString) (h : sep ∉ x) :
    ([sep].intercalate (x :: xs)).takeWhile (fun c => c ≠ sep) = x ∧
      (([sep].intercalate (x :: xs)).dropWhile (fun c => c ≠ sep)).drop 1 =
        [sep].intercalate xs := by
  cases xs with
  | nil =>
    have e : [sep].intercalate [x] = x := by simp [List.intercalate]
    rw [e, (takeWhile_last x h).1, (takeWhile_last x h).2]
    exact ⟨rfl, rfl⟩
  | cons y zs =>
    rw [intercalate_cons_cons, (takeWhile_elem x _ h).1, (takeWhile_elem x _ h).2]
    exact ⟨rfl, rfl⟩

theorem intercalate_ne_nil (x : GoString) (xs : List GoString) (h : x ≠ []) :
    [sep].intercalate (x :: xs) ≠ [] := by
  cases xs with
  | nil => simpa [List.intercalate] using h
  | cons y zs => rw [intercalate_cons_cons]; simp

/-- When the element-matching loop of `filepath.Rel` stops at a base element `..`, the
target has another element at that place. -/
theorem relLoop_dotdot : ∀ (fuel : Nat) (xs ys : List GoString),
    (∀ e ∈ xs, sep ∉ e ∧ e ≠ []) → (∀ e ∈ ys, sep ∉ e ∧ e ≠ []) →
    (relLoop fuel ([sep].intercalate xs) ([sep].intercalate ys)).2.2 = str ".." →
    ∃ i : Nat, xs[i]? = some (str "..") ∧ ys[i]? ≠ some (str "..") := by
  intro fuel
  induction fuel with
  | zero => intro xs ys _ _ h; simp only [relLoop] at h; exact absurd h (by decide)
  | succ fuel ih =>
    intro xs ys hx hy h
    cases xs with
    | nil =>
      simp only [relLoop, List.intercalate, List.intersperse, List.flatten_nil,
        if_true] at h
      exact absurd h (by decide)
    | cons x xs =>
      obtain ⟨hx1, hx2⟩ := hx x (List.mem_cons_self _ _)
      have hb := intercalate_ne_nil x xs hx2
      cases ys with
      | nil =>
        unfold relLoop at h
        rw [if_neg hb] at h
        simp only [] at h
        rw [(intercalate_head x xs hx1).1,
          if_pos (Or.inl (by simp [List.intercalate]))] at h
        simp only [] at h
        exact ⟨0, by simp [h], by simp⟩
      | cons y ys =>
        obtain ⟨hy1, hy2⟩ := hy y (List.mem_cons_self _ _)
        have ht := intercalate_ne_nil y ys hy2
        unfold relLoop at h
        rw [if_neg hb] at h
        simp only [] at h
        rw [(intercalate_head x xs hx1).1, (intercalate_head y ys hy1).1,
          (intercalate_head x xs hx1).2, (intercalate_head y ys hy1).2] at h
        by_cases hxy : y = x
        · rw [if_neg (fun hor => hor.elim ht (fun hne => hne hxy))] at h
          obtain ⟨i, h1, h2⟩ := ih xs ys (fun e he => hx e (List.mem_cons_of_mem _ he))
            (fun e he => hy e (List.mem_cons_of_mem _ he)) h
          exact ⟨i + 1, by simpa using h1, by simpa using h2⟩
        · rw [if_pos (Or.inr hxy)] at h
          simp only [] at h
          refine ⟨0, by simp [h], ?_⟩
          simp only [List.getElem?_cons_zero, ne_eq, Option.some.injEq]
          rw [← h]
          exact hxy

/-! ## filepath.Rel returns no error on the paths of a walk -/

theorem relLoop_render {r : Bool} {B T : List GoString} (hB : okStack r B) (hT : okStack r T)
    (hu : ups B ≤ ups T) (hdot : render r B ≠ str ".") (fuel : Nat) :
    (relLoop (fuel + 1) (render r B) (render r T)).2.2 ≠ str ".." := by
  have hxs : ∀ e ∈ B.reverse, sep ∉ e ∧ e ≠ [] := fun e he =>
    okStack_no_sep _ hB e (List.mem_reverse.1 he)
  have hys : ∀ e ∈ T.reverse, sep ∉ e ∧ e ≠ [] := fun e he =>
    okStack_no_sep _ hT e (List.mem_reverse.1 he)
  have hno : ∀ i : Nat, B.reverse[i]? = some (str "..") → T.reverse[i]? = some (str "..") :=
    fun i hi => (okStack_reverse_ups _ hT i).2
      (lt_of_lt_of_le ((okStack_reverse_ups _ hB i).1 hi) hu)
  intro h
  cases r with
  | true =>
    simp only [render, if_true] at h
    unfold relLoop at h
    rw [if_neg (by simp)] at h
    simp only [] at h
    rw [List.takeWhile_cons_of_neg (by simp), List.takeWhile_cons_of_neg (by simp),
      if_neg (by simp), List.dropWhile_cons_of_neg (by simp),
      List.dropWhile_cons_of_neg (by simp)] at h
    simp only [List.drop_succ_cons, List.drop_zero] at h
    obtain ⟨i, h1, h2⟩ := relLoop_dotdot fuel _ _ hxs hys h
    exact h2 (hno i h1)
  | false =>
    simp only [render, Bool.false_eq_true, if_false] at h hdot
    by_cases hBn : B = []
    · rw [if_pos hBn] at hdot; exact hdot rfl
    · rw [if_neg hBn] at h
      by_cases hTn : T = []
      · rw [if_pos hTn] at h
        have e : str "." = [sep].intercalate [str "."] := by decide
        rw [e] at h
        obtain ⟨i, h1, _⟩ := relLoop_dotdot (fuel + 1) _ _ hxs (by decide) h
        have := hno i h1
        rw [hTn] at this
        simp at this
      · rw [if_neg hTn] at h
        obtain ⟨i, h1, h2⟩ := relLoop_dotdot (fuel + 1) _ _ hxs hys h
        exact h2 (hno i h1)

/-- The call `filepath.Rel(b, t)` returns no error when `b` and `t` are both rooted or both
not, and `t`, cleaned, starts with at least as many `..` as `b`. -/
theorem Rel_ok (b t : GoString) (hr : isRooted t = isRooted b)
    (hu : ups (stackOf (isRooted b) b) ≤ ups (stackOf (isRooted b) t)) :
    ∃ k, Rel b t = .ok k := by
  have hB := okStack_stackOf (isRooted b) b
  have hT := okStack_stackOf (isRooted b) t
  have hbase : Clean b = render (isRooted b) (stackOf (isRooted b) b) := Clean_eq b
  have htarg : Clean t = render (isRooted b) (stackOf (isRooted b) t) := by
    rw [Clean_eq t, hr]
  have htr : isRooted (Clean t) = isRooted b := by rw [htarg]; exact isRooted_render _ _ hT
  have hbr : isRooted (Clean b) = isRooted b := by rw [hbase]; exact isRooted_render _ _ hB
  simp only [Rel]
  by_cases h1 : Clean t = Clean b
  · rw [if_pos h1]; exact ⟨_, rfl⟩
  · rw [if_neg h1]
    have hslash : decide ((if Clean b = str "." then [] else Clean b).head? = some sep) =
        decide ((Clean t).head? = some sep) := by
      have e1 : decide ((Clean t).head? = some sep) = isRooted b := htr
      rw [e1]
      by_cases h2 : Clean b = str "."
      · rw [if_pos h2, ← hbr, h2]; rfl
      · rw [if_neg h2]; exact hbr
    have hloop : (relLoop ((if Clean b = str "." then [] else Clean b).length + 1)
        (if Clean b = str "." then [] else Clean b) (Clean t)).2.2 ≠ str ".." := by
      by_cases h2 : Clean b = str "."
      · rw [if_pos h2]
        simp only [relLoop, List.length_nil, if_true]
        decide
      · rw [if_neg h2, hbase, htarg]
        rw [hbase] at h2
        exact relLoop_render hB hT hu h2 _
    rw [if_neg (by simp [hslash]), if_neg hloop]
    split_ifs <;> exact ⟨_, rfl⟩

theorem isRooted_Clean (x : GoString) : isRooted (Clean x) = isRooted x := by
  rw [Clean_eq]; exact isRooted_render _ _ (okStack_stackOf _ _)

theorem stackOf_Clean (x : GoString) :
    stackOf (isRooted x) (Clean x) = stackOf (isRooted x) x := by
  rw [Clean_eq]; exact stackOf_render (okStack_stackOf _ _)

theorem isRooted_of_no_sep {n : GoString} (h : sep ∉ n) : isRooted n = false := by
  cases n with
  | nil => rfl
  | cons c cs =>
    simp only [List.mem_cons, not_or] at h
    simp only [isRooted, List.head?_cons, Option.some.injEq, decide_eq_false_iff_not]
    exact fun hh => h.1 hh.symm

/-- A path under the root is rooted when the root is, and, cleaned, starts with at least as
many `..` as the root. -/
theorem Under.above {rootDir p : GoString} (h : Under rootDir p) :
    isRooted p = isRooted rootDir ∧
      ups (stackOf (isRooted rootDir) rootDir) ≤ ups (stackOf (isRooted rootDir) p) := by
  induction h with
  | root => exact ⟨rfl, le_refl _⟩
  | child p n _ hn ih =>
    obtain ⟨ih1, ih2⟩ := ih
    by_cases hp : p = []
    · subst hp
      have hr : isRooted rootDir = false := by rw [← ih1]; rfl
      rw [hr] at ih2 ⊢
      by_cases hn0 : n = []
      · subst hn0
        exact ⟨rfl, ih2⟩
      · have hj : Join [[], n] = Clean n := by
          unfold Join
          rw [List.dropWhile_cons_of_pos (by simp), List.dropWhile_cons_of_neg (by simpa using hn0)]
          simp [List.intercalate]
        have hrn := isRooted_of_no_sep hn
        rw [hj, isRooted_Clean, hrn]
        refine ⟨rfl, le_trans ih2 ?_⟩
        have : ups (stackOf false ([] : GoString)) = 0 := by decide
        omega
    · have hj : Join [p, n] = Clean (p ++ sep :: n) := by
        unfold Join
        rw [List.dropWhile_cons_of_neg (by simpa using hp)]
        simp [List.intercalate]
      have hr : isRooted (p ++ sep :: n) = isRooted rootDir := by
        rw [isRooted_append _ hp, ih1]
      rw [hj, isRooted_Clean, hr]
      refine ⟨rfl, le_trans ih2 ?_⟩
      have := stackOf_Clean (p ++ sep :: n)
      rw [hr] at this
      rw [this]
      unfold stackOf
      rw [splitOn_append_sep, List.foldl_append]
      exact ups_foldl _ _ _

/-- The call `filepath.Rel(rootDir, curPath)` of `BuildGraph` returns no error for a path
of the walk. -/
theorem Rel_file_ok {rootDir p : GoString} (h : Under rootDir p) :
    ∃ k, Rel rootDir p = .ok k :=
  Rel_ok rootDir p h.above.1 h.above.2

/-- The call `filepath.Rel(rootDir, pathOfLink)` of `BuildGraph` returns no error for a link
target found in a file of the walk. -/
theorem Rel_target_ok {rootDir p : GoString} (h : Under rootDir p)
    (hmd : HasSuffix p (str ".md") = true) (t : GoString) :
    ∃ k, Rel rootDir (Join [Dir p, str "./", t]) = .ok k := by
  obtain ⟨h1, h2⟩ := h.above
  obtain ⟨l1, l2, l3⟩ := lastElem_of_md hmd
  have hS := okStack_stackOf (isRooted (dirPart p)) (dirPart p)
  have hLS : okStack (isRooted (dirPart p))
      (lastElem p :: stackOf (isRooted (dirPart p)) (dirPart p)) :=
    ⟨l1, l2, lastElem_no_sep p, fun hh => absurd hh l3, hS⟩
  have hc := Clean_dir_elem p l1 l2 l3
  have hrd : isRooted (dirPart p) = isRooted rootDir := by
    rw [← h1, ← isRooted_Clean p, hc, isRooted_render _ _ hLS]
  have hst : stackOf (isRooted rootDir) p =
      lastElem p :: stackOf (isRooted rootDir) (dirPart p) := by
    have := stackOf_Clean p
    rw [hc, h1, hrd] at this
    rw [hrd] at hLS
    rw [← this, stackOf_render hLS]
  have hT := okStack_foldl (t.splitOn sep) _ hS (splitOn_no_sep t)
  rw [Dir_eq, Join_dot_slash, Join_two, Clean_append_sep]
  apply Rel_ok
  · rw [isRooted_render _ _ hT, hrd]
  · rw [hrd] at hT ⊢
    rw [stackOf_render hT]
    refine le_trans h2 (le_trans ?_ (ups_foldl _ _ _))
    rw [hst]
    unfold ups
    rw [List.count_cons_of_ne (fun hh => l3 hh.symm)]

/-! ## Results on the errors that BuildGraph returns -/

theorem FindAll_slices {text : GoString} {locs : List Int}
    (hlocs : locs ∈ FindAllStringSubmatchIndex text) :
    locs.length = 6 ∧
      slice text (locs.getD 4 0) (locs.getD 5 0) = some (targetText text locs) := by
  obtain ⟨off, n1, n2, hl, hb⟩ := FindAll_bound hlocs
  have h4 : locs.getD 4 0 = ((off + n1 + 3 : Nat) : Int) := by rw [hl]; simp [locsAt]
  have h5 : locs.getD 5 0 = ((off + n1 + 3 + n2 : Nat) : Int) := by rw [hl]; simp [locsAt]
  have htgt := @slice_eq_some _ text ((off + n1 + 3 : Nat) : Int)
    ((off + n1 + 3 + n2 : Nat) : Int) (by omega) (by omega) (by omega)
  refine ⟨by rw [hl]; simp [locsAt], ?_⟩
  unfold targetText
  rw [h4, h5, htgt]
  rfl

/-- For a match in a file of the walk, the body of the inner loop completes exactly when
the target of the match is valid percent-encoded text. -/
theorem matchOk_iff {rootDir curPath : GoString} (hU : Under rootDir curPath)
    (hmd : HasSuffix curPath (str ".md") = true) {lines : List GoString}
    (hsize : lines.length ≤ maxLines) {row : Nat} (hrow : row < lines.length)
    {text : GoString} {locs : List Int} (hlocs : locs ∈ FindAllStringSubmatchIndex text) :
    matchOk rootDir curPath lines row text locs ↔
      (QueryUnescape (targetText text locs)).isOk = true := by
  obtain ⟨h6, hs⟩ := FindAll_slices hlocs
  have hwin := window_bounds hsize hrow
  have hctx := @slice_eq_some _ lines _ _ hwin.1 (by omega) hwin.2.2.2.1
  unfold matchOk targetKey
  rw [hs, hctx]
  simp only [h6, Option.isSome_some, true_and]
  cases hq : QueryUnescape (targetText text locs) with
  | error e => simp [Except.isOk, Except.toBool]
  | ok pathOfLink =>
    simp only [Except.isOk, Except.toBool, iff_true]
    exact Rel_target_ok hU hmd pathOfLink

theorem linkBody_stop (rootDir curPath : GoString) (lines : List GoString) (node row : Nat)
    {text : GoString} {locs : List Int} (hlocs : locs ∈ FindAllStringSubmatchIndex text)
    {bad : Err} (hq : QueryUnescape (targetText text locs) = .error bad) (g : Graph) :
    linkBody rootDir curPath lines node row text g locs = .stop g bad := by
  obtain ⟨h6, hs⟩ := FindAll_slices hlocs
  unfold linkBody
  rw [if_neg (by simp [h6]), hs]
  simp only [hq]

theorem linkBody_next_ok (rootDir curPath : GoString) (lines : List GoString) (node row : Nat)
    (text : GoString) (locs : List Int) (g : Graph) :
    (∃ g1, linkBody rootDir curPath lines node row text g locs = .next g1) ↔
      matchOk rootDir curPath lines row text locs := by
  constructor
  · rintro ⟨g1, h⟩
    exact ((linkBody_next_iff ..).1 h).1
  · intro h
    obtain ⟨dst, hdst⟩ := h.2.2.2
    exact ⟨_, (linkBody_next_iff ..).2 ⟨h, dst, hdst, rfl⟩⟩

/-- For an entry of the walk, the callback completes exactly when the entry does not fail in
one of the ways the specification lists. -/
theorem entryOk_iff {rootDir : GoString} {d : WalkEntry} (hU : Under rootDir d.curPath)
    (hsize : ∀ content, d.content = .ok content → (splitLines content).length ≤ maxLines) :
    entryOk rootDir d ↔ entryFails d = false := by
  unfold entryOk entryFails WalkEntry.scanned
  cases h1 : d.err with
  | some e => simp
  | none =>
    simp only [true_and, Option.isSome_none, Option.isNone_none, Bool.true_and, Bool.false_or]
    by_cases h2 : d.isDir = true
    · simp [h2]
    · have h2b : d.isDir = false := by simpa using h2
      by_cases h3 : HasSuffix d.curPath (str ".md") = true
      · simp only [h2b, h3, Bool.false_eq_true, false_or, Bool.not_false, Bool.true_and,
          Bool.true_eq_false]
        cases hc : d.content with
        | error e => simp
        | ok content =>
          obtain ⟨key, hkey⟩ := Rel_file_ok hU
          have hn := hsize content hc
          simp only [Except.ok.injEq, exists_and_left, exists_eq_left', hkey, exists_const,
            true_and]
          rw [List.any_eq_false]
          constructor
          · intro h text htext
            rw [List.any_eq_true]
            rintro ⟨locs, hlocs, hbad⟩
            obtain ⟨row, hrow, hget⟩ := List.getElem_of_mem htext
            have hmem : (row, text) ∈ (splitLines content).enum := by
              rw [List.mk_mem_enum_iff_getElem?, List.getElem?_eq_getElem hrow, hget]
            have := (matchOk_iff hU h3 hn hrow hlocs).1 (h (row, text) hmem locs hlocs)
            rw [this] at hbad
            simp at hbad
          · intro h rl hrl locs hlocs
            have hrow := (List.mem_enum hrl).1
            have htext : rl.2 ∈ splitLines content := by
              rw [(List.mem_enum hrl).2]
              exact List.getElem_mem _
            refine (matchOk_iff hU h3 hn hrow hlocs).2 ?_
            have hall := h rl.2 htext
            rw [List.any_eq_true] at hall
            by_contra hne
            exact hall ⟨locs, hlocs, by simpa using hne⟩
      · have h3b : HasSuffix d.curPath (str ".md") = false := by simpa using h3
        simp [h2b, h3b]

theorem lineBody_next_ok (rootDir curPath : GoString) (lines : List GoString) (node : Nat)
    (rl : Nat × GoString) (g : Graph) :
    (∃ g1, lineBody rootDir curPath lines node g rl = .next g1) ↔
      ∀ locs ∈ FindAllStringSubmatchIndex rl.2, matchOk rootDir curPath lines rl.1 rl.2 locs := by
  unfold lineBody
  exact forEach_next_iff (fun locs => matchOk rootDir curPath lines rl.1 rl.2 locs) _ _
    (fun locs _ g2 => linkBody_next_ok rootDir curPath lines node rl.1 rl.2 locs g2) g

theorem matchEdges_length {rootDir curPath key : GoString} {lines : List GoString} {row : Nat}
    {text : GoString} {locs : List Int} (h : matchOk rootDir curPath lines row text locs) :
    (matchEdges rootDir curPath key lines row text locs).length = 1 := by
  obtain ⟨dst, hdst⟩ := h.2.2.2
  unfold matchEdges
  rw [hdst]
  rfl

theorem flatten_length_ones {α β : Type} (f : α → List β) (xs : List α)
    (h : ∀ a ∈ xs, (f a).length = 1) : ((xs.map f).flatten).length = xs.length := by
  induction xs with
  | nil => rfl
  | cons a as ih =>
    simp only [List.map_cons, List.flatten_cons, List.length_append, List.length_cons]
    rw [h a (List.mem_cons_self _ _), ih (fun b hb => h b (List.mem_cons_of_mem _ hb))]
    omega

/-- The scan of a file up to a match whose target is not valid percent-encoded text: the
callback returns the error of that match, with the graph as it is after the matches before
it. -/
theorem walkFn_stop_at {rootDir : GoString} {d : WalkEntry} (hU : Under rootDir d.curPath)
    {content : GoString} (hc : d.content = .ok content)
    (hn : (splitLines content).length ≤ maxLines) (hscan : d.scanned = true)
    {s0 : Build} (hr : Reachable s0.graph)
    {lpre lpost : List (Nat × GoString)} {row : Nat} {text : GoString}
    (henum : (splitLines content).enum = lpre ++ (row, text) :: lpost)
    {mpre mpost : List (List Int)} {locs : List Int}
    (hfind : FindAllStringSubmatchIndex text = mpre ++ locs :: mpost)
    (hlpre : ∀ rl ∈ lpre, ∀ m ∈ FindAllStringSubmatchIndex rl.2,
      (QueryUnescape (targetText rl.2 m)).isOk = true)
    (hmpre : ∀ m ∈ mpre, (QueryUnescape (targetText text m)).isOk = true)
    {bad : Err} (hbad : QueryUnescape (targetText text locs) = .error bad) :
    ∃ s key, Rel rootDir d.curPath = .ok key ∧ walkFn rootDir s0 d = .stop s bad ∧
      s.nMDs = s0.nMDs + 1 ∧
      s.graph.edges = s0.graph.edges ++
        ((lpre.map (lineEdges rootDir d.curPath key (splitLines content))).flatten ++
          (mpre.map (matchEdges rootDir d.curPath key (splitLines content) row text)).flatten) ∧
      s.graph.linkObjs.length = s0.graph.linkObjs.length +
        (lpre.map (fun rl => (FindAllStringSubmatchIndex rl.2).length)).sum + mpre.length := by
  obtain ⟨key, hkey⟩ := Rel_file_ok hU
  unfold WalkEntry.scanned at hscan
  simp only [Bool.and_eq_true, Option.isNone_iff_eq_none, Bool.not_eq_true'] at hscan
  obtain ⟨⟨herr, hdir⟩, hmd⟩ := hscan
  have hw := hr.wf
  have hv := GetNode_valid hw key
  have hfile : FileInv key (GetNode s0.graph key).2 s0.graph.edges
      (s0.graph.keys ++ [key]) [] (GetNode s0.graph key).1 := by
    refine ⟨Reachable.getNode key hr, by rw [edges_GetNode hw]; simp, ?_, hv.1, hv.2⟩
    intro k
    rw [GetNode_keys_mem]
    simp
  have hrowOf : ∀ rl ∈ lpre ++ (row, text) :: lpost, rl.1 < (splitLines content).length := by
    intro rl hrl
    rw [← henum] at hrl
    exact (List.mem_enum hrl).1
  have hokL : ∀ rl ∈ lpre, ∀ m ∈ FindAllStringSubmatchIndex rl.2,
      matchOk rootDir d.curPath (splitLines content) rl.1 rl.2 m := fun rl hrl m hm =>
    (matchOk_iff hU hmd hn (hrowOf rl (List.mem_append_left _ hrl)) hm).2 (hlpre rl hrl m hm)
  have hrow : row < (splitLines content).length := hrowOf (row, text) (by simp)
  have hokM : ∀ m ∈ mpre, matchOk rootDir d.curPath (splitLines content) row text m :=
    fun m hm => (matchOk_iff hU hmd hn hrow (by rw [hfind]; simp [hm])).2 (hmpre m hm)
  obtain ⟨ga, hga⟩ := (forEach_next_iff
    (fun rl : Nat × GoString => ∀ m ∈ FindAllStringSubmatchIndex rl.2,
      matchOk rootDir d.curPath (splitLines content) rl.1 rl.2 m)
    (lineBody rootDir d.curPath (splitLines content) (GetNode s0.graph key).2) lpre
    (fun rl _ g => lineBody_next_ok rootDir d.curPath (splitLines content) _ rl g)
    (GetNode s0.graph key).1).2 hokL
  have hinvA := forEach_acc (FileInv key (GetNode s0.graph key).2 s0.graph.edges
      (s0.graph.keys ++ [key]))
    (lineEdges rootDir d.curPath key (splitLines content)) _ lpre
    (fun rl _ acc1 s s1 hs hr1 => lineBody_acc rootDir d.curPath key (splitLines content) _
      _ _ rl acc1 s s1 hs hr1)
    [] _ ga hfile hga
  obtain ⟨gb, hgb⟩ := (forEach_next_iff
    (fun m : List Int => matchOk rootDir d.curPath (splitLines content) row text m)
    (linkBody rootDir d.curPath (splitLines content) (GetNode s0.graph key).2 row text) mpre
    (fun m _ g => linkBody_next_ok rootDir d.curPath (splitLines content) _ row text m g)
    ga).2 hokM
  have hinvB := forEach_acc (FileInv key (GetNode s0.graph key).2 s0.graph.edges
      (s0.graph.keys ++ [key]))
    (matchEdges rootDir d.curPath key (splitLines content) row text) _ mpre
    (fun m _ acc1 s s1 hs hr1 => linkBody_acc rootDir d.curPath key (splitLines content) _
      row text _ _ m acc1 s s1 hs hr1)
    _ ga gb hinvA hgb
  have hstop := linkBody_stop rootDir d.curPath (splitLines content) (GetNode s0.graph key).2
    row (by rw [hfind]; simp : locs ∈ FindAllStringSubmatchIndex text) hbad gb
  have hline : lineBody rootDir d.curPath (splitLines content) (GetNode s0.graph key).2 ga
      (row, text) = .stop gb bad := by
    unfold lineBody
    simp only []
    rw [hfind, forEach_append, hgb]
    simp only [forEach, hstop]
  have hlines : forEach (lineBody rootDir d.curPath (splitLines content)
      (GetNode s0.graph key).2) (splitLines content).enum (GetNode s0.graph key).1 =
        .stop gb bad := by
    rw [henum, forEach_append, hga]
    simp only [forEach, hline]
  refine ⟨⟨gb, s0.nMDs + 1⟩, key, hkey, ?_, rfl, ?_, ?_⟩
  · unfold walkFn
    simp only [herr, hdir, hmd, hc, hkey, hlines, Bool.false_eq_true, if_false, Bool.not_true]
  · have := hinvB.2.1
    simpa using this
  · have hlen : gb.edges.length = gb.linkObjs.length := by simp [Graph.edges]
    have hlen0 : s0.graph.edges.length = s0.graph.linkObjs.length := by simp [Graph.edges]
    rw [← hlen, ← hlen0, hinvB.2.1]
    simp only [List.nil_append, List.length_append]
    rw [flatten_length_ones _ mpre (fun m hm => matchEdges_length (hokM m hm))]
    have : ((lpre.map (lineEdges rootDir d.curPath key (splitLines content))).flatten).length =
        (lpre.map (fun rl => (FindAllStringSubmatchIndex rl.2).length)).sum := by
      rw [List.length_flatten, List.map_map]
      congr 1
      apply List.map_congr_left
      intro rl hrl
      simp only [Function.comp, lineEdges]
      exact flatten_length_ones _ _ (fun m hm => matchEdges_length (hokL rl hrl m hm))
    rw [this]
    omega

/-- C16: over a walk of `rootDir` whose files have at most `maxLines` lines, `BuildGraph`
returns a non-nil error exactly when the walk reports an error for an entry, or a file to
scan cannot be read, or a match in a file to scan has a target that is not valid
percent-encoded text, and it returns a nil error otherwise.  When the files before `d` are
scanned without error and the first match of `d` whose target cannot be decoded is `locs`,
after the matches `mpre` of its line and the lines `lpre`, `BuildGraph` returns the error of
that match whatever follows in the line, the file and the walk; the returned graph has the
edges recorded for the files before, then one edge for each match before `locs` in `d`, and
no other. -/
theorem BuildGraph_fails_iff (rootDir : GoString) (walk : List WalkEntry)
    (hwalk : ∀ d ∈ walk, Under rootDir d.curPath)
    (hsize : ∀ d ∈ walk, ∀ content, d.content = .ok content →
      (splitLines content).length ≤ maxLines) :
    ((∃ s err, BuildGraph rootDir walk = .stop s err) ↔ ∃ d ∈ walk, entryFails d = true) ∧
    ((∃ s, BuildGraph rootDir walk = .next s) ↔ ∀ d ∈ walk, entryFails d = false) ∧
    (∀ (pre : List WalkEntry) (d : WalkEntry) (post : List WalkEntry) (s0 : Build)
      (content : GoString) (lpre : List (Nat × GoString)) (row : Nat) (text : GoString)
      (lpost : List (Nat × GoString)) (mpre : List (List Int)) (locs : List Int)
      (mpost : List (List Int)) (bad : Err),
      walk = pre ++ d :: post → BuildGraph rootDir pre = .next s0 →
      d.scanned = true → d.content = .ok content →
      (splitLines content).enum = lpre ++ (row, text) :: lpost →
      FindAllStringSubmatchIndex text = mpre ++ locs :: mpost →
      (∀ rl ∈ lpre, ∀ m ∈ FindAllStringSubmatchIndex rl.2,
        (QueryUnescape (targetText rl.2 m)).isOk = true) →
      (∀ m ∈ mpre, (QueryUnescape (targetText text m)).isOk = true) →
      QueryUnescape (targetText text locs) = .error bad →
      ∃ s key, Rel rootDir d.curPath = .ok key ∧
        BuildGraph rootDir walk = .stop s bad ∧
        s.nMDs = s0.nMDs + 1 ∧
        s0.graph.edges = walkEdges rootDir pre ∧
        s.graph.edges = s0.graph.edges ++
          ((lpre.map (lineEdges rootDir d.curPath key (splitLines content))).flatten ++
            (mpre.map
              (matchEdges rootDir d.curPath key (splitLines content) row text)).flatten) ∧
        s.graph.linkObjs.length = s0.graph.linkObjs.length +
          (lpre.map (fun rl => (FindAllStringSubmatchIndex rl.2).length)).sum +
            mpre.length) := by
  have hiff : ∀ d ∈ walk, (entryOk rootDir d ↔ entryFails d = false) := fun d hd =>
    entryOk_iff (hwalk d hd) (hsize d hd)
  have hnext : (∃ s, BuildGraph rootDir walk = .next s) ↔ ∀ d ∈ walk, entryFails d = false := by
    rw [BuildGraph_next_iff]
    exact ⟨fun h d hd => (hiff d hd).1 (h d hd), fun h d hd => (hiff d hd).2 (h d hd)⟩
  refine ⟨?_, hnext, ?_⟩
  · constructor
    · rintro ⟨s, err, hs⟩
      by_contra hno
      have hall : ∀ d ∈ walk, entryFails d = false := by
        intro d hd
        by_contra hf
        exact hno ⟨d, hd, by simpa using hf⟩
      obtain ⟨s1, hs1⟩ := hnext.2 hall
      rw [hs] at hs1
      cases hs1
    · rintro ⟨d, hd, hf⟩
      cases hres : BuildGraph rootDir walk with
      | next s =>
        have := hnext.1 ⟨s, hres⟩ d hd
        rw [hf] at this
        cases this
      | stop s err => exact ⟨s, err, rfl⟩
      | panic => exact absurd hres (BuildGraph_no_panic rootDir walk hsize)
  · intro pre d post s0 content lpre row text lpost mpre locs mpost bad hw h0 hscan hc henum
      hfind hlpre hmpre hbad
    have hd : d ∈ walk := by rw [hw]; simp
    have hr := (BuildGraph_summary rootDir pre s0 h0).1
    obtain ⟨s, key, hkey, hstop, hcount, hedges, hlen⟩ :=
      walkFn_stop_at (hwalk d hd) hc (hsize d hd content hc) hscan hr henum hfind hlpre hmpre
        hbad
    refine ⟨s, key, hkey, ?_, hcount, BuildGraph_edges h0, hedges, hlen⟩
    unfold BuildGraph at h0 ⊢
    rw [hw, forEach_append, h0]
    simp only [forEach, hstop]

/-- C16 at the walk `walkBadEscape`: the second match of the second line of `a.md` has the
target `a%zz.md`; `BuildGraph` returns the error for `%zz` and the graph with the two links
recorded before, without the links `[c](c.md)` and `[d](d.md)` and without the file
`b.md`. -/
theorem BuildGraph_fails_iff_witness :
    (∀ d ∈ walkBadEscape, Under (str "/p") d.curPath) ∧
    (∀ d ∈ walkBadEscape, ∀ content, d.content = .ok content →
      (splitLines content).length ≤ maxLines) ∧
    (∃ d ∈ walkBadEscape, entryFails d = true) ∧
    (∃ s err, BuildGraph (str "/p") walkBadEscape = .stop s err) ∧
    BuildGraph (str "/p") walkBadEscape = .stop ⟨graphBadEscape, 1⟩ (.escape (str "%zz")) :=
  have hU : ∀ d ∈ walkBadEscape, Under (str "/p") d.curPath := by
    intro d hd
    simp only [walkBadEscape, List.mem_cons, List.mem_singleton, List.not_mem_nil,
      or_false] at hd
    rcases hd with rfl | rfl | rfl
    · exact Under.root
    · exact Under.child (str "/p") (str "a.md") Under.root (by decide)
    · exact Under.child (str "/p") (str "b.md") Under.root (by decide)
  have hS : ∀ d ∈ walkBadEscape, ∀ content, d.content = .ok content →
      (splitLines content).length ≤ maxLines := by
    intro d hd content hc
    simp only [walkBadEscape, List.mem_cons, List.mem_singleton, List.not_mem_nil,
      or_false] at hd
    rcases hd with rfl | rfl | rfl
    · cases hc
    · simp only [Except.ok.injEq] at hc
      subst hc
      exact le_trans (by decide : _ ≤ 3) (by decide)
    · simp only [Except.ok.injEq] at hc
      subst hc
      exact le_trans (by decide : _ ≤ 1) (by decide)
  ⟨hU, hS, by decide,
    (BuildGraph_fails_iff (str "/p") walkBadEscape hU hS).1.2 (by decide), by decide⟩

/-! ## The edges recorded when the scan stops -/

theorem forEach_acc_stop {σ α β : Type} (P : List β → σ → Prop) (h : α → List β)
    (body : σ → α → Res σ) (xs : List α)
    (step : ∀ a ∈ xs, ∀ acc s s1, P acc s → body s a = .next s1 → P (acc ++ h a) s1)
    (halt : ∀ a ∈ xs, ∀ acc s s1 e, P acc s → body s a = .stop s1 e →
      ∃ X, X <+: h a ∧ P (acc ++ X) s1) :
    ∀ acc s s1 e, P acc s → forEach body xs s = .stop s1 e →
      ∃ X, X <+: (xs.map h).flatten ∧ P (acc ++ X) s1 := by
  intro acc s s1 e hs hr
  obtain ⟨pre, a, post, s0, hx, hp, hb⟩ := forEach_stop_split body xs s s1 e hr
  have hmem : ∀ b ∈ pre, b ∈ xs := fun b hb1 => by rw [hx]; exact List.mem_append_left _ hb1
  have ha : a ∈ xs := by rw [hx]; simp
  have h0 := forEach_acc P h body pre (fun b hb1 => step b (hmem b hb1)) acc s s0 hs hp
  obtain ⟨X, hX, hP⟩ := halt a ha _ s0 s1 e h0 hb
  refine ⟨(pre.map h).flatten ++ X, ?_, by rw [← List.append_assoc]; exact hP⟩
  rw [hx, List.map_append, List.flatten_append, List.map_cons, List.flatten_cons]
  obtain ⟨Y, hY⟩ := hX
  exact ⟨Y ++ (post.map h).flatten, by rw [← hY]; simp⟩

theorem linkBody_stop_state {rootDir curPath : GoString} {lines : List GoString}
    {node row : Nat} {text : GoString} {g g1 : Graph} {locs : List Int} {e : Err}
    (h : linkBody rootDir curPath lines node row text g locs = .stop g1 e) : g1 = g := by
  unfold linkBody at h
  by_cases h6 : locs.length = 6
  · rw [if_neg (by simp [h6])] at h
    cases hs : slice text (locs.getD 4 0) (locs.getD 5 0) with
    | none => rw [hs] at h; cases h
    | some target =>
      rw [hs] at h
      simp only [] at h
      cases hq : QueryUnescape target with
      | error err => rw [hq] at h; simp only [Res.stop.injEq] at h; exact h.1.symm
      | ok pathOfLink =>
        rw [hq] at h
        simp only [] at h
        cases hrel : Rel rootDir (Join [Dir curPath, str "./", pathOfLink]) with
        | error err => rw [hrel] at h; simp only [Res.stop.injEq] at h; exact h.1.symm
        | ok key =>
          rw [hrel] at h
          simp only [] at h
          cases hc : slice lines (contextStart row) (contextEnd lines.length row) with
          | none => rw [hc] at h; cases h
          | some context => rw [hc] at h; cases h
  · rw [if_pos (by simp [h6])] at h; cases h

theorem lineBody_halt (rootDir curPath key : GoString) (lines : List GoString) (node : Nat)
    (base : List Edge) (baseKeys : List GoString) (rl : Nat × GoString)
    (acc : List Edge) (g g1 : Graph) (e : Err) (hinv : FileInv key node base baseKeys acc g)
    (hres : lineBody rootDir curPath lines node g rl = .stop g1 e) :
    ∃ X, X <+: lineEdges rootDir curPath key lines rl ∧
      FileInv key node base baseKeys (acc ++ X) g1 := by
  unfold lineBody at hres
  exact forEach_acc_stop (FileInv key node base baseKeys)
    (matchEdges rootDir curPath key lines rl.1 rl.2) _ _
    (fun locs _ acc1 s s1 hs hr => linkBody_acc rootDir curPath key lines node rl.1 rl.2
      base baseKeys locs acc1 s s1 hs hr)
    (fun locs _ acc1 s s1 e1 hs hr => ⟨[], List.nil_prefix, by
      rw [linkBody_stop_state hr, List.append_nil]; exact hs⟩)
    acc g g1 e hinv hres

theorem lines_halt (rootDir curPath key : GoString) (lines : List GoString) (node : Nat)
    (base : List Edge) (baseKeys : List GoString)
    (g g1 : Graph) (e : Err) (hinv : FileInv key node base baseKeys [] g)
    (hres : forEach (lineBody rootDir curPath lines node) lines.enum g = .stop g1 e) :
    ∃ X, X <+: linesEdges rootDir curPath key lines ∧
      FileInv key node base baseKeys X g1 := by
  have := forEach_acc_stop (FileInv key node base baseKeys)
    (lineEdges rootDir curPath key lines) _ _
    (fun rl _ acc1 s s1 hs hr => lineBody_acc rootDir curPath key lines node
      base baseKeys rl acc1 s s1 hs hr)
    (fun rl _ acc1 s s1 e1 hs hr => lineBody_halt rootDir curPath key lines node
      base baseKeys rl acc1 s s1 e1 hs hr)
    [] g g1 e hinv hres
  simpa [linesEdges] using this

/-- One invocation of the callback adds to the graph a prefix of the edges of the file, and
all of them when it returns no error. -/
theorem walkFn_edges (rootDir : GoString) (d : WalkEntry) (s s1 : Build)
    (hr : Reachable s.graph) (hres : (walkFn rootDir s d).state? = some s1) :
    Reachable s1.graph ∧ ∃ X, X <+: fileEdges rootDir d ∧
      s1.graph.edges = s.graph.edges ++ X ∧
      (walkFn rootDir s d = .next s1 → X = fileEdges rootDir d) := by
  unfold walkFn at hres ⊢
  unfold fileEdges WalkEntry.scanned
  split at hres
  · simp only [Res.state?, Option.some.injEq] at hres; subst hres
    exact ⟨hr, [], List.nil_prefix, by simp, by rename_i h1; simp [h1]⟩
  · rename_i h1
    simp only [h1]
    split at hres
    · rename_i h2
      simp only [Res.state?, Option.some.injEq] at hres; subst hres
      exact ⟨hr, [], List.nil_prefix, by simp, by simp [h2]⟩
    · rename_i h2
      split at hres
      · rename_i h3
        simp only [Res.state?, Option.some.injEq] at hres; subst hres
        have h3b : HasSuffix d.curPath (str ".md") = false := by simpa using h3
        exact ⟨hr, [], List.nil_prefix, by simp, by simp [h2, h3b]⟩
      · rename_i h3
        have h2b : d.isDir = false := by simpa using h2
        have h3b : HasSuffix d.curPath (str ".md") = true := by simpa using h3
        simp only [h2b, h3b, Bool.false_eq_true, if_false, Bool.not_true, Option.isNone_none,
          Bool.not_false, Bool.and_self, if_true]
        simp only [] at hres
        split at hres
        · rename_i err hc
          simp only [Res.state?, Option.some.injEq] at hres; subst hres
          exact ⟨hr, [], List.nil_prefix, by simp, by simp⟩
        · rename_i content hc
          split at hres
          · rename_i err hkey
            simp only [Res.state?, Option.some.injEq] at hres; subst hres
            exact ⟨hr, [], List.nil_prefix, by simp, by simp⟩
          · rename_i key hkey
            simp only [hc, hkey]
            have hw := hr.wf
            have hv := GetNode_valid hw key
            have hfile : FileInv key (GetNode s.graph key).2 s.graph.edges
                (s.graph.keys ++ [key]) [] (GetNode s.graph key).1 := by
              refine ⟨Reachable.getNode key hr, by rw [edges_GetNode hw]; simp, ?_, hv.1, hv.2⟩
              intro k
              rw [GetNode_keys_mem]
              simp
            split at hres
            · rename_i g1 hfe
              simp only [Res.state?, Option.some.injEq] at hres; subst hres
              obtain ⟨q1, q2, _⟩ := lines_acc rootDir d.curPath key (splitLines content)
                _ _ _ _ g1 hfile hfe
              exact ⟨q1, _, List.prefix_refl _, q2, fun _ => rfl⟩
            · rename_i g1 err hfe
              simp only [Res.state?, Option.some.injEq] at hres; subst hres
              obtain ⟨X, hX, q1, q2, _⟩ := lines_halt rootDir d.curPath key (splitLines content)
                _ _ _ _ g1 err hfile hfe
              exact ⟨q1, X, hX, q2, by simp⟩
            · simp [Res.state?] at hres

/-! ## The links of the graph and the mentions of the walk -/

theorem matchMentions_edges (rootDir : GoString) (d : WalkEntry) (content key : GoString)
    (row : Nat) (text : GoString) (locs : List Int) :
    (matchMentions rootDir d content key row text locs).map Mention.edge =
      matchEdges rootDir d.curPath key (splitLines content) row text locs := by
  unfold matchMentions matchEdges targetKey
  cases QueryUnescape (targetText text locs) with
  | error e => rfl
  | ok decoded =>
    simp only []
    cases Rel rootDir (Join [Dir d.curPath, str "./", decoded]) with
    | error e => rfl
    | ok dst => rfl

theorem map_flatten_map {α β γ : Type} (f : β → γ) (F : α → List β) (xs : List α) :
    ((xs.map F).flatten).map f = (xs.map (fun a => (F a).map f)).flatten := by
  induction xs with
  | nil => rfl
  | cons a as ih => simp only [List.map_cons, List.flatten_cons, List.map_append, ih]

theorem linesMentions_edges (rootDir : GoString) (d : WalkEntry) (content key : GoString) :
    (linesMentions rootDir d content key).map Mention.edge =
      linesEdges rootDir d.curPath key (splitLines content) := by
  unfold linesMentions linesEdges lineEdges
  rw [map_flatten_map]
  congr 1
  apply List.map_congr_left
  intro rl _
  rw [map_flatten_map]
  congr 1
  apply List.map_congr_left
  intro locs _
  exact matchMentions_edges rootDir d content key rl.1 rl.2 locs

theorem fileMentions_edges (rootDir : GoString) (d : WalkEntry) :
    (fileMentions rootDir d).map Mention.edge = fileEdges rootDir d := by
  unfold fileMentions fileEdges
  split
  · cases hc : d.content with
    | error e => rfl
    | ok content =>
      cases hk : Rel rootDir d.curPath with
      | error e => rfl
      | ok key => exact linesMentions_edges rootDir d content key
  · rfl

/-- The edges of the files of a walk are the edges of its mentions, in the same order. -/
theorem walkMentions_edges (rootDir : GoString) (walk : List WalkEntry) :
    (walkMentions rootDir walk).map Mention.edge = walkEdges rootDir walk := by
  unfold walkMentions walkEdges
  rw [map_flatten_map]
  congr 1
  apply List.map_congr_left
  intro d _
  exact fileMentions_edges rootDir d

/-- What a mention of a walk is: a match on a line of a scanned file of the walk, whose
target is decoded and resolved as `BuildGraph` does. -/
theorem walkMentions_spec {rootDir : GoString} {walk : List WalkEntry} {m : Mention}
    (h : m ∈ walkMentions rootDir walk) :
    m.entry ∈ walk ∧ m.entry.scanned = true ∧ m.entry.content = .ok m.content ∧
      Rel rootDir m.entry.curPath = .ok m.key ∧
      (splitLines m.content)[m.row]? = some m.text ∧
      m.locs ∈ FindAllStringSubmatchIndex m.text ∧
      QueryUnescape (targetText m.text m.locs) = .ok m.decoded ∧
      Rel rootDir (Join [Dir m.entry.curPath, str "./", m.decoded]) = .ok m.dst := by
  unfold walkMentions at h
  rw [List.mem_flatten] at h
  obtain ⟨l, hl, hm⟩ := h
  rw [List.mem_map] at hl
  obtain ⟨d, hd, rfl⟩ := hl
  unfold fileMentions at hm
  split at hm
  · rename_i hscan
    split at hm
    · rename_i content key hc hkey
      unfold linesMentions at hm
      rw [List.mem_flatten] at hm
      obtain ⟨l2, hl2, hm2⟩ := hm
      rw [List.mem_map] at hl2
      obtain ⟨rl, hrl, rfl⟩ := hl2
      rw [List.mem_flatten] at hm2
      obtain ⟨l3, hl3, hm3⟩ := hm2
      rw [List.mem_map] at hl3
      obtain ⟨locs, hlocs, rfl⟩ := hl3
      unfold matchMentions at hm3
      cases hq : QueryUnescape (targetText rl.2 locs) with
      | error e => rw [hq] at hm3; cases hm3
      | ok decoded =>
        rw [hq] at hm3
        simp only [] at hm3
        cases hrel : Rel rootDir (Join [Dir d.curPath, str "./", decoded]) with
        | error e => rw [hrel] at hm3; cases hm3
        | ok dst =>
          rw [hrel] at hm3
          simp only [List.mem_singleton] at hm3
          subst hm3
          have hget : (splitLines content)[rl.1]? = some rl.2 := by
            rw [List.getElem?_eq_getElem (List.mem_enum hrl).1]
            exact congrArg some (List.mem_enum hrl).2.symm
          exact ⟨hd, hscan, hc, hkey, hget, hlocs, hq, hrel⟩
    · cases hm
  · cases hm

/-- The edges of the graph that `BuildGraph` returns, with or without error, are the edges
of the first mentions of the walk, in their order; all of them when it returns no error. -/
theorem forEach_walkFn_edges (rootDir : GoString) : ∀ (walk : List WalkEntry) (s0 s : Build),
    Reachable s0.graph → (forEach (walkFn rootDir) walk s0).state? = some s →
    Reachable s.graph ∧ ∃ X, X <+: walkEdges rootDir walk ∧
      s.graph.edges = s0.graph.edges ++ X := by
  intro walk
  induction walk with
  | nil =>
    intro s0 s hr h
    simp only [forEach, Res.state?, Option.some.injEq] at h
    subst h
    exact ⟨hr, [], List.nil_prefix, by simp⟩
  | cons d ds ih =>
    intro s0 s hr h
    unfold forEach at h
    have hw : walkEdges rootDir (d :: ds) = fileEdges rootDir d ++ walkEdges rootDir ds := by
      simp [walkEdges]
    cases hb : walkFn rootDir s0 d with
    | next s1 =>
      rw [hb] at h
      simp only [] at h
      obtain ⟨hr1, X, _, he, hall⟩ := walkFn_edges rootDir d s0 s1 hr (by rw [hb]; rfl)
      have hX := hall hb
      subst hX
      obtain ⟨hr2, Y, hY, he2⟩ := ih s1 s hr1 h
      refine ⟨hr2, fileEdges rootDir d ++ Y, ?_, by rw [he2, he, List.append_assoc]⟩
      rw [hw]
      exact (List.prefix_append_right_inj _).2 hY
    | stop s1 e =>
      rw [hb] at h
      simp only [Res.state?, Option.some.injEq] at h
      subst h
      obtain ⟨hr1, X, hX, he, _⟩ := walkFn_edges rootDir d s0 s1 hr (by rw [hb]; rfl)
      refine ⟨hr1, X, ?_, he⟩
      rw [hw]
      exact hX.trans (List.prefix_append _ _)
    | panic =>
      rw [hb] at h
      simp [Res.state?] at h

theorem BuildGraph_edges_prefix {rootDir : GoString} {walk : List WalkEntry} {s : Build}
    (h : (BuildGraph rootDir walk).state? = some s) :
    s.graph.edges <+: walkEdges rootDir walk := by
  obtain ⟨_, X, hX, he⟩ := forEach_walkFn_edges rootDir walk ⟨Graph.empty, 0⟩ s
    Reachable.empty h
  rw [he]
  simpa [Graph.edges, Graph.empty] using hX

/-- The `i`-th link of the graph that `BuildGraph` returns, with or without error, is the
link recorded for the `i`-th mention of the walk. -/
theorem link_mention {rootDir : GoString} {walk : List WalkEntry} {s : Build}
    (h : (BuildGraph rootDir walk).state? = some s) {i : Nat}
    (hi : i < s.graph.linkObjs.length) :
    ∃ m, (walkMentions rootDir walk)[i]? = some m ∧
      s.graph.edgeOf (s.graph.link i) = m.edge := by
  obtain ⟨Y, hY⟩ := BuildGraph_edges_prefix h
  have hlen : i < s.graph.edges.length := by simpa [Graph.edges] using hi
  have h1 : (walkEdges rootDir walk)[i]? = some (s.graph.edgeOf (s.graph.link i)) := by
    rw [← hY, List.getElem?_append_left hlen]
    unfold Graph.edges
    rw [List.getElem?_map, getElem?_link hi]
    rfl
  rw [← walkMentions_edges, List.getElem?_map] at h1
  cases hm : (walkMentions rootDir walk)[i]? with
  | none => rw [hm] at h1; cases h1
  | some m =>
    rw [hm] at h1
    simp only [Option.map_some', Option.some.injEq] at h1
    exact ⟨m, rfl, h1.symm⟩

/-! ## Results on the match a link was recorded for -/

/-- The `i`-th link of the graph that `BuildGraph` returns, with or without error, was
recorded for the `i`-th mention of the walk: it has the key of the mention's file as the
path of its source node, the key of the mention's target as the path of its target node,
the mention's row, the start of capture group 1 as column and the window of the row as
context. -/
theorem link_recorded {rootDir : GoString} {walk : List WalkEntry} {s : Build}
    (h : (BuildGraph rootDir walk).state? = some s) {i : Nat}
    (hi : i < s.graph.linkObjs.length) :
    ∃ m, (walkMentions rootDir walk)[i]? = some m ∧
      m.entry ∈ walk ∧ m.entry.scanned = true ∧ m.entry.content = .ok m.content ∧
      Rel rootDir m.entry.curPath = .ok (s.graph.node (s.graph.link i).«from»).path ∧
      (splitLines m.content)[m.row]? = some m.text ∧
      m.locs ∈ FindAllStringSubmatchIndex m.text ∧
      QueryUnescape (targetText m.text m.locs) = .ok m.decoded ∧
      Rel rootDir (Join [Dir m.entry.curPath, str "./", m.decoded]) =
        .ok (s.graph.node (s.graph.link i).«to»).path ∧
      (s.graph.link i).row = (m.row : Int) ∧ (s.graph.link i).col = m.locs.getD 2 0 ∧
      (s.graph.link i).context = window (splitLines m.content) m.row := by
  obtain ⟨m, hm, he⟩ := link_mention h hi
  obtain ⟨h1, h2, h3, h4, h5, h6, h7, h8⟩ :=
    walkMentions_spec (List.mem_iff_getElem?.mpr ⟨i, hm⟩)
  have e1 : (s.graph.node (s.graph.link i).«from»).path = m.key := congrArg Edge.src he
  have e2 : (s.graph.node (s.graph.link i).«to»).path = m.dst := congrArg Edge.dst he
  have e3 : (s.graph.link i).row = (m.row : Int) := congrArg Edge.row he
  have e4 : (s.graph.link i).col = m.locs.getD 2 0 := congrArg Edge.col he
  have e5 : (s.graph.link i).context = window (splitLines m.content) m.row :=
    congrArg Edge.context he
  exact ⟨m, hm, h1, h2, h3, by rw [e1]; exact h4, h5, h6, h7, by rw [e2]; exact h8, e3, e4, e5⟩

/-- C3 (amended): the `i`-th link of the graph that `BuildGraph` returns, with or without
error, was recorded for the `i`-th of the matches of the walk that get a link (the matches
taken file after file, line after line, and from left to right on a line): a match `locs`
on line `row` of a scanned file whose key is the path of the link's source node and whose
target resolves to the path of the link's target node; the link has that row, and its column
is the offset of the opening `[` of that match on the line plus one, which is the offset at
which the display text (capture group 1) starts. -/
theorem column_is_display_text_offset (rootDir : GoString) (walk : List WalkEntry)
    (s : Build) (hbuild : (BuildGraph rootDir walk).state? = some s)
    (i : Nat) (hi : i < s.graph.linkObjs.length) :
    ∃ m, (walkMentions rootDir walk)[i]? = some m ∧
      m.entry ∈ walk ∧ m.entry.content = .ok m.content ∧
      Rel rootDir m.entry.curPath = .ok (s.graph.node (s.graph.link i).«from»).path ∧
      (s.graph.link i).row = (m.row : Int) ∧
      (splitLines m.content)[m.row]? = some m.text ∧
      m.locs ∈ FindAllStringSubmatchIndex m.text ∧
      QueryUnescape (targetText m.text m.locs) = .ok m.decoded ∧
      Rel rootDir (Join [Dir m.entry.curPath, str "./", m.decoded]) =
        .ok (s.graph.node (s.graph.link i).«to»).path ∧
      ∃ off : Nat, m.locs.getD 0 0 = (off : Int) ∧
        m.text[off]? = some (byte '[') ∧
        (s.graph.link i).col = (off : Int) + 1 ∧
        (s.graph.link i).col = m.locs.getD 2 0 := by
  obtain ⟨m, hm, h1, _, h3, h4, h5, h6, h7, h8, h9, h10, _⟩ := link_recorded hbuild hi
  obtain ⟨off, n1, n2, hlocs, hoff⟩ := FindAll_mem h6
  refine ⟨m, hm, h1, h3, h4, h9, h5, h6, h7, h8, off, ?_, hoff, ?_, h10⟩
  · rw [hlocs]; simp [locsAt]
  · rw [h10, hlocs]; simp [locsAt]

/-- C3 (amended) at the tree `walkOneFile`, whose two mentions are on row 1 with their
opening brackets at offsets 0 and 10: the second link has column 11. -/
theorem column_is_display_text_offset_witness :
    (walkMentions (str "/p") walkOneFile).map (fun m => (m.row, m.locs.getD 0 0)) =
        [(1, 0), (1, 10)] ∧
    ∃ s, (BuildGraph (str "/p") walkOneFile).state? = some s ∧
      (s.graph.link 1).col = 11 ∧
      ∃ m, (walkMentions (str "/p") walkOneFile)[1]? = some m ∧
        m.entry ∈ walkOneFile ∧ m.entry.content = .ok m.content ∧
        Rel (str "/p") m.entry.curPath = .ok (s.graph.node (s.graph.link 1).«from»).path ∧
        (s.graph.link 1).row = (m.row : Int) ∧
        (splitLines m.content)[m.row]? = some m.text ∧
        m.locs ∈ FindAllStringSubmatchIndex m.text ∧
        QueryUnescape (targetText m.text m.locs) = .ok m.decoded ∧
        Rel (str "/p") (Join [Dir m.entry.curPath, str "./", m.decoded]) =
          .ok (s.graph.node (s.graph.link 1).«to»).path ∧
        ∃ off : Nat, m.locs.getD 0 0 = (off : Int) ∧
          m.text[off]? = some (byte '[') ∧
          (s.graph.link 1).col = (off : Int) + 1 ∧
          (s.graph.link 1).col = m.locs.getD 2 0 :=
  have hb : (BuildGraph (str "/p") walkOneFile).state? = some ⟨graphOneFile, 1⟩ := by decide
  ⟨by decide, _, hb, by decide,
    column_is_display_text_offset (str "/p") walkOneFile _ hb 1 (by decide)⟩

/-- C10: the `i`-th link of the graph that `BuildGraph` returns, with or without error, was
recorded for the `i`-th mention of the walk, a match in the scanned file whose key is the
path of the link's source node; the key of the link's target node is
`Rel(rootDir, Join(Dir(sourceFile), decodedTarget))` for the path of that file and the
decoded text of capture group 2 of that match, the `./` that the code puts between the two
arguments of `Join` making no difference, and the target node is registered under that key.
With root `/proj`, file `/proj/a/b/doc.md` and target `../sibling.md` the key is
`a/sibling.md`; with root `a` and file `a/b/doc.md` it is `sibling.md`.  For a scanned file
(its path ends in `.md`) whose key is `key`, the targets `name` and `./name`, where `name` is
the last element of the file's path, resolve to `key` too. -/
theorem target_key_is_relative_path (rootDir : GoString) (walk : List WalkEntry) (s : Build)
    (hbuild : (BuildGraph rootDir walk).state? = some s)
    (i : Nat) (hi : i < s.graph.linkObjs.length)
    (curPath key : GoString) (hmd : HasSuffix curPath (str ".md") = true)
    (hkey : Rel rootDir curPath = .ok key) :
    (∃ m, (walkMentions rootDir walk)[i]? = some m ∧
        m.entry ∈ walk ∧ m.entry.content = .ok m.content ∧
        Rel rootDir m.entry.curPath = .ok (s.graph.node (s.graph.link i).«from»).path ∧
        (s.graph.link i).row = (m.row : Int) ∧ (s.graph.link i).col = m.locs.getD 2 0 ∧
        (splitLines m.content)[m.row]? = some m.text ∧
        m.locs ∈ FindAllStringSubmatchIndex m.text ∧
        slice m.text (m.locs.getD 4 0) (m.locs.getD 5 0) = some (targetText m.text m.locs) ∧
        QueryUnescape (targetText m.text m.locs) = .ok m.decoded ∧
        Join [Dir m.entry.curPath, str "./", m.decoded] = Join [Dir m.entry.curPath, m.decoded] ∧
        Rel rootDir (Join [Dir m.entry.curPath, m.decoded]) =
          .ok (s.graph.node (s.graph.link i).«to»).path ∧
        ((s.graph.node (s.graph.link i).«to»).path, (s.graph.link i).«to») ∈ s.graph.nodes) ∧
      (Rel (str "/proj") (Join [Dir (str "/proj/a/b/doc.md"), str "../sibling.md"]) =
          .ok (str "a/sibling.md") ∧
        (BuildGraph (str "/proj") walkProj).state?.map (fun b => b.graph.nodes) =
          some [(str "a/b/doc.md", 0), (str "a/sibling.md", 1)]) ∧
      (Rel (str "a") (Join [Dir (str "a/b/doc.md"), str "../sibling.md"]) =
          .ok (str "sibling.md") ∧
        (BuildGraph (str "a") walkRelative).state?.map (fun b => b.graph.nodes) =
          some [(str "b/doc.md", 0), (str "sibling.md", 1)]) ∧
      (Rel rootDir (Join [Dir curPath, lastElem curPath]) = .ok key ∧
        Rel rootDir (Join [Dir curPath, str "./", lastElem curPath]) = .ok key ∧
        Rel rootDir (Join [Dir curPath, str "./", str "./" ++ lastElem curPath]) = .ok key) := by
  obtain ⟨hreach, _⟩ := BuildGraph_inv hbuild
  obtain ⟨m, hm, q1, _, q3, q4, q5, q6, q7, q8, q9, q10, _⟩ := link_recorded hbuild hi
  have hjoin : ∀ (p t : GoString), Join [Dir p, str "./", t] = Join [Dir p, t] :=
    fun p t => Join_dot_slash (dirPart p) t
  obtain ⟨h1, h2, h3⟩ := lastElem_of_md hmd
  obtain ⟨hs1, hs2⟩ := Join_self curPath h1 h2 h3
  refine ⟨⟨m, hm, q1, q3, q4, q9, q10, q5, q6, (FindAll_slices q6).2, q7, hjoin _ _, ?_, ?_⟩,
    ⟨by decide, by decide⟩, ⟨by decide, by decide⟩, ?_, ?_, ?_⟩
  · rw [← hjoin]; exact q8
  · exact hreach.wf.registered _ (hreach.wf.ends i hi).2
  · rw [← hjoin, hs1]; exact Rel_Clean_targ hkey
  · rw [hs1]; exact Rel_Clean_targ hkey
  · rw [hs2]; exact Rel_Clean_targ hkey

/-- C10 at the tree `walkOneFile`, for the link of `a.md` to `./a.md`: the mention is the
second match of the second line of `/p/a.md`, with target `./a.md`, and the key of the
target node is `a.md`, the key of the file itself. -/
theorem target_key_is_relative_path_witness :
    (walkMentions (str "/p") walkOneFile).map
        (fun m => (m.entry.curPath, m.row, m.decoded, m.dst)) =
      [(str "/p/a.md", 1, str "b.md", str "b.md"),
       (str "/p/a.md", 1, str "./a.md", str "a.md")] ∧
    (∃ s, (BuildGraph (str "/p") walkOneFile).state? = some s ∧
      (s.graph.node (s.graph.link 1).«to»).path = str "a.md" ∧
      ∃ m, (walkMentions (str "/p") walkOneFile)[1]? = some m ∧
        m.entry ∈ walkOneFile ∧ m.entry.content = .ok m.content ∧
        Rel (str "/p") m.entry.curPath = .ok (s.graph.node (s.graph.link 1).«from»).path ∧
        (s.graph.link 1).row = (m.row : Int) ∧ (s.graph.link 1).col = m.locs.getD 2 0 ∧
        (splitLines m.content)[m.row]? = some m.text ∧
        m.locs ∈ FindAllStringSubmatchIndex m.text ∧
        slice m.text (m.locs.getD 4 0) (m.locs.getD 5 0) = some (targetText m.text m.locs) ∧
        QueryUnescape (targetText m.text m.locs) = .ok m.decoded ∧
        Join [Dir m.entry.curPath, str "./", m.decoded] = Join [Dir m.entry.curPath, m.decoded] ∧
        Rel (str "/p") (Join [Dir m.entry.curPath, m.decoded]) =
          .ok (s.graph.node (s.graph.link 1).«to»).path ∧
        ((s.graph.node (s.graph.link 1).«to»).path, (s.graph.link 1).«to») ∈ s.graph.nodes) ∧
      (Rel (str "/p") (Join [Dir (str "/p/a.md"), lastElem (str "/p/a.md")]) =
          .ok (str "a.md") ∧
        Rel (str "/p") (Join [Dir (str "/p/a.md"), str "./", lastElem (str "/p/a.md")]) =
          .ok (str "a.md") ∧
        Rel (str "/p") (Join [Dir (str "/p/a.md"), str "./",
          str "./" ++ lastElem (str "/p/a.md")]) = .ok (str "a.md")) :=
  have hb : (BuildGraph (str "/p") walkOneFile).state? = some ⟨graphOneFile, 1⟩ := by decide
  ⟨by decide, ⟨_, hb, by decide,
    (target_key_is_relative_path (str "/p") walkOneFile _ hb 1 (by decide)
      (str "/p/a.md") (str "a.md") (by decide) (by decide)).1⟩,
    (target_key_is_relative_path (str "/p") walkOneFile _ hb 1 (by decide)
      (str "/p/a.md") (str "a.md") (by decide) (by decide)).2.2.2⟩

/-- C20: the `i`-th link of the graph that `BuildGraph` returns, with or without error, was
recorded for the `i`-th mention of the walk, a match on line `row` of the scanned file whose
key is the path of the link's source node; the link has that row, its context is non-empty
and contains that line: with `start = max(0, row-1)`, the element of the context at index
`row - start`, which is 0 when `row = 0` and 1 otherwise, is `lines[row]`, the line of the
match. -/
theorem context_contains_link_line (rootDir : GoString) (walk : List WalkEntry) (s : Build)
    (hbuild : (BuildGraph rootDir walk).state? = some s)
    (hsize : ∀ d ∈ walk, ∀ content, d.content = .ok content →
      (splitLines content).length ≤ maxLines)
    (i : Nat) (hi : i < s.graph.linkObjs.length) :
    ∃ m, (walkMentions rootDir walk)[i]? = some m ∧
      m.entry ∈ walk ∧ m.entry.content = .ok m.content ∧
      Rel rootDir m.entry.curPath = .ok (s.graph.node (s.graph.link i).«from»).path ∧
      m.locs ∈ FindAllStringSubmatchIndex m.text ∧
      QueryUnescape (targetText m.text m.locs) = .ok m.decoded ∧
      Rel rootDir (Join [Dir m.entry.curPath, str "./", m.decoded]) =
        .ok (s.graph.node (s.graph.link i).«to»).path ∧
      (s.graph.link i).col = m.locs.getD 2 0 ∧
      (s.graph.link i).row = (m.row : Int) ∧ m.row < (splitLines m.content).length ∧
      (splitLines m.content)[m.row]? = some m.text ∧
      (s.graph.link i).context ≠ [] ∧
      ∃ start : Nat, (start : Int) = max 0 ((m.row : Int) - 1) ∧
        m.row - start = (if m.row = 0 then 0 else 1) ∧
        (s.graph.link i).context[m.row - start]? = (splitLines m.content)[m.row]? ∧
        (s.graph.link i).context[m.row - start]? = some m.text := by
  obtain ⟨m, hm, h1, _, h3, h4, h5, h6, h7, h8, h9, h10, h11⟩ := link_recorded hbuild hi
  have hn := hsize m.entry h1 m.content h3
  have hrow : m.row < (splitLines m.content).length := by
    by_contra hge
    rw [List.getElem?_eq_none (by omega)] at h5
    cases h5
  have hb := window_bounds hn hrow
  have hs := @contextStart_eq m.row (by omega)
  have hctx : (s.graph.link i).context =
      ((splitLines m.content).drop (contextStart m.row).toNat).take
        ((contextEnd (splitLines m.content).length m.row).toNat -
          (contextStart m.row).toNat) := by
    rw [h11]
    unfold window
    rw [slice_eq_some hb.1 (by omega) hb.2.2.2.1]
    rfl
  have hget : (s.graph.link i).context[m.row - (contextStart m.row).toNat]? =
      (splitLines m.content)[m.row]? := by
    rw [hctx, List.getElem?_take, if_pos (by omega), List.getElem?_drop]
    congr 1
    omega
  refine ⟨m, hm, h1, h3, h4, h6, h7, h8, h10, h9, hrow, h5, ?_, (contextStart m.row).toNat,
    ?_, ?_, hget, ?_⟩
  · intro hnil
    rw [hnil, h5] at hget
    simp at hget
  · rw [← hs]; omega
  · split <;> omega
  · rw [hget, h5]

/-- C20 at the tree `walkOneFile`, for its first link, found on row 1: the element of the
context at index 1 is the line `[a](b.md) [a](./a.md)` of the match. -/
theorem context_contains_link_line_witness :
    (∀ d ∈ walkOneFile, ∀ content, d.content = .ok content →
      (splitLines content).length ≤ maxLines) ∧
    (graphOneFile.link 0).context[1]? = some (str "[a](b.md) [a](./a.md)") ∧
    ∃ m, (walkMentions (str "/p") walkOneFile)[0]? = some m ∧
      m.entry ∈ walkOneFile ∧ m.entry.content = .ok m.content ∧
      Rel (str "/p") m.entry.curPath = .ok (graphOneFile.node (graphOneFile.link 0).«from»).path ∧
      m.locs ∈ FindAllStringSubmatchIndex m.text ∧
      QueryUnescape (targetText m.text m.locs) = .ok m.decoded ∧
      Rel (str "/p") (Join [Dir m.entry.curPath, str "./", m.decoded]) =
        .ok (graphOneFile.node (graphOneFile.link 0).«to»).path ∧
      (graphOneFile.link 0).col = m.locs.getD 2 0 ∧
      (graphOneFile.link 0).row = (m.row : Int) ∧ m.row < (splitLines m.content).length ∧
      (splitLines m.content)[m.row]? = some m.text ∧
      (graphOneFile.link 0).context ≠ [] ∧
      ∃ start : Nat, (start : Int) = max 0 ((m.row : Int) - 1) ∧
        m.row - start = (if m.row = 0 then 0 else 1) ∧
        (graphOneFile.link 0).context[m.row - start]? = (splitLines m.content)[m.row]? ∧
        (graphOneFile.link 0).context[m.row - start]? = some m.text :=
  have hb : (BuildGraph (str "/p") walkOneFile).state? = some ⟨graphOneFile, 1⟩ := by decide
  have hsize : ∀ d ∈ walkOneFile, ∀ content, d.content = .ok content →
      (splitLines content).length ≤ maxLines := by
    intro d hd content hc
    simp only [walkOneFile, List.mem_cons, List.mem_singleton, List.not_mem_nil, or_false] at hd
    rcases hd with rfl | rfl
    · simp at hc
    · simp only [Except.ok.injEq] at hc
      subst hc
      decide
  ⟨hsize, by decide,
    context_contains_link_line (str "/p") walkOneFile ⟨graphOneFile, 1⟩ hb hsize 0 (by decide)⟩

/-! ## Results on the order of the walk and on the outbound links when the scan stops -/

theorem linkBody_nodes {rootDir curPath : GoString} {lines : List GoString}
    {node row : Nat} {text : GoString} {g g1 : Graph} {locs : List Int}
    (h : (linkBody rootDir curPath lines node row text g locs).state? = some g1) :
    g.nodes ⊆ g1.nodes := by
  cases hres : linkBody rootDir curPath lines node row text g locs with
  | next g2 =>
    rw [hres] at h
    simp only [Res.state?, Option.some.injEq] at h
    subst h
    obtain ⟨_, dst, _, hg⟩ := (linkBody_next_iff ..).1 hres
    rw [hg, LinkTo_nodes]
    exact GetNode_nodes_subset g dst
  | stop g2 e =>
    rw [hres] at h
    simp only [Res.state?, Option.some.injEq] at h
    subst h
    rw [linkBody_stop_state hres]
    exact fun _ hx => hx
  | panic => rw [hres] at h; simp [Res.state?] at h

theorem walkFn_nodes (rootDir : GoString) (d : WalkEntry) (s s1 : Build)
    (h : (walkFn rootDir s d).state? = some s1) : s.graph.nodes ⊆ s1.graph.nodes := by
  unfold walkFn at h
  split at h
  · simp only [Res.state?, Option.some.injEq] at h; subst h; exact fun _ hx => hx
  · split at h
    · simp only [Res.state?, Option.some.injEq] at h; subst h; exact fun _ hx => hx
    · split at h
      · simp only [Res.state?, Option.some.injEq] at h; subst h; exact fun _ hx => hx
      · simp only [] at h
        split at h
        · simp only [Res.state?, Option.some.injEq] at h; subst h; exact fun _ hx => hx
        · rename_i content _
          split at h
          · simp only [Res.state?, Option.some.injEq] at h; subst h; exact fun _ hx => hx
          · rename_i key _
            have hloop : ∀ g1, (forEach (lineBody rootDir d.curPath (splitLines content)
                (GetNode s.graph key).2) (splitLines content).enum
                (GetNode s.graph key).1).state? = some g1 → s.graph.nodes ⊆ g1.nodes := by
              intro g1 hg1
              refine forEach_inv (fun g => s.graph.nodes ⊆ g.nodes) _ _ ?_ _ g1
                (GetNode_nodes_subset s.graph key) hg1
              intro rl _ ga gb hga hgb
              unfold lineBody at hgb
              refine forEach_inv (fun g => s.graph.nodes ⊆ g.nodes) _ _ ?_ ga gb hga hgb
              intro locs _ gc gd hgc hgd
              exact fun x hx => linkBody_nodes hgd (hgc hx)
            split at h
            · rename_i g1 hfe
              simp only [Res.state?, Option.some.injEq] at h; subst h
              exact hloop g1 (by rw [hfe]; rfl)
            · rename_i g1 err hfe
              simp only [Res.state?, Option.some.injEq] at h; subst h
              exact hloop g1 (by rw [hfe]; rfl)
            · simp [Res.state?] at h

theorem forEach_walkFn_nodes (rootDir : GoString) (walk : List WalkEntry) (s0 s : Build)
    (h : (forEach (walkFn rootDir) walk s0).state? = some s) :
    s0.graph.nodes ⊆ s.graph.nodes :=
  forEach_inv (fun s1 => s0.graph.nodes ⊆ s1.graph.nodes) _ _
    (fun d _ sa sb hsa hsb => fun _ hx => walkFn_nodes rootDir d sa sb hsb (hsa hx))
    s0 s (fun _ hx => hx) h

/-- C18 (as stated, refuted): the two files of `walkBadFirst`, of which `a.md` has a target
that cannot be decoded, scanned in the order `a.md`, `b.md` and in the other order:
`BuildGraph` returns, with the error, graphs with different edges, keys and numbers of
scanned files. -/
theorem edges_independent_of_order_counterexample :
    walkBadFirst.Perm walkBadFirst.reverse ∧
    (BuildGraph (str "/p") walkBadFirst).state?.map (fun s =>
        s.graph.edges.map (fun e => (e.src, e.dst, e.row, e.col))) =
      some [(str "a.md", str "b.md", 0, 1)] ∧
    (BuildGraph (str "/p") walkBadFirst).state?.map (fun s => (s.graph.keys, s.nMDs)) =
      some ([str "a.md", str "b.md"], 1) ∧
    (BuildGraph (str "/p") walkBadFirst.reverse).state?.map (fun s =>
        s.graph.edges.map (fun e => (e.src, e.dst, e.row, e.col))) =
      some [(str "b.md", str "c.md", 0, 1), (str "a.md", str "b.md", 0, 1)] ∧
    (BuildGraph (str "/p") walkBadFirst.reverse).state?.map
        (fun s => (s.graph.keys, s.nMDs)) =
      some ([str "b.md", str "c.md", str "a.md"], 2) :=
  ⟨(List.reverse_perm _).symm, by decide, by decide, by decide, by decide⟩

/-- C18 (amended) at the tree `walkAB`, scanned in the order `a.md`, `b.md` and in the other
order: the three edges are recorded in another order, and are the same. -/
theorem edges_independent_of_order_witness :
    walkAB.Perm walkAB.reverse ∧
    BuildGraph (str "/p") walkAB = .next ⟨graphAB, 2⟩ ∧
    graphAB.edges.map (fun e => (e.src, e.dst, e.row, e.col)) =
      [(str "a.md", str "b.md", 0, 1), (str "b.md", str "a.md", 0, 1),
       (str "b.md", str "c.md", 1, 1)] ∧
    ∃ s2, BuildGraph (str "/p") walkAB.reverse = .next s2 ∧
      s2.graph.edges.map (fun e => (e.src, e.dst, e.row, e.col)) =
        [(str "b.md", str "a.md", 0, 1), (str "b.md", str "c.md", 1, 1),
         (str "a.md", str "b.md", 0, 1)] ∧
      graphAB.edges.Perm s2.graph.edges ∧
      (∀ src dst row col,
        (∃ e ∈ graphAB.edges, e.src = src ∧ e.dst = dst ∧ e.row = row ∧ e.col = col) ↔
        (∃ e ∈ s2.graph.edges, e.src = src ∧ e.dst = dst ∧ e.row = row ∧ e.col = col)) ∧
      (∀ k, k ∈ graphAB.keys ↔ k ∈ s2.graph.keys) ∧
      graphAB.nodes.length = s2.graph.nodes.length ∧ (2 : Int) = s2.nMDs := by
  have h1 : BuildGraph (str "/p") walkAB = .next ⟨graphAB, 2⟩ := by decide
  obtain ⟨s2, h2, h3, h4, h5, h6, h7, _⟩ := edges_independent_of_order (str "/p") walkAB
    walkAB.reverse (List.reverse_perm _).symm _ h1
  refine ⟨(List.reverse_perm _).symm, h1, by decide, s2, h2, ?_, h3, h4, h5, h6, h7⟩
  have hdec : BuildGraph (str "/p") walkAB.reverse =
      .next ⟨⟨[(str "b.md", 0), (str "a.md", 1), (str "c.md", 2)],
        [⟨str "b.md", [2], [0, 1]⟩, ⟨str "a.md", [0], [2]⟩, ⟨str "c.md", [1], []⟩],
        [⟨0, 1, 0, 1, [str "[a](a.md)", str "[c](c.md)"]⟩,
         ⟨1, 1, 0, 2, [str "[a](a.md)", str "[c](c.md)"]⟩,
         ⟨0, 1, 1, 0, [str "[b](b.md)"]⟩]⟩, 2⟩ := by decide
  rw [hdec] at h2
  simp only [Res.next.injEq] at h2
  subst h2
  decide

/-- C19 (as stated, refuted): in the walk `walkBadEscape` the file `a.md` is scanned once
and has five matches, the third of which has a target that cannot be decoded; in the graph
that `BuildGraph` returns, the node of `a.md` has two `outLinks`. -/
theorem outLinks_one_per_match_counterexample :
    (walkBadEscape.filter (fun d => d.scanned && decide (Rel (str "/p") d.curPath =
      .ok (str "a.md")))).map (fun d => d.curPath) = [str "/p/a.md"] ∧
    (fileMatches (splitLines
      (str "[b](b.md)\n[y](y.md) [x](a%zz.md) [c](c.md)\n[d](d.md)"))).length = 5 ∧
    (BuildGraph (str "/p") walkBadEscape).state? = some ⟨graphBadEscape, 1⟩ ∧
    graphBadEscape.lookup (str "a.md") = some 0 ∧
    (graphBadEscape.node 0).outLinks = [0, 1] := by
  decide

/-- C19 (amended): when `BuildGraph` has scanned the entries `pre` and then the entry `d`,
with content `content`, without error, `d` being the only scanned entry of the walk with key
`key`, then in the graph that `BuildGraph` returns for the walk, with or without an error
from a later entry, the `outLinks` of the node registered under `key` stand, in their order,
for the edges of the matches of the pattern in the file, one edge per match and in document
order: the row of an edge is the index of the line of the match among the lines of the
content split at newlines, and its column is the offset of capture group 1; along
`outLinks` rows do not decrease and, within one row, columns increase; the number of
`outLinks` is the sum over the lines of the numbers of their matches. -/
theorem outLinks_one_per_match (rootDir : GoString) (pre post : List WalkEntry)
    (d : WalkEntry) (content key : GoString) (s1 s : Build)
    (hdone : BuildGraph rootDir (pre ++ [d]) = .next s1)
    (hbuild : (BuildGraph rootDir (pre ++ d :: post)).state? = some s)
    (hd : d.scanned = true) (hc : d.content = .ok content)
    (hk : Rel rootDir d.curPath = .ok key)
    (honce : ∀ d1 ∈ pre ++ post, d1.scanned = true → Rel rootDir d1.curPath ≠ .ok key) :
    ∃ node, s.graph.lookup key = some node ∧
      (s.graph.node node).outLinks.map (fun l => s.graph.edgeOf (s.graph.link l)) =
        linesEdges rootDir d.curPath key (splitLines content) ∧
      (s.graph.node node).outLinks.map
          (fun l => ((s.graph.link l).row, (s.graph.link l).col)) =
        (fileMatches (splitLines content)).map (fun m => ((m.1 : Int), m.2.getD 2 0)) ∧
      ((s.graph.node node).outLinks.map s.graph.link).Pairwise
        (fun a b => a.row ≤ b.row ∧ (a.row = b.row → a.col < b.col)) ∧
      (s.graph.node node).outLinks.length =
        ((splitLines content).map
          (fun text => (FindAllStringSubmatchIndex text).length)).sum := by
  obtain ⟨hr1, _, hkeys, _⟩ := BuildGraph_summary rootDir _ s1 hdone
  have hedges1 := BuildGraph_edges hdone
  have hrest : (forEach (walkFn rootDir) post s1).state? = some s := by
    have : pre ++ d :: post = (pre ++ [d]) ++ post := by simp
    unfold BuildGraph at hbuild hdone
    rw [this, forEach_append, hdone] at hbuild
    exact hbuild
  obtain ⟨hr, X, hX, hedges⟩ := forEach_walkFn_edges rootDir post s1 s hr1 hrest
  have hnodes := forEach_walkFn_nodes rootDir post s1 s hrest
  have hw := hr.wf
  have hok := (BuildGraph_next_iff rootDir _).1 ⟨s1, hdone⟩ d (by simp)
  have hsc := hd
  unfold WalkEntry.scanned at hsc
  simp only [Bool.and_eq_true, Option.isNone_iff_eq_none, Bool.not_eq_true'] at hsc
  obtain ⟨⟨h1, h2⟩, h3⟩ := hsc
  have hmatch : ∀ rl ∈ (splitLines content).enum, ∀ locs ∈ FindAllStringSubmatchIndex rl.2,
      ∃ dst, targetKey rootDir d.curPath (targetText rl.2 locs) = .ok dst := by
    rcases hok.2 with h | h | ⟨c2, k2, hc2, _, h⟩
    · rw [h2] at h; cases h
    · rw [h3] at h; cases h
    · rw [hc] at hc2
      simp only [Except.ok.injEq] at hc2
      subst hc2
      exact fun rl hrl locs hlocs => (h rl hrl locs hlocs).2.2.2
  have hfile : fileEdges rootDir d = linesEdges rootDir d.curPath key (splitLines content) := by
    unfold fileEdges
    simp [hd, hc, hk]
  -- the node of the file
  have hmem1 : key ∈ s1.graph.keys := by
    refine (hkeys key).2 ⟨(key, linesEdges rootDir d.curPath key (splitLines content)), ?_,
      Or.inl rfl⟩
    refine List.mem_flatten.2 ⟨_, List.mem_map.2 ⟨d, by simp, rfl⟩, ?_⟩
    unfold fileSummary
    simp [hd, hc, hk]
  obtain ⟨kv, hkv1, hfst⟩ := List.mem_map.1 hmem1
  have hkv := hnodes hkv1
  obtain ⟨k, node⟩ := kv
  simp only [] at hfst
  subst hfst
  have hreg := hw.registry (k, node) hkv
  simp only [] at hreg
  have hout : (s.graph.node node).outLinks.map (fun l => s.graph.edgeOf (s.graph.link l)) =
      linesEdges rootDir d.curPath k (splitLines content) := by
    rw [hr.outLinks_edges hreg.1, hreg.2, hedges, hedges1]
    have hsplit : walkEdges rootDir (pre ++ [d]) =
        walkEdges rootDir pre ++ fileEdges rootDir d := by
      simp [walkEdges]
    have hXnil : X.filter (fun e => decide (e.src = k)) = [] := by
      rw [List.filter_eq_nil_iff]
      intro e he
      have := walkEdges_filter_other post
        (fun x hx => honce x (List.mem_append_right _ hx))
      rw [List.filter_eq_nil_iff] at this
      exact this e (hX.subset he)
    rw [hsplit, List.filter_append, List.filter_append,
      walkEdges_filter_other pre (fun x hx => honce x (List.mem_append_left _ hx)),
      hXnil, hfile, List.nil_append, List.append_nil, List.filter_eq_self]
    intro e he
    simp [linesEdges_src _ _ _ _ e he]
  have hrc : (s.graph.node node).outLinks.map
      (fun l => ((s.graph.link l).row, (s.graph.link l).col)) =
      (fileMatches (splitLines content)).map (fun m => ((m.1 : Int), m.2.getD 2 0)) := by
    rw [← linesEdges_rows_cols rootDir d.curPath k (splitLines content) hmatch, ← hout,
      List.map_map]
    rfl
  refine ⟨node, lookup_of_mem_nodup hkv hw.nodup, hout, hrc, ?_, ?_⟩
  · have hp := fileMatches_pairwise (splitLines content)
    have hp2 : ((fileMatches (splitLines content)).map
        (fun m => ((m.1 : Int), m.2.getD 2 0))).Pairwise
        (fun a b => a.1 ≤ b.1 ∧ (a.1 = b.1 → a.2 < b.2)) := by
      rw [List.pairwise_map]
      refine hp.imp ?_
      intro a b hab
      simp only []
      exact ⟨by exact_mod_cast hab.1, fun h => hab.2 (by exact_mod_cast h)⟩
    rw [← hrc, List.pairwise_map] at hp2
    rw [List.pairwise_map]
    exact hp2
  · have := congrArg List.length hrc
    rw [List.length_map, List.length_map, fileMatches_length] at this
    exact this

/-- C19 (amended) at the walk `walkBadLast`: the file `a.md` is scanned without error and
has two matches, on rows 0 and 1; `BuildGraph` then returns an error for `b.md`, and the
node of `a.md` has the two `outLinks` of these matches. -/
theorem outLinks_one_per_match_witness :
    BuildGraph (str "/p") walkBadLast = .stop ⟨graphBadLast, 2⟩ (.escape (str "%zz")) ∧
    ∃ node, graphBadLast.lookup (str "a.md") = some node ∧
      (graphBadLast.node node).outLinks.map
          (fun l => ((graphBadLast.link l).row, (graphBadLast.link l).col)) =
        [(0, 1), (1, 1)] ∧
      (graphBadLast.node node).outLinks.length = 2 := by
  have hstop : BuildGraph (str "/p") walkBadLast =
      .stop ⟨graphBadLast, 2⟩ (.escape (str "%zz")) := by decide
  have hdone : BuildGraph (str "/p")
      ([] ++ [⟨str "/p/a.md", none, false, .ok (str "[b](b.md)\n[c](c.md)")⟩]) =
      .next ⟨graphBadLast, 1⟩ := by decide
  obtain ⟨node, h1, _, h3, _, h5⟩ := outLinks_one_per_match (str "/p") []
    [⟨str "/p/b.md", none, false, .ok (str "[x](a%zz.md)")⟩]
    ⟨str "/p/a.md", none, false, .ok (str "[b](b.md)\n[c](c.md)")⟩
    (str "[b](b.md)\n[c](c.md)") (str "a.md") _ ⟨graphBadLast, 2⟩ hdone
    (by decide) (by decide) rfl (by decide) (by
      intro d1 hd1 hsc
      simp only [List.nil_append, List.mem_singleton] at hd1
      subst hd1
      revert hsc
      decide)
  refine ⟨hstop, node, h1, ?_, ?_⟩
  · rw [h3]; decide
  · rw [h5]; decide

end MdLinks
